import Mathlib

/-!
Verification of the coven control-flow analyzer and coverage reconciler
(`coven.py`) by a shallow embedding into Lean.

Conventions of the embedding:
* Python integers, bytecode offsets and line numbers are `Int` (the sentinel
  offsets and lines `OFF_BEGIN = -1`, `OFF_RAISED = -2`, `OFF_RETURN = -3`
  are negative and never collide with real values).
* Python dicts keyed by instruction objects are modelled as association
  lists keyed by the instruction offset: offsets are unique per code unit
  and `dis.Instruction` equality is structural equality of the base fields
  (which include the offset), so the offset is a faithful key.  Dict
  assignment is `assocSet` (replace in place or append), matching Python
  insertion-order semantics; `dict.__getitem__` is `assocGet`, with a
  missing key modelled as the `PyErr.keyError` exception.
* `defaultdict(set)` accumulators are association lists whose values are
  duplicate-free lists treated as sets.
* Python exceptions (KeyError, NameError, AssertionError, the explicit
  `raise Exception`) are the `Except PyErr` monad.
* The unbounded `while` loops (`visit_nodes`, the arc walk of
  `find_arcs`) take explicit fuel; running out of fuel is the distinguished
  error `PyErr.fuel`, which models the possibility of divergence.  Concrete
  evaluations below always carry enough fuel.
* Sets popped in nondeterministic order in Python (`set.pop`,
  set iteration) are modelled as insertion-ordered duplicate-free lists
  popped from the front; this resolves the nondeterminism deterministically.
-/

/-- Python exceptions and abnormal outcomes arising in the analyzer. -/
inductive PyErr where
  /-- `dict[key]` with a missing key (including `insts[None]`). -/
  | keyError : PyErr
  /-- Reading a never-assigned local variable. -/
  | nameError : PyErr
  /-- An operation applied to a value of the wrong runtime type. -/
  | typeError : PyErr
  /-- The `assert line > 0` assertions in `emit_edges` and `add_edges`. -/
  | assertLine : PyErr
  /-- Any other failing `assert`. -/
  | assertOther : PyErr
  /-- An explicit `raise Exception(...)` reporting a structural anomaly. -/
  | structural : PyErr
  /-- Fuel exhaustion of the embedding (models potential divergence). -/
  | fuel : PyErr
deriving DecidableEq, Repr

deriving instance DecidableEq for Except

/-- Fake instruction offset: source of the initial edge (`OFF_BEGIN`). -/
def OFF_BEGIN : Int := -1
/-- Fake instruction offset: synthetic source of exception edges. -/
def OFF_RAISED : Int := -2
/-- Fake line number paired with `OFF_BEGIN`. -/
def LINE_BEGIN : Int := -1
/-- Fake line number paired with `OFF_RAISED`. -/
def LINE_RAISED : Int := -2
/-- Fake opcode of the `_begin_inst` pseudo-instruction. -/
def OP_BEGIN : Int := -1
/-- Fake opcode of the `_raised_inst` pseudo-instruction. -/
def OP_RAISED : Int := -2

/-! Opcode numbers of CPython 3.7 (`dis.opmap`), as bound at module scope
in the source.  Only distinctness of the values matters to the logic. -/

def YIELD_FROM : Int := 72
def BREAK_LOOP : Int := 80
def WITH_CLEANUP_START : Int := 81
def WITH_CLEANUP_FINISH : Int := 82
def RETURN_VALUE : Int := 83
def YIELD_VALUE : Int := 86
def POP_BLOCK : Int := 87
def END_FINALLY : Int := 88
def POP_EXCEPT : Int := 89
def FOR_ITER : Int := 93
def LOAD_CONST : Int := 100
def COMPARE_OP : Int := 107
def JUMP_FORWARD : Int := 110
def JUMP_IF_FALSE_OR_POP : Int := 111
def JUMP_IF_TRUE_OR_POP : Int := 112
def JUMP_ABSOLUTE : Int := 113
def POP_JUMP_IF_FALSE : Int := 114
def POP_JUMP_IF_TRUE : Int := 115
def LOAD_GLOBAL : Int := 116
def CONTINUE_LOOP : Int := 119
def SETUP_LOOP : Int := 120
def SETUP_EXCEPT : Int := 121
def SETUP_FINALLY : Int := 122
def LOAD_FAST : Int := 124
def STORE_FAST : Int := 125
def DELETE_FAST : Int := 126
def RAISE_VARARGS : Int := 130
def CALL_FUNCTION : Int := 131
def SETUP_WITH : Int := 143
def EXTENDED_ARG : Int := 144
def SETUP_ASYNC_WITH : Int := 154
def POP_TOP : Int := 1
def DUP_TOP : Int := 4

/-- `jump_opcodes` of the source. -/
def jump_opcodes : List Int :=
  [CONTINUE_LOOP, FOR_ITER, JUMP_ABSOLUTE, JUMP_IF_FALSE_OR_POP,
   JUMP_IF_TRUE_OR_POP, POP_JUMP_IF_FALSE, POP_JUMP_IF_TRUE, JUMP_FORWARD]

/-- `stop_opcodes` of the source: these never advance to the next instruction. -/
def stop_opcodes : List Int :=
  [BREAK_LOOP, CONTINUE_LOOP, JUMP_ABSOLUTE, JUMP_FORWARD, RAISE_VARARGS,
   RETURN_VALUE, YIELD_VALUE, YIELD_FROM]

/-- `setup_opcodes` of the source: these push a block with a destination. -/
def setup_opcodes : List Int :=
  [SETUP_ASYNC_WITH, SETUP_EXCEPT, SETUP_FINALLY, SETUP_LOOP, SETUP_WITH]

/-- `setup_exc_opcodes` of the source: these expect an exception edge landing
at the block destination.  `SETUP_LOOP` is deliberately excluded. -/
def setup_exc_opcodes : List Int :=
  [SETUP_ASYNC_WITH, SETUP_EXCEPT, SETUP_FINALLY, SETUP_WITH]

/-- The heterogeneous `argval` field of a `dis.Instruction`: an integer
(jump or setup target, constant), `None`, or a string (global names). -/
inductive ArgVal where
  | vnone : ArgVal
  | vint : Int → ArgVal
  | vstr : String → ArgVal
deriving DecidableEq, Repr

/-- Extract an integer argval; anything else is a runtime type mismatch. -/
def ArgVal.asInt : ArgVal → Except PyErr Int
  | .vint n => .ok n
  | _ => .error .typeError

/-- A raw instruction as produced by `dis.get_instructions`: the fields the
analyzer reads before enhancement. -/
structure RawInst where
  opcode : Int
  argval : ArgVal
  argrepr : String
  offset : Int
  starts_line : Option Int
deriving DecidableEq, Repr

/-- An enhanced instruction: the raw fields plus those added by
`enhance_inst` and the flags assigned during the scan. -/
structure Inst where
  opcode : Int
  argval : ArgVal
  argrepr : String
  off : Int
  line : Int
  is_line_start : Bool
  stack : List (Int × Int)
  is_SF_exc_opt : Bool
  is_call_exit : Bool
  is_exc_match : Bool
  is_exc_match_jmp_src : Bool
  is_exc_match_jmp_dst : Bool
deriving DecidableEq, Repr

/-- `_begin_inst`: pseudo-source of the initial edge and of generator
resume edges. -/
def _begin_inst : Inst :=
  { opcode := OP_BEGIN, argval := .vnone, argrepr := "", off := OFF_BEGIN,
    line := LINE_BEGIN, is_line_start := false, stack := [],
    is_SF_exc_opt := false, is_call_exit := false, is_exc_match := false,
    is_exc_match_jmp_src := false, is_exc_match_jmp_dst := false }

/-- `_raised_inst`: pseudo-source of every edge entering an exception
handler. -/
def _raised_inst : Inst :=
  { opcode := OP_RAISED, argval := .vnone, argrepr := "", off := OFF_RAISED,
    line := LINE_RAISED, is_line_start := false, stack := [],
    is_SF_exc_opt := false, is_call_exit := false, is_exc_match := false,
    is_exc_match_jmp_src := false, is_exc_match_jmp_dst := false }

/-! Association-list dictionaries (insertion ordered, Python semantics). -/

/-- `d.get(k)` on an association list: the value at the first matching key. -/
def assocGet {β : Type} (m : List (Int × β)) (k : Int) : Option β :=
  (m.find? (fun p => p.1 = k)).map (·.2)

/-- `d[k] = v`: replace the value in place if the key exists, else append. -/
def assocSet {β : Type} (m : List (Int × β)) (k : Int) (v : β) : List (Int × β) :=
  match m with
  | [] => [(k, v)]
  | (k', v') :: rest =>
    if k' = k then (k, v) :: rest else (k', v') :: assocSet rest k v

/-- `d[k]` with the Python `KeyError` on a missing key. -/
def assocIndex {β : Type} (m : List (Int × β)) (k : Int) : Except PyErr β :=
  match assocGet m k with
  | some v => .ok v
  | none => .error .keyError

/-- Add an element to a list treated as a set (no duplicates, insertion
order preserved): `set.add`. -/
def setAdd {α : Type} [DecidableEq α] (s : List α) (x : α) : List α :=
  if x ∈ s then s else s ++ [x]

/-- `set.update`: fold `setAdd` over the new elements. -/
def setUpdate {α : Type} [DecidableEq α] (s : List α) (xs : List α) : List α :=
  xs.foldl setAdd s

/-- `defaultdict(set)` insertion `d[k].add(x)` keyed by edge. -/
def mapSetAdd {κ : Type} [DecidableEq κ] {α : Type} [DecidableEq α]
    (m : List (κ × List α)) (k : κ) (x : α) : List (κ × List α) :=
  match m with
  | [] => [(k, [x])]
  | (k', s) :: rest =>
    if k' = k then (k, setAdd s x) :: rest else (k', s) :: mapSetAdd rest k x

/-- `defaultdict(set)` update `d[k].update(xs)`. -/
def mapSetUpdate {κ : Type} [DecidableEq κ] {α : Type} [DecidableEq α]
    (m : List (κ × List α)) (k : κ) (xs : List α) : List (κ × List α) :=
  match m with
  | [] => [(k, setUpdate [] xs)]
  | (k', s) :: rest =>
    if k' = k then (k, setUpdate s xs) :: rest else (k', s) :: mapSetUpdate rest k xs

/-- Lookup in a `defaultdict(set)`-style association list (no default
materialization; `none` plays the role of a missing key). -/
def mapGet {κ : Type} [DecidableEq κ] {α : Type}
    (m : List (κ × List α)) (k : κ) : Option (List α) :=
  (m.find? (fun p => p.1 = k)).map (·.2)

/-- Python truthiness of an optional integer (`None` and `0` are falsy). -/
def pyTruthy : Option Int → Bool
  | none => false
  | some n => n ≠ 0

/-- `a or b` for an optional integer `a` and integer `b`. -/
def pyOr (a : Option Int) (b : Int) : Int :=
  match a with
  | some n => if n = 0 then b else n
  | none => b

/-! ## Step 1 of `crawl_code_insts`: scan raw instructions, assemble structure -/

/-- The mutable state of the step-1 scan loop of `crawl_code_insts`. -/
structure ScanState where
  /-- `insts`: offsets (accounting for `EXTENDED_ARG`) to instructions.
  Initially holds the two pseudo-instructions. -/
  insts : List (Int × Inst)
  /-- `nexts`: offset of an instruction to the offset of its successor. -/
  nexts : List (Int × Int)
  /-- `prevs`: offset of an instruction to the offset of its predecessor. -/
  prevs : List (Int × Int)
  /-- `blocks`: the live `(setup_op, handler_off)` pairs, innermost last. -/
  blocks : List (Int × Int)
  /-- `prev`: the previously recorded instruction (initially `_begin_inst`). -/
  prev : Inst
  /-- `exc_match_jmp_dsts`: target offsets of exception-match jumps. -/
  exc_match_jmp_dsts : List Int
  /-- `ext`: the first preceding `EXTENDED_ARG`, if any. -/
  ext : Option RawInst
  /-- The module-level local `dst` last assigned by the setup-opcode branch;
  `none` models the variable never having been assigned. -/
  staleDst : Option Int
deriving Repr

/-- The initial scan state. -/
def initScanState : ScanState :=
  { insts := [(OFF_BEGIN, _begin_inst), (OFF_RAISED, _raised_inst)],
    nexts := [], prevs := [], blocks := [], prev := _begin_inst,
    exc_match_jmp_dsts := [], ext := none, staleDst := none }

/-- Helper for `popBlocks`, working on the reversed stack (innermost first). -/
def popBlocksRev (rev : List (Int × Int)) (off : Int) : List (Int × Int) :=
  match rev with
  | [] => []
  | b :: rest => if b.2 = off then popBlocksRev rest off else rev

/-- `while blocks and blocks[-1][1] == off: blocks.pop()` -/
def popBlocks (blocks : List (Int × Int)) (off : Int) : List (Int × Int) :=
  (popBlocksRev blocks.reverse off).reverse

/-- The setup-opcode arm of the step-1 scan loop body: extract the block
destination from `argval`, assert the block nesting, push the block, and
assign the module-level local `dst`. -/
def scanSetup (op : Int) (a : ArgVal) (blocks : List (Int × Int))
    (sd : Option Int) : Except PyErr (List (Int × Int) × Option Int) := do
  if op ∈ setup_opcodes then do
    let dst ← a.asInt
    if blocks.all (fun b => dst ≤ b.2) then pure (blocks ++ [(op, dst)], some dst)
    else .error .assertOther
  else pure (blocks, sd)

/-- The `is_call_exit` computation of the step-1 scan loop body: a call
opcode preceded by (optionally a `LOAD_CONST`, then) a `LOAD_GLOBAL` of
the name `exit`. -/
def scanCallExit (st : ScanState) (op : Int) : Except PyErr Bool := do
  if op = CALL_FUNCTION then do
    let p := st.prev
    let p ←
      if p.opcode = LOAD_CONST then do
        let poff ← assocIndex st.prevs p.off
        assocIndex st.insts poff
      else pure p
    pure (decide (p.opcode = LOAD_GLOBAL ∧ p.argval = .vstr "exit"))
  else pure false

/-- The exception-match-jump computation of the step-1 scan loop body. -/
def scanJmp (st : ScanState) (op : Int) (r : RawInst) :
    Except PyErr (Bool × List Int) := do
  if st.prev.is_exc_match then
    if op = POP_JUMP_IF_FALSE then do
      let dstv ← r.argval.asInt
      pure (true, setAdd st.exc_match_jmp_dsts dstv)
    else .error .assertOther
  else pure (false, st.exc_match_jmp_dsts)

/-- The pending `EXTENDED_ARG` after one scan iteration sees `r`. -/
def scanExt (st : ScanState) (r : RawInst) : Option RawInst :=
  if r.opcode = EXTENDED_ARG ∧ st.ext = none then some r else st.ext

/-- The recorded offset of the scan iteration (the pending `EXTENDED_ARG`
one when present). -/
def scanOff (st : ScanState) (r : RawInst) : Int :=
  match scanExt st r with | some e => e.offset | none => r.offset

/-- The effective `starts_line` of the scan iteration. -/
def scanSL (st : ScanState) (r : RawInst) : Option Int :=
  match scanExt st r with | some e => e.starts_line | none => r.starts_line

/-- The line carry of the scan iteration: `starts_line or prev.line`. -/
def scanLine (st : ScanState) (r : RawInst) : Int :=
  pyOr (scanSL st r) st.prev.line

/-- One iteration of the step-1 scan loop of `crawl_code_insts`, for a raw
instruction `r`: the sub-computations of the loop body are the named
functions above. -/
def scanStep (st : ScanState) (r : RawInst) : Except PyErr ScanState := do
  let op := r.opcode
  let ext := scanExt st r
  let off := scanOff st r
  let starts_line := scanSL st r
  let line := scanLine st r
  let (blocks, staleDst) ← scanSetup op r.argval (popBlocks st.blocks off) st.staleDst
  if op = EXTENDED_ARG then
    -- `continue`: the instruction is not recorded and `prev` is unchanged.
    return { st with blocks := blocks, ext := ext, staleDst := staleDst }
  let is_call_exit ← scanCallExit st op
  let is_exc_match := decide (op = COMPARE_OP ∧ r.argrepr = "exception match")
  let (is_exc_match_jmp_src, jmpDsts) ← scanJmp st op r
  let inst : Inst :=
    { opcode := op, argval := r.argval, argrepr := r.argrepr, off := off,
      line := line, is_line_start := pyTruthy starts_line, stack := blocks,
      is_SF_exc_opt := false, is_call_exit := is_call_exit,
      is_exc_match := is_exc_match,
      is_exc_match_jmp_src := is_exc_match_jmp_src,
      is_exc_match_jmp_dst := decide (off ∈ jmpDsts) }
  return { insts := assocSet st.insts off inst,
           nexts := assocSet st.nexts st.prev.off off,
           prevs := assocSet st.prevs off st.prev.off,
           blocks := blocks, prev := inst,
           exc_match_jmp_dsts := jmpDsts, ext := none, staleDst := staleDst }

/-- Step 1 of `crawl_code_insts`: the scan over the raw instruction list. -/
def scanInsts (raws : List RawInst) : Except PyErr ScanState :=
  raws.foldlM scanStep initScanState

/-! ## `find_block_dst_off`, `is_SF_exc_opt`, and the BREAK_LOOP arm -/

/-- `find_block_dst_off`: scan the instruction's block stack innermost-first
for a block whose setup opcode is among `match_ops`; return its handler
offset. -/
def find_block_dst_off (inst : Inst) (match_ops : List Int) : Option Int :=
  ((inst.stack.reverse).find? (fun b => decide (b.1 ∈ match_ops))).map (·.2)

/-- `insts[argval]`: index the instruction map by an `argval`; a non-integer
argval is a key that is not present (Python `KeyError`). -/
def instsIndexArgval (insts : List (Int × Inst)) (a : ArgVal) : Except PyErr Inst :=
  match a with
  | .vint n => assocIndex insts n
  | _ => .error .keyError

/-- `is_SF_exc_opt`: the TEF heuristic.  `nxt` is the instruction following
a `SETUP_FINALLY`.  Returns `(result, warned)`: the bool returned by the
source function, and whether the warning branch was taken. -/
def is_SF_exc_opt (nxt : Inst) (insts : List (Int × Inst)) :
    Except PyErr (Bool × Bool) :=
  if nxt.opcode = SETUP_EXCEPT then do
    -- looks like TEF, but might be TF-TE: inspect the nested handler.
    let exc_dst_inst ← instsIndexArgval insts nxt.argval
    let op := exc_dst_inst.opcode
    if op = DUP_TOP then pure (true, false)       -- TEF; exception is optional.
    else if op = POP_TOP then pure (false, false) -- TF-TE; exception is required.
    else pure (false, true)                       -- warn, fall through to required.
  else pure (false, false)

/-- The `BREAK_LOOP` arm of step 2 of `crawl_code_insts`.  `staleDst` is the
value of the local variable `dst`, last assigned by the setup-opcode branch
of step 1 (`none` when it was never assigned).  The source guard reads
`if not dst:` — the stale `dst`, not `dst_off` — so the embedded control
flow tests `staleDst` and then indexes `insts` with `dst_off`, which is the
Python `insts[None]` `KeyError` when no `SETUP_LOOP` block is on the stack. -/
def break_loop_dst (inst : Inst) (staleDst : Option Int)
    (insts : List (Int × Inst)) : Except PyErr Int := do
  let dst_off := find_block_dst_off inst [SETUP_LOOP]
  match staleDst with
  | none => .error .nameError          -- `not dst` on an unassigned local.
  | some v =>
    if v = 0 then .error .structural   -- the intended structural exception.
    else
      match dst_off with
      | none => .error .keyError       -- `insts[None]`
      | some d => do
        let _ ← assocIndex insts d     -- `insts[dst_off]`
        pure d

/-! ## Step 2 of `crawl_code_insts`: assemble `dsts` -/

/-- The state threaded through step 2: the destination sets and the
instruction map (updated in place when `is_SF_exc_opt` flags a handler). -/
structure Step2State where
  dsts : List (Int × List Int)
  insts : List (Int × Inst)
deriving Repr

/-- Read of a `defaultdict(set)`: a missing key materializes an empty set. -/
def ddGet (m : List (Int × List Int)) (k : Int) : List Int :=
  (mapGet m k).getD []

/-- The common destination updates of one step-2 iteration: the entry edge
at offset 0, the fall-through edge, and the jump / exception edges. -/
def step2Pre (nexts : List (Int × Int)) (st : Step2State) (inst : Inst) :
    Except PyErr (List (Int × List Int)) := do
  let op := inst.opcode
  let dsts := st.dsts
  let dsts := if inst.off = 0 then mapSetAdd dsts OFF_BEGIN inst.off else dsts
  let dsts ←
    if op ∉ stop_opcodes ∧ ¬ inst.is_call_exit then do
      let nxt ← assocIndex nexts inst.off
      pure (mapSetAdd dsts inst.off nxt)
    else pure dsts
  if op ∈ jump_opcodes then do
    let t ← instsIndexArgval st.insts inst.argval
    pure (mapSetAdd dsts inst.off t.off)
  else if op ∈ setup_exc_opcodes then do
    -- enter the exception handler from an unknown exception source.
    let t ← instsIndexArgval st.insts inst.argval
    pure (mapSetAdd dsts OFF_RAISED t.off)
  else pure dsts

/-- The per-opcode dispatch of one step-2 iteration. -/
def step2Dispatch (nexts : List (Int × Int)) (staleDst : Option Int)
    (st : Step2State) (inst : Inst) (dsts : List (Int × List Int)) :
    Except PyErr Step2State := do
  let op := inst.opcode
  if op = BREAK_LOOP then do
    let d ← break_loop_dst inst staleDst st.insts
    return { st with dsts := mapSetAdd dsts inst.off d }
  else if op = END_FINALLY then
    -- END_FINALLY can either reraise, or advance: add the jump dst where
    -- applicable, assuming it can always advance.
    match find_block_dst_off inst [SETUP_ASYNC_WITH, SETUP_FINALLY, SETUP_WITH] with
    | some d =>
      if d ≠ 0 then do
        let t ← assocIndex st.insts d
        return { st with dsts := mapSetAdd dsts inst.off t.off }
      else return { st with dsts := dsts }
    | none => return { st with dsts := dsts }
  else if op = RAISE_VARARGS then
    match find_block_dst_off inst [SETUP_EXCEPT, SETUP_FINALLY] with
    | some d =>
      if d ≠ 0 then do
        let t ← assocIndex st.insts d
        return { st with dsts := mapSetAdd dsts OFF_RAISED t.off }
      else return { st with dsts := dsts }
    | none => return { st with dsts := dsts }
  else if op = RETURN_VALUE then
    match find_block_dst_off inst [SETUP_ASYNC_WITH, SETUP_FINALLY, SETUP_WITH] with
    | some d =>
      if d ≠ 0 then do
        let t ← assocIndex st.insts d
        return { st with dsts := mapSetAdd dsts inst.off t.off }
      else return { st with dsts := dsts }
    | none => return { st with dsts := dsts }
  else if op = SETUP_FINALLY then do
    let nxtOff ← assocIndex nexts inst.off
    let nxt ← assocIndex st.insts nxtOff
    let (res, _warned) ← is_SF_exc_opt nxt st.insts
    if res then do
      let handler ← instsIndexArgval st.insts inst.argval
      let flagged := { handler with is_SF_exc_opt := true }
      return { dsts := dsts, insts := assocSet st.insts handler.off flagged }
    else return { st with dsts := dsts }
  else if op = YIELD_VALUE then do
    let nxt ← assocIndex nexts inst.off
    return { st with dsts := mapSetAdd dsts OFF_BEGIN nxt }
  else if op = YIELD_FROM then do
    -- resume may re-enter the same opcode; exceptions propagate to next.
    let dsts := mapSetAdd dsts OFF_BEGIN inst.off
    let nxt ← assocIndex nexts inst.off
    return { st with dsts := mapSetAdd dsts OFF_RAISED nxt }
  else return { st with dsts := dsts }

/-- One iteration of the step-2 loop of `crawl_code_insts` for one
instruction: the common destination updates, then the opcode dispatch. -/
def step2Inst (nexts : List (Int × Int)) (staleDst : Option Int)
    (st : Step2State) (inst : Inst) : Except PyErr Step2State := do
  let op := inst.opcode
  if op = OP_BEGIN ∨ op = OP_RAISED then return st
  let dsts ← step2Pre nexts st inst
  step2Dispatch nexts staleDst st inst dsts

/-- Step 2 of `crawl_code_insts`: iterate over `insts.values()` in insertion
order, building the destination sets and applying the `is_SF_exc_opt`
flag updates. -/
def buildDsts (scan : ScanState) : Except PyErr Step2State :=
  (scan.insts.map (·.2)).foldlM (step2Inst scan.nexts scan.staleDst)
    { dsts := [], insts := scan.insts }

/-- Invert `dsts` into `srcs`. -/
def buildSrcs (dsts : List (Int × List Int)) : List (Int × List Int) :=
  dsts.foldl (fun acc p => p.2.foldl (fun acc d => mapSetAdd acc d p.1) acc) []

/-! ## `visit_nodes`: the generic fueled worklist -/

/-- `remaining.update(n for n in discovered if n not in visited)` on the
list model of the remaining set: append the discovered nodes that are in
neither the visited set nor the remaining set. -/
def updateRemaining {α : Type} [DecidableEq α]
    (rest : List α) (visited : List α) (discovered : List α) : List α :=
  discovered.foldl (fun acc n => if n ∈ visited ∨ n ∈ acc then acc else acc ++ [n]) rest

/-- `visit_nodes`: pop a node, assert it was not yet visited, visit it,
add the newly discovered nodes, repeat until the remaining set is empty;
return the visited set.  The visitor runs in the exception monad, as its
Python body may raise.  Fuel exhaustion models divergence. -/
def visit_nodes {α : Type} [DecidableEq α] (visitor : α → Except PyErr (List α)) :
    Nat → List α → List α → Except PyErr (List α)
  | 0, remaining, visited => if remaining.isEmpty then .ok visited else .error .fuel
  | _ + 1, [], visited => .ok visited
  | fuel + 1, node :: rest, visited =>
    if node ∈ visited then .error .assertOther
    else
      match visitor node with
      | .error e => .error e
      | .ok discovered =>
        visit_nodes visitor fuel
          (updateRemaining rest (visited ++ [node]) discovered) (visited ++ [node])

/-! ## Step 3 of `crawl_code_insts`: find all arcs -/

/-- The `while` loop of `find_arcs`: extend the arc while the current
instruction has exactly one destination and that destination has exactly
one source.  Returns the finished arc and the destination set to visit
next (the value `find_arcs` returns). -/
def arcWalk (dsts srcs : List (Int × List Int)) :
    Nat → Int → List Int → Except PyErr (List Int × List Int)
  | 0, _, _ => .error .fuel
  | fuel + 1, cur, acc =>
    match ddGet dsts cur with
    | [d] =>
      if (ddGet srcs d).length ≠ 1 then .ok (acc, [d])
      else arcWalk dsts srcs fuel d (acc ++ [d])
    | other => .ok (acc, other)

/-- `find_arcs` for a start instruction: the full arc starting there. -/
def find_arcs (dsts srcs : List (Int × List Int)) (fuel : Nat) (start : Int) :
    Except PyErr (List Int × List Int) :=
  arcWalk dsts srcs fuel start [start]

/-- Step 3 of `crawl_code_insts`: visit every arc start reachable from
`dsts(BEGIN) ∪ dsts(RAISED)` and record the arcs keyed by their first
instruction (`starts_to_arcs`).  The arc for each visited start is
recomputed by the pure `find_arcs`, which is what the Python visitor
records while visiting; the dedup of the worklist discharges the
`assert a[0] not in starts_to_arcs`. -/
def buildArcs (dsts srcs : List (Int × List Int)) (fuel : Nat) :
    Except PyErr (List (Int × List Int)) := do
  let starts := setUpdate (ddGet dsts OFF_BEGIN) (ddGet dsts OFF_RAISED)
  let visited ← visit_nodes
    (fun off => (find_arcs dsts srcs fuel off).map (·.2)) fuel starts []
  visited.foldlM
    (fun acc off => (find_arcs dsts srcs fuel off).map (fun p => assocSet acc off p.1)) []

/-! ## The arc classifier (`is_arc_opt` and its cases) -/

/-- The expected-instruction patterns of `match_insts`: a bare opcode, or
an `(opcode, argval)` pair. -/
inductive MatchExp where
  | op : Int → MatchExp
  | opArg : Int → ArgVal → MatchExp
deriving DecidableEq, Repr

/-- `match_inst`: match one instruction against one pattern. -/
def match_inst (inst : Inst) (exp : MatchExp) : Bool :=
  match exp with
  | .opArg o a => decide (inst.opcode = o ∧ inst.argval = a)
  | .op o => decide (inst.opcode = o)

/-- `match_insts`: the instruction sequence starts with the patterns. -/
def match_insts (insts : List Inst) (exps : List MatchExp) : Bool :=
  if insts.length < exps.length then false
  else (List.zip insts exps).all (fun p => match_inst p.1 p.2)

/-- Case 1: setup-finally raise branch (`src = RAISED` and the arc entry is
flagged `is_SF_exc_opt`). -/
def is_arc_opt_SF_raise (src : Inst) (arc : List Inst) : Bool :=
  decide (src = _raised_inst) &&
    (match arc.head? with | some a => a.is_SF_exc_opt | none => false)

/-- Case 2: unhandled exception reraise (the failure branch of an
exception-match jump). -/
def is_arc_unhandled_exc_reraise (src : Inst) (arc : List Inst) : Bool :=
  (src.is_exc_match_jmp_src &&
    (match arc.head? with | some a => a.is_exc_match_jmp_dst | none => false)) ||
  src.is_exc_match_jmp_dst

/-- Case 3: the compiler-generated `del name` cleanup of `except T as name:`. -/
def is_arc_exc_as_cleanup (src : Inst) (arc : List Inst) : Bool :=
  decide (src = _raised_inst) &&
    match_insts arc
      [.opArg LOAD_CONST .vnone, .op STORE_FAST, .op DELETE_FAST, .op END_FINALLY]

/-- Case 4: the exception path of a context manager. -/
def is_arc_with_cleanup (arc : List Inst) : Bool :=
  match_insts arc [.op WITH_CLEANUP_START, .op WITH_CLEANUP_FINISH, .op END_FINALLY]

/-- Case 5: the implicit `return None` join synthesized by the compiler. -/
def is_arc_join_return_none (arc : List Inst) (srcs : List (Int × List Int)) : Bool :=
  decide (arc.length = 2) &&
  (match arc.head? with
   | some a => decide ((ddGet srcs a.off).length > 1)
   | none => false) &&
  match_insts arc [.opArg LOAD_CONST .vnone, .op RETURN_VALUE]

/-- `is_arc_opt`: an arc entered from `src` is optional when any of the
five shape heuristics holds.  (The source signature also receives `dsts`,
which its body never reads; the unused parameter is dropped here.) -/
def is_arc_opt (src : Inst) (arc : List Inst) (srcs : List (Int × List Int)) : Bool :=
  is_arc_opt_SF_raise src arc ||
  is_arc_unhandled_exc_reraise src arc ||
  is_arc_exc_as_cleanup src arc ||
  is_arc_with_cleanup arc ||
  is_arc_join_return_none arc srcs

/-! ## Step 4 of `crawl_code_insts`: emit edges -/

/-- `next_line`: the interpretation of the lnotab line tricks.  The last
disjunct (`line < 0`) handles exception and yield resume edges. -/
def next_line (inst nxt : Inst) (line : Int) : Int :=
  if nxt.is_line_start ∨ nxt.off < inst.off ∨ line < 0 then nxt.line else line

/-- The inner loop of `emit_edges`: walk `zip((src,) + arc, arc)`, compute
the traced line of each step, apply the FOR_ITER exception rewrite and the
END_FINALLY fall-through downgrade, and record each edge together with the
optional flag passed to `add_edge`.  Returns the emitted
`(edge, line, is_opt)` records and the final `(inst, line, is_opt)` triple
that `emit_edges` yields for this arc. -/
def emit_steps (nexts : List (Int × Int)) (srcInst : Inst) :
    Inst → Int → Bool → Bool → List Inst →
    Except PyErr (List ((Int × Int) × Int × Bool) × (Int × Int × Bool))
  | prev, prevLine, isOpt, _, [] => .ok ([], (prev.off, prevLine, isOpt))
  | prev, prevLine, isOpt, isSrcOpt, inst :: rest => do
    let line := next_line prev inst prevLine
    if line ≤ 0 then .error .assertLine
    else do
      let prev_off :=
        if srcInst = prev ∧ srcInst.opcode = FOR_ITER ∧ srcInst.argval = .vint inst.off
        then OFF_RAISED else prev.off
      let isOpt' ←
        if isOpt then pure isOpt
        else if prev.opcode = END_FINALLY then do
          -- END_FINALLY is hard to analyze: treat any step to next as optional.
          let nxtOff ← assocIndex nexts prev.off
          pure (decide (nxtOff = inst.off))
        else pure false
      let tail ← emit_steps nexts srcInst inst line isOpt' isSrcOpt rest
      .ok (((prev_off, inst.off), line,
            (isOpt' || (isSrcOpt && decide (srcInst = prev)))) :: tail.1, tail.2)

/-- The body of the `emit_edges` visitor for one worklist triple
`(src_off, src_line, is_src_opt)`: process every arc in `dsts[src]`,
classifying it with `is_arc_opt` and emitting its steps.  Returns the
emitted edge records and the yielded triples. -/
def emit_from_triple (insts : List (Int × Inst)) (nexts : List (Int × Int))
    (dsts srcs arcs : List (Int × List Int)) (t : Int × Int × Bool) :
    Except PyErr (List ((Int × Int) × Int × Bool) × List (Int × Int × Bool)) := do
  let (srcOff, srcLine, isSrcOpt) := t
  let srcInst ← assocIndex insts srcOff
  (ddGet dsts srcOff).foldlM
    (fun acc start => do
      let arcOffs ← assocIndex arcs start
      let arc ← arcOffs.mapM (assocIndex insts)
      let isOpt := is_arc_opt srcInst arc srcs
      let (edges, yld) ← emit_steps nexts srcInst srcInst srcLine isOpt isSrcOpt arc
      pure (acc.1 ++ edges, acc.2 ++ [yld]))
    ([], [])

/-- The `(req, opt)` result of `crawl_code_insts`: maps from edges to the
sets of lines they attribute coverage to. -/
abbrev ReqOpt := List ((Int × Int) × List Int) × List ((Int × Int) × List Int)

/-- `add_edge` over a flat list of emitted records: route each record into
`req` or `opt` according to its flag. -/
def routeEdges (records : List ((Int × Int) × Int × Bool)) : ReqOpt :=
  records.foldl
    (fun m e =>
      if e.2.2 then (m.1, mapSetAdd m.2 e.1 e.2.1) else (mapSetAdd m.1 e.1 e.2.1, m.2))
    ([], [])

/-- `crawl_code_insts`: scan the raw instructions, build the destination
graph, partition it into arcs, and emit the required and optional edge
maps.  (The debug tracing of the source is output-only and is omitted.) -/
def crawl_code_insts (raws : List RawInst) : Except PyErr ReqOpt := do
  let scan ← scanInsts raws
  let st2 ← buildDsts scan
  let dsts := st2.dsts
  let insts := st2.insts
  let srcs := buildSrcs dsts
  let fuel := raws.length + 3
  let arcs ← buildArcs dsts srcs fuel
  let startTriples : List (Int × Int × Bool) :=
    [(OFF_BEGIN, LINE_BEGIN, false), (OFF_RAISED, LINE_RAISED, false)]
  let tfuel := (raws.length + 3) * (raws.length + 3) * 2 + 2
  let visited ← visit_nodes
    (fun t => (emit_from_triple insts scan.nexts dsts srcs arcs t).map (·.2))
    tfuel startTriples []
  let records ← visited.foldlM
    (fun acc t => (emit_from_triple insts scan.nexts dsts srcs arcs t).map (acc ++ ·.1)) []
  pure (routeEdges records)

/-! ## The reconciler and line aggregator (`calculate_coverage`) -/

/-- Generic association-list lookup (`find the value at the first matching
key`), for maps keyed by edges or code units. -/
def alookup {κ α : Type} [DecidableEq κ] (m : List (κ × α)) (k : κ) : Option α :=
  (m.find? (fun p => decide (p.1 = k))).map (·.2)

/-- An edge map: edges to the set of lines they attribute coverage to. -/
abbrev EdgeMap := List ((Int × Int) × List Int)

/-- `raise_reqs`: the required edges with `src = OFF_RAISED`, keyed by
destination offset. -/
def raise_reqs (req : EdgeMap) : List (Int × ((Int × Int) × List Int)) :=
  req.filterMap (fun p => if p.1.1 = OFF_RAISED then some (p.1.2, p) else none)

/-- `raise_opts`: the destination offsets of optional edges with
`src = OFF_RAISED`. -/
def raise_opts (opt : EdgeMap) : List Int :=
  opt.filterMap (fun p => if p.1.1 = OFF_RAISED then some p.1.2 else none)

/-- One iteration of the trace-matching loop of `calculate_coverage` for a
traced `(src, dst, line)`: returns the updated `matched` map and whether
the edge was reported as unexpected. -/
def reconcile_step (req opt : EdgeMap) (matched : EdgeMap) (t : Int × Int × Int) :
    EdgeMap × Bool :=
  let edge := (t.1, t.2.1)
  if (alookup req edge).isSome then
    (mapSetAdd matched edge t.2.2, false)
  else
    match alookup (raise_reqs req) t.2.1 with
    | some (e, l) =>
      -- add all the lines implied by the exception edge (not the observed line).
      (mapSetUpdate matched e l, false)
    | none =>
      if (alookup opt edge).isSome ∨ t.2.1 ∈ raise_opts opt then (matched, false)
      else (matched, true)   -- err_edge('UNEXPECTED:', ...): diagnostic only.

/-- The trace-matching loop of `calculate_coverage`: fold over the traced
edge set. -/
def reconcile (req opt : EdgeMap) (traced : List (Int × Int × Int)) : EdgeMap :=
  traced.foldl (fun m t => (reconcile_step req opt m t).1) []

/-- A code unit: its name and raw instruction stream.  The nested code
constants of a real code object (`co_consts`) are not represented: the
embedding covers code units without nested code units, so `sub_codes`
below finds none. -/
structure CodeUnit where
  co_name : String
  insts : List RawInst
deriving DecidableEq, Repr

/-- `sub_codes`: the code objects among `co_consts` (none in this model). -/
def sub_codes (_code : CodeUnit) : List CodeUnit := []

/-- A coverage entry tagged with its code unit, `(src, dst, code)`. -/
abbrev Edge3 := Int × Int × CodeUnit

/-- `COV_REQ, COV_MATCHED = range(2)` -/
def COV_REQ : Nat := 0
def COV_MATCHED : Nat := 1

/-- The `(required, matched)` pair of tagged edge sets held per line of the
coverage map (a structure rather than a nested tuple, for instance-search
economy). -/
structure CovSets where
  required : List Edge3
  matched : List Edge3
deriving DecidableEq, Repr

/-- The coverage map: line to `(required, matched)` sets of tagged edges. -/
abbrev Coverage := List (Int × CovSets)

/-- `coverage[line][cov_idx].add(...)` on the defaultdict of pairs of sets. -/
def covAdd (cov : Coverage) (line : Int) (idx : Nat) (e : Edge3) : Coverage :=
  match cov with
  | [] => [(line, if idx = COV_REQ then ⟨[e], []⟩ else ⟨[], [e]⟩)]
  | (l, pr) :: rest =>
    if l = line then
      (l, if idx = COV_REQ then ⟨setAdd pr.required e, pr.matched⟩
          else ⟨pr.required, setAdd pr.matched e⟩) :: rest
    else (l, pr) :: covAdd rest line idx e

/-- `add_edges`: fold an edge-lines map into the coverage map at index
`idx`, asserting that every attributed line is positive. -/
def add_edges (cov : Coverage) (edge_lines : EdgeMap) (code : CodeUnit) (idx : Nat) :
    Except PyErr Coverage :=
  edge_lines.foldlM
    (fun cov p =>
      p.2.foldlM
        (fun cov line =>
          if line > 0 then pure (covAdd cov line idx (p.1.1, p.1.2, code))
          else .error .assertLine)
        cov)
    cov

/-- The per-code-unit body of the `calculate_coverage` loop: infer the
edges, match the traced edges against them, and fold both into the
coverage map. -/
def cover_one_code (cov : Coverage) (code : CodeUnit) (traced : List (Int × Int × Int)) :
    Except PyErr Coverage := do
  let (req, opt) ← crawl_code_insts code.insts
  let matched := reconcile req opt traced
  let cov ← add_edges cov req code COV_REQ
  add_edges cov matched code COV_MATCHED

/-- `calculate_coverage`: discover the code units (the `visit_nodes` pass
over `sub_codes`), then analyze each one and assemble the final coverage
map.  There is no exception handling around the per-unit analysis: an
error raised for any unit propagates out of the whole computation. -/
def calculate_coverage (code_edges : List (CodeUnit × List (Int × Int × Int))) :
    Except PyErr Coverage := do
  let all_codes ← visit_nodes (fun c => .ok (sub_codes c))
    (code_edges.length + 1) (code_edges.map (·.1)).dedup []
  all_codes.foldlM
    (fun cov code => cover_one_code cov code ((alookup code_edges code).getD []))
    []

/-! ## The per-line verdict of `report_path` -/

/-- The classification a line of the coverage map receives in
`report_path`. -/
inductive LineVerdict where
  | covered : LineVerdict
  | ignoredButCovered : LineVerdict
  | notCovered : LineVerdict
  | unreported : LineVerdict
deriving DecidableEq, Repr

/-- The per-line classification loop of `report_path`: a line with
`matched >= required` goes to `covered_lines` (or `ign_cov_lines` when
explicitly ignored); otherwise it goes to `not_cov_lines` unless ignored. -/
def report_line (required matched : List Edge3)
    (ignored_lines explicitly_ignored_lines : List Int) (line : Int) : LineVerdict :=
  if required.all (fun e => decide (e ∈ matched)) then
    if line ∈ explicitly_ignored_lines then .ignoredButCovered else .covered
  else if line ∉ ignored_lines then .notCovered
  else .unreported

/-! ## `coalesce`: merging coverage snapshots -/

/-- A coverage snapshot as serialized by `write_coverage`: the
target-to-path map (a `None` path means the target was never loaded) and
the per-path, per-code traced edge sets. -/
structure Snapshot where
  target_paths : List (String × Option String)
  path_code_edges : List (String × List (CodeUnit × List (Int × Int × Int)))

/-- The accumulated state of the `coalesce` loop: the domain of
`target_path_sets` (targets seen, including those with no path), its
`(target, path)` pairs, and the accumulated `(path, code, edge)` sets. -/
@[ext]
structure CoalesceState where
  targets : Finset String
  target_paths : Finset (String × String)
  path_code_edges : Finset (String × CodeUnit × (Int × Int × Int))
deriving DecidableEq

/-- The initial coalesce state: `target_path_sets[t] = set()` for each
requested target. -/
def initCoalesceState (arg_targets : List String) : CoalesceState :=
  { targets := arg_targets.toFinset, target_paths := ∅, path_code_edges := ∅ }

/-- The body of the `for target, path in data['target_paths'].items()` loop
of `coalesce`: skip targets outside a non-empty `arg_targets`, materialize
the target's path set, and add the path when it is not `None`. -/
def coalesce_tp_step (arg_targets : List String) (st : CoalesceState)
    (tp : String × Option String) : CoalesceState :=
  if arg_targets ≠ [] ∧ tp.1 ∉ arg_targets then st
  else
    { st with
      targets := insert tp.1 st.targets,
      target_paths :=
        match tp.2 with
        | some path => insert (tp.1, path) st.target_paths
        | none => st.target_paths }

/-- The innermost update of the `path_code_edges` loop of `coalesce`:
`path_code_edges[path][code].update(edges)`, one edge at a time. -/
def coalesce_edge_insert (path : String) (code : CodeUnit) (st : CoalesceState)
    (e : Int × Int × Int) : CoalesceState :=
  { st with path_code_edges := insert (path, code, e) st.path_code_edges }

/-- Merge one snapshot into the accumulated state: union the per-target
path sets (skipping targets outside a non-empty `arg_targets`) and union
the per-path, per-code edge sets. -/
def coalesce_merge (arg_targets : List String) (st : CoalesceState) (s : Snapshot) :
    CoalesceState :=
  let st := s.target_paths.foldl (coalesce_tp_step arg_targets) st
  s.path_code_edges.foldl
    (fun st pce =>
      pce.2.foldl
        (fun st ce => ce.2.foldl (coalesce_edge_insert pce.1 ce.1) st)
        st)
    st

/-- The `coalesce` loop over a list of snapshots (deserialization and the
final report are collaborators). -/
def coalesce (arg_targets : List String) (snaps : List Snapshot) : CoalesceState :=
  snaps.foldl (coalesce_merge arg_targets) (initCoalesceState arg_targets)

/-! ## Helper lemmas: association lists and list-sets -/

theorem alookup_nil {κ α : Type} [DecidableEq κ] (k : κ) :
    alookup ([] : List (κ × α)) k = none := rfl

theorem alookup_cons {κ α : Type} [DecidableEq κ] (k' : κ) (v' : α)
    (rest : List (κ × α)) (k : κ) :
    alookup ((k', v') :: rest) k = if k' = k then some v' else alookup rest k := by
  by_cases h : k' = k <;> simp [alookup, List.find?_cons, h]

theorem alookup_mem {κ α : Type} [DecidableEq κ] {m : List (κ × α)} {k : κ} {v : α}
    (h : alookup m k = some v) : (k, v) ∈ m := by
  induction m with
  | nil => simp [alookup] at h
  | cons p rest ih =>
    obtain ⟨pk, pv⟩ := p
    rw [alookup_cons] at h
    by_cases hk : pk = k
    · subst hk
      simp at h
      simp [h]
    · simp [hk] at h
      exact List.mem_cons_of_mem _ (ih h)

theorem mem_setAdd {α : Type} [DecidableEq α] {s : List α} {x y : α} :
    y ∈ setAdd s x ↔ y ∈ s ∨ y = x := by
  unfold setAdd
  by_cases hx : x ∈ s
  · simp [hx]
    intro hy
    rw [hy]
    exact hx
  · simp [hx]

theorem setAdd_subset {α : Type} [DecidableEq α] {s t : List α} {x : α}
    (hs : ∀ y ∈ s, y ∈ t) (hx : x ∈ t) : ∀ y ∈ setAdd s x, y ∈ t := by
  intro y hy
  rcases mem_setAdd.mp hy with h | h
  · exact hs y h
  · rw [h]; exact hx

theorem mem_setUpdate {α : Type} [DecidableEq α] {s xs : List α} {y : α} :
    y ∈ setUpdate s xs ↔ y ∈ s ∨ y ∈ xs := by
  induction xs generalizing s with
  | nil => simp [setUpdate]
  | cons x rest ih =>
    rw [show setUpdate s (x :: rest) = setUpdate (setAdd s x) rest from rfl, ih, mem_setAdd]
    simp only [List.mem_cons]
    tauto

theorem setUpdate_subset {α : Type} [DecidableEq α] {s t xs : List α}
    (hs : ∀ y ∈ s, y ∈ t) (hxs : ∀ y ∈ xs, y ∈ t) : ∀ y ∈ setUpdate s xs, y ∈ t := by
  intro y hy
  rcases mem_setUpdate.mp hy with h | h
  · exact hs y h
  · exact hxs y h

theorem alookup_mapSetAdd {κ : Type} [DecidableEq κ] {α : Type} [DecidableEq α]
    (m : List (κ × List α)) (k k' : κ) (x : α) :
    alookup (mapSetAdd m k x) k' =
      if k' = k then some (setAdd ((alookup m k).getD []) x) else alookup m k' := by
  induction m with
  | nil =>
    by_cases h : k' = k
    · subst h; simp [mapSetAdd, alookup_cons, alookup_nil, setAdd]
    · have h2 : ¬ k = k' := fun hc => h hc.symm
      simp [mapSetAdd, alookup_cons, h, h2, alookup_nil]
  | cons p rest ih =>
    obtain ⟨pk, ps⟩ := p
    by_cases hpk : pk = k
    · subst hpk
      by_cases h : k' = pk
      · subst h; simp [mapSetAdd, alookup_cons]
      · have h2 : ¬ pk = k' := fun hc => h hc.symm
        simp [mapSetAdd, alookup_cons, h, h2]
    · by_cases h : k' = k
      · subst h
        have hpk' : ¬ pk = k' := hpk
        simp [mapSetAdd, hpk, alookup_cons, hpk', ih]
      · by_cases hpk2 : pk = k'
        · subst hpk2
          simp [mapSetAdd, hpk, alookup_cons, ih, h]
        · simp [mapSetAdd, hpk, alookup_cons, hpk2, ih, h]

theorem alookup_mapSetUpdate {κ : Type} [DecidableEq κ] {α : Type} [DecidableEq α]
    (m : List (κ × List α)) (k k' : κ) (xs : List α) :
    alookup (mapSetUpdate m k xs) k' =
      if k' = k then some (setUpdate ((alookup m k).getD []) xs) else alookup m k' := by
  induction m with
  | nil =>
    by_cases h : k' = k
    · subst h; simp [mapSetUpdate, alookup_cons, alookup_nil]
    · have h2 : ¬ k = k' := fun hc => h hc.symm
      simp [mapSetUpdate, alookup_cons, h, h2, alookup_nil]
  | cons p rest ih =>
    obtain ⟨pk, ps⟩ := p
    by_cases hpk : pk = k
    · subst hpk
      by_cases h : k' = pk
      · subst h; simp [mapSetUpdate, alookup_cons]
      · have h2 : ¬ pk = k' := fun hc => h hc.symm
        simp [mapSetUpdate, alookup_cons, h, h2]
    · by_cases h : k' = k
      · subst h
        have hpk' : ¬ pk = k' := hpk
        simp [mapSetUpdate, hpk, alookup_cons, hpk', ih]
      · by_cases hpk2 : pk = k'
        · subst hpk2
          simp [mapSetUpdate, hpk, alookup_cons, ih, h]
        · simp [mapSetUpdate, hpk, alookup_cons, hpk2, ih, h]

/-! ## Generic facts about the `visit_nodes` worklist -/

theorem mem_updateRemaining {α : Type} [DecidableEq α] {rest visited disc : List α} {y : α} :
    y ∈ updateRemaining rest visited disc ↔ y ∈ rest ∨ (y ∈ disc ∧ y ∉ visited) := by
  induction disc generalizing rest with
  | nil => simp [updateRemaining]
  | cons d ds ih =>
    rw [show updateRemaining rest visited (d :: ds) =
          updateRemaining (if d ∈ visited ∨ d ∈ rest then rest else rest ++ [d])
            visited ds from rfl, ih]
    by_cases hd : d ∈ visited ∨ d ∈ rest
    · rw [if_pos hd]
      simp only [List.mem_cons]
      constructor
      · tauto
      · rintro (h | ⟨h1 | h2, hnv⟩)
        · tauto
        · subst h1
          rcases hd with hv | hr
          · exact absurd hv hnv
          · exact Or.inl hr
        · tauto
    · rw [if_neg hd]
      push_neg at hd
      simp only [List.mem_append, List.mem_singleton, List.mem_cons]
      constructor
      · rintro ((h | h | h) | ⟨h, hnv⟩)
        · tauto
        · subst h
          exact Or.inr ⟨Or.inl rfl, hd.1⟩
        · cases h
        · tauto
      · rintro (h | ⟨h1 | h2, hnv⟩)
        · tauto
        · subst h1
          exact Or.inl (Or.inr (Or.inl rfl))
        · tauto

theorem updateRemaining_nodup {α : Type} [DecidableEq α]
    {rest : List α} (visited disc : List α)
    (h : rest.Nodup) : (updateRemaining rest visited disc).Nodup := by
  induction disc generalizing rest with
  | nil => simpa [updateRemaining]
  | cons d ds ih =>
    rw [show updateRemaining rest visited (d :: ds) =
          updateRemaining (if d ∈ visited ∨ d ∈ rest then rest else rest ++ [d])
            visited ds from rfl]
    by_cases hd : d ∈ visited ∨ d ∈ rest
    · rw [if_pos hd]
      exact ih h
    · rw [if_neg hd]
      push_neg at hd
      exact ih (by simp [List.nodup_append, h, hd.2])

theorem visit_nodes_inv {α : Type} [DecidableEq α] {P : α → Prop}
    {visitor : α → Except PyErr (List α)}
    (hvis : ∀ x, P x → ∀ l, visitor x = .ok l → ∀ y ∈ l, P y) :
    ∀ (fuel : Nat) (remaining visited : List α),
      (∀ x ∈ remaining, P x) → (∀ x ∈ visited, P x) →
      ∀ res, visit_nodes visitor fuel remaining visited = .ok res → ∀ x ∈ res, P x := by
  intro fuel
  induction fuel with
  | zero =>
    intro remaining visited hrem hvisited res hres
    simp only [visit_nodes] at hres
    split at hres
    · exact (Except.ok.inj hres) ▸ hvisited
    · exact absurd hres (by simp)
  | succ fuel ih =>
    intro remaining visited hrem hvisited res hres
    match remaining with
    | [] =>
      simp only [visit_nodes] at hres
      exact (Except.ok.inj hres) ▸ hvisited
    | node :: rest =>
      simp only [visit_nodes] at hres
      split at hres
      · exact absurd hres (by simp)
      · rename_i hnode
        split at hres
        · exact absurd hres (by simp)
        · rename_i discovered hdisc
          refine ih _ _ ?_ ?_ res hres
          · intro x hx
            rcases mem_updateRemaining.mp hx with h | ⟨h, _⟩
            · exact hrem x (List.mem_cons_of_mem _ h)
            · exact hvis node (hrem node (by simp)) discovered hdisc x h
          · intro x hx
            rcases List.mem_append.mp hx with h | h
            · exact hvisited x h
            · rw [List.mem_singleton.mp h]
              exact hrem node (by simp)

theorem visit_nodes_no_err {α : Type} [DecidableEq α] {P : α → Prop}
    {visitor : α → Except PyErr (List α)} {bad : PyErr}
    (hbad1 : bad ≠ .fuel) (hbad2 : bad ≠ .assertOther)
    (hvis : ∀ x, P x →
      visitor x ≠ .error bad ∧ ∀ l, visitor x = .ok l → ∀ y ∈ l, P y) :
    ∀ (fuel : Nat) (remaining visited : List α), (∀ x ∈ remaining, P x) →
      visit_nodes visitor fuel remaining visited ≠ .error bad := by
  intro fuel
  induction fuel with
  | zero =>
    intro remaining visited hrem h
    simp only [visit_nodes] at h
    split at h
    · exact absurd h (by simp)
    · exact hbad1 (Except.error.inj h).symm
  | succ fuel ih =>
    intro remaining visited hrem h
    match remaining with
    | [] => simp [visit_nodes] at h
    | node :: rest =>
      simp only [visit_nodes] at h
      split at h
      · exact hbad2 (Except.error.inj h).symm
      · rename_i hnode
        split at h
        · rename_i e he
          have hP := hvis node (hrem node (by simp))
          rw [(Except.error.inj h)] at he
          exact hP.1 he
        · rename_i discovered hdisc
          refine ih _ _ ?_ h
          intro x hx
          rcases mem_updateRemaining.mp hx with hr | ⟨hdm, _⟩
          · exact hrem x (List.mem_cons_of_mem _ hr)
          · exact (hvis node (hrem node (by simp))).2 discovered hdisc x hdm

theorem visit_nodes_nullvisitor {α : Type} [DecidableEq α] :
    ∀ (l : List α) (visited : List α) (fuel : Nat), l.Nodup → (∀ x ∈ l, x ∉ visited) →
      l.length ≤ fuel →
      visit_nodes (fun _ => .ok ([] : List α)) fuel l visited = .ok (visited ++ l) := by
  intro l
  induction l with
  | nil =>
    intro visited fuel _ _ _
    match fuel with
    | 0 => simp [visit_nodes]
    | fuel + 1 => simp [visit_nodes]
  | cons node rest ih =>
    intro visited fuel hnodup hdis hlen
    match fuel with
    | 0 => simp at hlen
    | fuel + 1 =>
      simp only [visit_nodes]
      rw [if_neg (hdis node (by simp))]
      have hur : updateRemaining rest (visited ++ [node]) ([] : List α) = rest := rfl
      rw [hur, ih (visited ++ [node]) fuel hnodup.of_cons ?_ (by simpa using hlen)]
      · simp
      · intro x hx
        simp only [List.mem_append, List.mem_singleton]
        rintro (h | h)
        · exact hdis x (List.mem_cons_of_mem _ hx) h
        · exact (List.nodup_cons.mp hnodup).1 (h ▸ hx)

theorem visit_nodes_complete {α : Type} [DecidableEq α]
    (visitor : α → List α) (U : List α)
    (hcl : ∀ x ∈ U, ∀ y ∈ visitor x, y ∈ U) :
    ∀ (fuel : Nat) (remaining visited : List α),
      remaining.Nodup →
      (∀ x ∈ remaining, x ∉ visited) →
      visited.Nodup →
      (∀ x ∈ remaining, x ∈ U) → (∀ x ∈ visited, x ∈ U) →
      (∀ v ∈ visited, ∀ y ∈ visitor v, y ∈ visited ∨ y ∈ remaining) →
      U.length < fuel + visited.length →
      ∃ res, visit_nodes (fun n => .ok (visitor n)) fuel remaining visited = .ok res ∧
        res.Nodup ∧ (∀ x ∈ visited, x ∈ res) ∧ (∀ x ∈ remaining, x ∈ res) ∧
        (∀ v ∈ res, ∀ y ∈ visitor v, y ∈ res) := by
  intro fuel
  induction fuel with
  | zero =>
    intro remaining visited hrn hdisj hvn hrU hvU hclosed hfuel
    match remaining with
    | [] =>
      refine ⟨visited, by simp [visit_nodes], hvn, fun x h => h, by simp, ?_⟩
      intro v hv y hy
      rcases hclosed v hv y hy with h | h
      · exact h
      · cases h
    | node :: rest =>
      exfalso
      have hle : visited.length ≤ U.length :=
        (List.subperm_of_subset hvn (fun x hx => hvU x hx)).length_le
      omega
  | succ fuel ih =>
    intro remaining visited hrn hdisj hvn hrU hvU hclosed hfuel
    match remaining with
    | [] =>
      refine ⟨visited, by simp [visit_nodes], hvn, fun x h => h, by simp, ?_⟩
      intro v hv y hy
      rcases hclosed v hv y hy with h | h
      · exact h
      · cases h
    | node :: rest =>
      obtain ⟨hnr, hrn'⟩ := List.nodup_cons.mp hrn
      have hnbv : node ∉ visited := hdisj node (by simp)
      have hvn' : (visited ++ [node]).Nodup := by
        simp [List.nodup_append, hvn, hnbv]
      have hstep :
          visit_nodes (fun n => .ok (visitor n)) (fuel + 1) (node :: rest) visited =
            visit_nodes (fun n => .ok (visitor n)) fuel
              (updateRemaining rest (visited ++ [node]) (visitor node))
              (visited ++ [node]) := by
        simp [visit_nodes, hnbv]
      obtain ⟨res, hres, hresn, hsub, hrsub, hcls⟩ :=
        ih (updateRemaining rest (visited ++ [node]) (visitor node)) (visited ++ [node])
          (updateRemaining_nodup _ _ hrn')
          (by
            intro x hx
            rcases mem_updateRemaining.mp hx with h | ⟨_, h2⟩
            · intro hx2
              rcases List.mem_append.mp hx2 with h3 | h3
              · exact hdisj x (List.mem_cons_of_mem _ h) h3
              · exact hnr ((List.mem_singleton.mp h3) ▸ h)
            · exact h2)
          hvn'
          (by
            intro x hx
            rcases mem_updateRemaining.mp hx with h | ⟨h, _⟩
            · exact hrU x (List.mem_cons_of_mem _ h)
            · exact hcl node (hrU node (by simp)) x h)
          (by
            intro x hx
            rcases List.mem_append.mp hx with h | h
            · exact hvU x h
            · exact (List.mem_singleton.mp h) ▸ hrU node (by simp))
          (by
            intro v hv y hy
            rcases List.mem_append.mp hv with h | h
            · rcases hclosed v h y hy with h2 | h2
              · exact Or.inl (List.mem_append.mpr (Or.inl h2))
              · rcases List.mem_cons.mp h2 with h3 | h3
                · exact Or.inl (List.mem_append.mpr (Or.inr (by simp [h3])))
                · exact Or.inr (mem_updateRemaining.mpr (Or.inl h3))
            · have hveq : v = node := List.mem_singleton.mp h
              subst hveq
              by_cases hyv : y ∈ visited ++ [v]
              · exact Or.inl hyv
              · exact Or.inr (mem_updateRemaining.mpr (Or.inr ⟨hy, hyv⟩)))
          (by simp only [List.length_append, List.length_singleton]; omega)
      refine ⟨res, hstep ▸ hres, hresn, ?_, ?_, hcls⟩
      · intro x hx
        exact hsub x (List.mem_append.mpr (Or.inl hx))
      · intro x hx
        rcases List.mem_cons.mp hx with h | h
        · exact hsub x (List.mem_append.mpr (Or.inr (by simp [h])))
        · exact hrsub x (mem_updateRemaining.mpr (Or.inl h))

/-- Auxiliary for the C10 counterexample: with the visitor that always
discovers one strictly larger number, the worklist never empties, so every
fuel bound is exhausted. -/
theorem visit_nodes_succ_diverges :
    ∀ (fuel : Nat) (k : Nat) (visited : List Nat), (∀ v ∈ visited, v < k) →
      visit_nodes (fun n => .ok [n + 1]) fuel [k] visited = .error .fuel := by
  intro fuel
  induction fuel with
  | zero =>
    intro k visited _
    simp [visit_nodes]
  | succ fuel ih =>
    intro k visited hlt
    simp only [visit_nodes]
    rw [if_neg (fun h => absurd (hlt k h) (lt_irrefl k))]
    have hur : updateRemaining [] (visited ++ [k]) [k + 1] = [k + 1] := by
      have : k + 1 ∉ visited ++ [k] := by
        simp only [List.mem_append, List.mem_singleton]
        rintro (h | h)
        · exact absurd (hlt _ h) (by omega)
        · omega
      simp only [updateRemaining, List.foldl_cons, List.foldl_nil]
      rw [if_neg (by simp only [List.not_mem_nil, or_false]; exact this)]
      rfl
    rw [hur]
    refine ih (k + 1) (visited ++ [k]) ?_
    intro v hv
    rcases List.mem_append.mp hv with h | h
    · exact Nat.lt_succ_of_lt (hlt v h)
    · rw [List.mem_singleton.mp h]
      omega

/-- C10 counterexample: the claim asserts termination for every visitor
function, but the visitor discovering `n + 1` from `n` makes `visit_nodes`
run forever from the finite start set `{0}`: no amount of fuel yields a
result. -/
theorem visit_nodes_not_always_terminating :
    ¬ ∃ (fuel : Nat) (res : List Nat),
        visit_nodes (fun n => .ok [n + 1]) fuel [0] [] = .ok res := by
  rintro ⟨fuel, res, h⟩
  rw [visit_nodes_succ_diverges fuel 0 [] (by simp)] at h
  exact absurd h (by simp)

/-- C10 (amended): for a finite start set and a visitor whose reachable
world is contained in a finite closed universe `U`, `visit_nodes` with fuel
exceeding `|U|` terminates successfully (in particular its internal
assertion never fails), returns a duplicate-free visited list (the visitor
is called exactly once per returned node), and the returned nodes are
exactly those reachable from the start set under the relation
"`visitor a` discovers `b`". -/
theorem visit_nodes_computes_reachable_set {α : Type} [DecidableEq α]
    (visitor : α → List α) (starts U : List α) (fuel : Nat)
    (hstarts : starts.Nodup) (hsU : ∀ x ∈ starts, x ∈ U)
    (hcl : ∀ x ∈ U, ∀ y ∈ visitor x, y ∈ U) (hfuel : U.length < fuel) :
    ∃ visited, visit_nodes (fun n => .ok (visitor n)) fuel starts [] = .ok visited ∧
      visited.Nodup ∧
      ∀ x, x ∈ visited ↔
        ∃ s ∈ starts, Relation.ReflTransGen (fun a b => b ∈ visitor a) s x := by
  obtain ⟨res, hres, hnodup, _, hstartsub, hcls⟩ :=
    visit_nodes_complete visitor U hcl fuel starts []
      hstarts (by simp) (by simp) hsU (by simp) (by simp) (by simpa using hfuel)
  refine ⟨res, hres, hnodup, ?_⟩
  intro x
  constructor
  · intro hx
    refine visit_nodes_inv (P := fun x => ∃ s ∈ starts,
        Relation.ReflTransGen (fun a b => b ∈ visitor a) s x) ?_ fuel starts [] ?_ (by simp)
      res hres x hx
    · rintro z ⟨s, hs, hpath⟩ l hl y hy
      rw [← Except.ok.inj hl] at hy
      exact ⟨s, hs, hpath.tail hy⟩
    · intro s hs
      exact ⟨s, hs, Relation.ReflTransGen.refl⟩
  · rintro ⟨s, hs, hpath⟩
    induction hpath with
    | refl => exact hstartsub s hs
    | tail _ hstep ih => exact hcls _ ih _ hstep

/-- Witness for the C10 theorem at a concrete visitor and start set. -/
theorem visit_nodes_computes_reachable_set_witness :
    ∃ visited, visit_nodes
        (fun n : Nat => .ok (if n = 0 then [1] else [])) 3 [0] [] = .ok visited ∧
      visited.Nodup ∧
      ∀ x, x ∈ visited ↔
        ∃ s ∈ [0], Relation.ReflTransGen
          (fun a b => b ∈ (if a = 0 then [1] else [])) s x := by
  exact visit_nodes_computes_reachable_set (fun n : Nat => if n = 0 then [1] else [])
    [0] [0, 1] 3 (by decide) (by decide)
    (by
      intro x hx y hy
      fin_cases hx <;> simp_all)
    (by decide)

/-! ## Concrete code units used by counterexamples and failing inputs -/

/-- A code unit whose exception-match join (offset 8) is reachable both
from the failed-match jump at offset 2 (classified optional by
`is_arc_unhandled_exc_reraise`) and from the jump at offset 6 (classified
required): the shape of an `except E:` whose join is shared by the
reraise path and the normal path. -/
def progExcMatchJoin : List RawInst :=
  [ { opcode := COMPARE_OP, argval := .vnone, argrepr := "exception match",
      offset := 0, starts_line := some 1 },
    { opcode := POP_JUMP_IF_FALSE, argval := .vint 8, argrepr := "",
      offset := 2, starts_line := none },
    { opcode := LOAD_CONST, argval := .vint 1, argrepr := "",
      offset := 4, starts_line := none },
    { opcode := JUMP_FORWARD, argval := .vint 8, argrepr := "",
      offset := 6, starts_line := none },
    { opcode := LOAD_FAST, argval := .vstr "x", argrepr := "",
      offset := 8, starts_line := none },
    { opcode := RETURN_VALUE, argval := .vnone, argrepr := "",
      offset := 10, starts_line := none } ]

/-- A code unit forming the single arc `[0, 2, 4, 6]` whose first step is
an `END_FINALLY` falling through to the next instruction. -/
def progEndFinallyArc : List RawInst :=
  [ { opcode := END_FINALLY, argval := .vnone, argrepr := "",
      offset := 0, starts_line := some 1 },
    { opcode := LOAD_FAST, argval := .vstr "x", argrepr := "",
      offset := 2, starts_line := none },
    { opcode := LOAD_FAST, argval := .vstr "y", argrepr := "",
      offset := 4, starts_line := none },
    { opcode := RETURN_VALUE, argval := .vnone, argrepr := "",
      offset := 6, starts_line := none } ]

/-- A code unit with a `BREAK_LOOP` whose block stack holds a
`SETUP_EXCEPT` block but no `SETUP_LOOP` block. -/
def progBreakNoLoop : List RawInst :=
  [ { opcode := SETUP_EXCEPT, argval := .vint 8, argrepr := "",
      offset := 0, starts_line := some 1 },
    { opcode := BREAK_LOOP, argval := .vnone, argrepr := "",
      offset := 2, starts_line := none },
    { opcode := LOAD_CONST, argval := .vnone, argrepr := "",
      offset := 4, starts_line := none },
    { opcode := RETURN_VALUE, argval := .vnone, argrepr := "",
      offset := 6, starts_line := none },
    { opcode := POP_TOP, argval := .vnone, argrepr := "",
      offset := 8, starts_line := some 2 },
    { opcode := END_FINALLY, argval := .vnone, argrepr := "",
      offset := 10, starts_line := none } ]

/-- A well-formed two-instruction code unit (`LOAD_CONST 1; RETURN_VALUE`)
whose only line is 2 and whose required edges are `(-1, 0)` and `(0, 2)`. -/
def progConstReturn : List RawInst :=
  [ { opcode := LOAD_CONST, argval := .vint 1, argrepr := "",
      offset := 0, starts_line := some 2 },
    { opcode := RETURN_VALUE, argval := .vnone, argrepr := "",
      offset := 2, starts_line := none } ]

/-- The `progConstReturn` code unit. -/
def unitConstReturn : CodeUnit := { co_name := "f", insts := progConstReturn }

/-- The `progBreakNoLoop` code unit. -/
def unitBreakNoLoop : CodeUnit := { co_name := "g", insts := progBreakNoLoop }

/-- A code unit with a `BREAK_LOOP` properly enclosed in a `SETUP_LOOP`
block whose handler is at offset 8. -/
def progBreakInLoop : List RawInst :=
  [ { opcode := SETUP_LOOP, argval := .vint 8, argrepr := "",
      offset := 0, starts_line := some 1 },
    { opcode := BREAK_LOOP, argval := .vnone, argrepr := "",
      offset := 2, starts_line := none },
    { opcode := LOAD_CONST, argval := .vint 1, argrepr := "",
      offset := 4, starts_line := none },
    { opcode := RETURN_VALUE, argval := .vnone, argrepr := "",
      offset := 6, starts_line := none },
    { opcode := LOAD_CONST, argval := .vnone, argrepr := "",
      offset := 8, starts_line := some 2 },
    { opcode := RETURN_VALUE, argval := .vnone, argrepr := "",
      offset := 10, starts_line := none } ]

/-- The required edge map of `progExcMatchJoin`. -/
def reqExcMatchJoin : EdgeMap :=
  [((-1, 0), [1]), ((0, 2), [1]), ((2, 4), [1]), ((4, 6), [1]),
   ((6, 8), [1]), ((8, 10), [1])]

/-- The optional edge map of `progExcMatchJoin`. -/
def optExcMatchJoin : EdgeMap := [((2, 8), [1]), ((8, 10), [1])]

/-- C3: the spec claims that for every code unit the required and optional
edge maps of `crawl_code_insts` are disjoint.  On `progExcMatchJoin` the
interior edge `(8, 10)` of the join arc is emitted as required when the
arc is entered from the jump at offset 6, and as optional when it is
entered from the exception-match jump at offset 2, so the edge is a key of
both maps and the invariant fails. -/
theorem crawl_req_opt_overlap :
    crawl_code_insts progExcMatchJoin = .ok (reqExcMatchJoin, optExcMatchJoin) ∧
    (alookup reqExcMatchJoin (8, 10)).isSome ∧
    (alookup optExcMatchJoin (8, 10)).isSome := by
  refine ⟨by decide, by decide, by decide⟩

/-- The optional edge map of `progEndFinallyArc`. -/
def optEndFinallyArc : EdgeMap := [((0, 2), [1]), ((2, 4), [1]), ((4, 6), [1])]

/-- The arc of `progEndFinallyArc` starting at offset 0, and its
`is_arc_opt` classification at its `BEGIN` entry, recomputed from the
intermediate stages of `crawl_code_insts`. -/
def endFinallyArcEntry : Except PyErr (List Int × Bool) := do
  let scan ← scanInsts progEndFinallyArc
  let st2 ← buildDsts scan
  let srcs := buildSrcs st2.dsts
  let arcs ← buildArcs st2.dsts srcs (progEndFinallyArc.length + 3)
  let arcOffs ← assocIndex arcs 0
  let arc ← arcOffs.mapM (assocIndex st2.insts)
  let src ← assocIndex st2.insts OFF_BEGIN
  pure (arcOffs, is_arc_opt src arc srcs)

/-- C4 counterexample: on `progEndFinallyArc` the single arc `[0, 2, 4, 6]`
is not classified optional at its entry, yet the interior edge `(2, 4)` —
whose source instruction at offset 2 is a `LOAD_FAST`, not an
`END_FINALLY` — is emitted as optional, because the `END_FINALLY`
fall-through downgrade at step `(0, 2)` persists for the rest of the arc.
This refutes the claim that only edges whose source is an `END_FINALLY`
fall-through are downgraded. -/
theorem emit_interior_downgrade_persists :
    crawl_code_insts progEndFinallyArc = .ok ([((-1, 0), [1])], optEndFinallyArc) ∧
    (alookup optEndFinallyArc (2, 4)).isSome ∧
    (scanInsts progEndFinallyArc).map
      (fun st => (assocGet st.insts 2).map (·.opcode)) = .ok (some LOAD_FAST) ∧
    LOAD_FAST ≠ END_FINALLY ∧
    endFinallyArcEntry = .ok ([0, 2, 4, 6], false) := by
  refine ⟨by decide, by decide, by decide, by decide, by decide⟩

/-- The enhanced `BREAK_LOOP` instruction of `progBreakNoLoop` as produced
by the step-1 scan: its block stack holds only the `SETUP_EXCEPT` block. -/
def breakInstNoLoop : Inst :=
  { opcode := BREAK_LOOP, argval := .vnone, argrepr := "", off := 2, line := 1,
    is_line_start := false, stack := [(SETUP_EXCEPT, 8)], is_SF_exc_opt := false,
    is_call_exit := false, is_exc_match := false, is_exc_match_jmp_src := false,
    is_exc_match_jmp_dst := false }

/-- C6: the claim says a `BREAK_LOOP` with no enclosing `SETUP_LOOP` block
raises a descriptive structural error.  The code guard reads the stale
variable `dst` (the last setup opcode's target, here the truthy `8` from
the `SETUP_EXCEPT`), not `dst_off`, so the descriptive exception is never
raised; `insts[dst_off]` with `dst_off = None` raises a bare `KeyError`
instead.  When a `SETUP_LOOP` block is present, the edge to its handler is
added without error. -/
theorem break_loop_wrong_error :
    (scanInsts progBreakNoLoop).map (fun st => assocGet st.insts 2) =
      .ok (some breakInstNoLoop) ∧
    find_block_dst_off breakInstNoLoop [SETUP_LOOP] = none ∧
    crawl_code_insts progBreakNoLoop = .error .keyError ∧
    PyErr.keyError ≠ PyErr.structural ∧
    crawl_code_insts progBreakInLoop =
      .ok ([((-1, 0), [1]), ((0, 2), [1]), ((2, 8), [2]), ((8, 10), [2])], []) ∧
    (alookup ([((-1, 0), [1]), ((0, 2), [1]), ((2, 8), [2]), ((8, 10), [2])] : EdgeMap)
      (2, 8)).isSome := by
  refine ⟨by decide, by decide, by decide, by decide, by decide, by decide⟩

/-- The coverage map `calculate_coverage` produces for `unitConstReturn`
with the single traced edge `(-1, 0)` observed on line 7. -/
def covConstReturnLine7 : Coverage :=
  [(2, ⟨[(-1, 0, unitConstReturn), (0, 2, unitConstReturn)], []⟩),
   (7, ⟨[], [(-1, 0, unitConstReturn)]⟩)]

/-- C2 counterexample: a traced edge that matches a required edge is
recorded as matched on its observed line, even when that line is not one
of the lines the analyzer attributed to the edge.  Tracing `(-1, 0)` on
line 7 puts the edge into the matched set of line 7, where the required
set is empty: `matched ⊆ required` fails for line 7 of the produced map. -/
theorem coverage_matched_not_subset :
    calculate_coverage [(unitConstReturn, [(-1, 0, 7)])] = .ok covConstReturnLine7 ∧
    alookup covConstReturnLine7 7 = some ⟨[], [(-1, 0, unitConstReturn)]⟩ ∧
    ¬ (∀ e ∈ [(-1, 0, unitConstReturn)], e ∈ ([] : List Edge3)) := by
  refine ⟨by decide, by decide, by decide⟩

/-- The coverage map for `unitConstReturn` with both required edges traced
on line 2. -/
def covConstReturnFull : Coverage :=
  [(2, ⟨[(-1, 0, unitConstReturn), (0, 2, unitConstReturn)],
        [(-1, 0, unitConstReturn), (0, 2, unitConstReturn)]⟩)]

/-- C7 counterexample: the claim says a structural error in one code unit
is warned about and skipped with the other units unaffected.  Adding the
erroring `unitBreakNoLoop` to a report that also contains the healthy
`unitConstReturn` makes the whole `calculate_coverage` computation raise:
no coverage at all is produced, where the claim promises the coverage of
`unitConstReturn`. -/
theorem calculate_coverage_error_aborts_report :
    calculate_coverage
      [(unitConstReturn, [(-1, 0, 2), (0, 2, 2)]), (unitBreakNoLoop, [])] =
      .error .keyError ∧
    calculate_coverage [(unitConstReturn, [(-1, 0, 2), (0, 2, 2)])] =
      .ok covConstReturnFull := by
  refine ⟨by decide, by decide⟩

/-- C8 counterexample: `unitConstReturn`'s first instruction carries
starts-line 2, yet tracing the required edge `(-1, 0)` with observed line
0 drives the `assert line > 0` of `add_edges` to failure: the assertion is
not protected by the starts-line condition alone. -/
theorem add_edges_assert_fails_on_traced_line :
    (progConstReturn.head?.map (fun r => pyTruthy r.starts_line)) = some true ∧
    calculate_coverage [(unitConstReturn, [(-1, 0, 0)])] = .error .assertLine := by
  refine ⟨by decide, by decide⟩

/-- C5: the TEF heuristic.  When the instruction after the `SETUP_FINALLY`
is a `SETUP_EXCEPT` whose handler starts with `DUP_TOP`, the exception
edge is classified optional (`true`) with no warning; a handler starting
with `POP_TOP` yields required (`false`) with no warning; any other
handler opcode warns and yields required; and a following instruction
that is not a `SETUP_EXCEPT` yields required with no warning. -/
theorem is_SF_exc_opt_cases (nxt : Inst) (insts : List (Int × Inst)) :
    (∀ dst : Inst, nxt.opcode = SETUP_EXCEPT →
      instsIndexArgval insts nxt.argval = .ok dst →
      is_SF_exc_opt nxt insts =
        .ok (decide (dst.opcode = DUP_TOP),
             decide (dst.opcode ≠ DUP_TOP ∧ dst.opcode ≠ POP_TOP))) ∧
    (nxt.opcode ≠ SETUP_EXCEPT → is_SF_exc_opt nxt insts = .ok (false, false)) := by
  constructor
  · intro dst hse hix
    simp only [is_SF_exc_opt, hse, if_pos, hix, Bind.bind, Except.bind, pure, Except.pure]
    by_cases h1 : dst.opcode = DUP_TOP
    · simp [h1]
    · by_cases h2 : dst.opcode = POP_TOP
      · simp only [h1, h2]
        decide
      · simp [h1, h2]
  · intro hne
    simp [is_SF_exc_opt, hne, pure, Except.pure]

/-- An instruction map and `SETUP_EXCEPT` instruction exercising the TEF
heuristic: the handler at offset 8 starts with `DUP_TOP`. -/
def sfNextInst : Inst :=
  { opcode := SETUP_EXCEPT, argval := .vint 8, argrepr := "", off := 2, line := 1,
    is_line_start := false, stack := [], is_SF_exc_opt := false,
    is_call_exit := false, is_exc_match := false, is_exc_match_jmp_src := false,
    is_exc_match_jmp_dst := false }

/-- The handler instruction at offset 8 starting with `DUP_TOP`. -/
def sfHandlerInst : Inst :=
  { opcode := DUP_TOP, argval := .vnone, argrepr := "", off := 8, line := 2,
    is_line_start := true, stack := [], is_SF_exc_opt := false,
    is_call_exit := false, is_exc_match := false, is_exc_match_jmp_src := false,
    is_exc_match_jmp_dst := false }

/-- Witness for the C5 theorem: the concrete TEF shape is classified
optional without a warning. -/
theorem is_SF_exc_opt_cases_witness :
    is_SF_exc_opt sfNextInst [(8, sfHandlerInst)] = .ok (true, false) := by
  have h := (is_SF_exc_opt_cases sfNextInst [(8, sfHandlerInst)]).1 sfHandlerInst
    (by decide) (by decide)
  rw [h]
  decide

/-! ## The reconciler dispatch (C1) -/

theorem alookup_raise_reqs (req : EdgeMap) (d : Int) :
    alookup (raise_reqs req) d =
      (alookup req (OFF_RAISED, d)).map (fun ls => ((OFF_RAISED, d), ls)) := by
  induction req with
  | nil => simp [raise_reqs, alookup]
  | cons p rest ih =>
    obtain ⟨⟨ps, pd⟩, pls⟩ := p
    by_cases hs : ps = OFF_RAISED
    · subst hs
      have h1 : raise_reqs (((OFF_RAISED, pd), pls) :: rest) =
          (pd, ((OFF_RAISED, pd), pls)) :: raise_reqs rest := by
        simp [raise_reqs, List.filterMap_cons]
      rw [h1, alookup_cons, alookup_cons]
      by_cases hd : pd = d
      · subst hd
        rw [if_pos rfl, if_pos rfl]
        rfl
      · rw [if_neg hd, if_neg (by simp [Prod.ext_iff, hd] :
          ¬((OFF_RAISED, pd) = (OFF_RAISED, d)))]
        exact ih
    · have h1 : raise_reqs (((ps, pd), pls) :: rest) = raise_reqs rest := by
        simp [raise_reqs, List.filterMap_cons, hs]
      rw [h1, alookup_cons, if_neg (by simp [Prod.ext_iff, hs] :
        ¬((ps, pd) = (OFF_RAISED, d)))]
      exact ih

theorem mem_raise_opts (opt : EdgeMap) (d : Int) :
    d ∈ raise_opts opt ↔ (alookup opt (OFF_RAISED, d)).isSome := by
  induction opt with
  | nil => simp [raise_opts, alookup]
  | cons p rest ih =>
    obtain ⟨⟨ps, pd⟩, pls⟩ := p
    by_cases hs : ps = OFF_RAISED
    · subst hs
      have h1 : raise_opts (((OFF_RAISED, pd), pls) :: rest) = pd :: raise_opts rest := by
        simp [raise_opts, List.filterMap_cons]
      rw [h1, alookup_cons]
      by_cases hd : pd = d
      · subst hd
        rw [if_pos rfl]
        simp
      · rw [if_neg (by simp [Prod.ext_iff, hd] : ¬((OFF_RAISED, pd) = (OFF_RAISED, d)))]
        simp only [List.mem_cons]
        constructor
        · rintro (h | h)
          · exact absurd h.symm hd
          · exact ih.mp h
        · intro h
          exact Or.inr (ih.mpr h)
    · have h1 : raise_opts (((ps, pd), pls) :: rest) = raise_opts rest := by
        simp [raise_opts, List.filterMap_cons, hs]
      rw [h1, alookup_cons, if_neg (by simp [Prod.ext_iff, hs] :
        ¬((ps, pd) = (OFF_RAISED, d)))]
      exact ih

/-- The dispatch of `reconcile_step`, expressed directly in terms of
membership in `req` and `opt` via the bridge lemmas. -/
theorem reconcile_step_eq (req opt matched : EdgeMap) (s d line : Int) :
    reconcile_step req opt matched (s, d, line) =
      if (alookup req (s, d)).isSome then (mapSetAdd matched (s, d) line, false)
      else
        match alookup req (OFF_RAISED, d) with
        | some ls => (mapSetUpdate matched (OFF_RAISED, d) ls, false)
        | none =>
          if (alookup opt (s, d)).isSome ∨ (alookup opt (OFF_RAISED, d)).isSome
          then (matched, false) else (matched, true) := by
  by_cases h1 : (alookup req (s, d)).isSome
  · simp [reconcile_step, h1]
  · rcases h2 : alookup req (OFF_RAISED, d) with _ | ls
    · simp [reconcile_step, h1, alookup_raise_reqs, h2, mem_raise_opts]
    · simp [reconcile_step, h1, alookup_raise_reqs, h2]

/-- C1: for a traced dynamic edge `(s, d, line)`, the reconciler of
`calculate_coverage` applies exactly the first applicable of its four
cases, in this priority: (1) `(s, d)` required — matched on the observed
line; (2) `(OFF_RAISED, d)` required — that edge matched with its inferred
lines, not the observed line; (3) `(s, d)` optional or `(OFF_RAISED, d)`
optional — ignored; (4) otherwise reported as unexpected, leaving the
matched map (hence the coverage numbers) unchanged. -/
theorem reconcile_step_four_cases (req opt matched : EdgeMap) (s d line : Int) :
    (∀ ls, alookup req (s, d) = some ls →
      reconcile_step req opt matched (s, d, line) =
        (mapSetAdd matched (s, d) line, false)) ∧
    (alookup req (s, d) = none → ∀ ls, alookup req (OFF_RAISED, d) = some ls →
      reconcile_step req opt matched (s, d, line) =
        (mapSetUpdate matched (OFF_RAISED, d) ls, false)) ∧
    (alookup req (s, d) = none → alookup req (OFF_RAISED, d) = none →
      ((alookup opt (s, d)).isSome ∨ (alookup opt (OFF_RAISED, d)).isSome) →
      reconcile_step req opt matched (s, d, line) = (matched, false)) ∧
    (alookup req (s, d) = none → alookup req (OFF_RAISED, d) = none →
      alookup opt (s, d) = none → alookup opt (OFF_RAISED, d) = none →
      reconcile_step req opt matched (s, d, line) = (matched, true)) := by
  refine ⟨?_, ?_, ?_, ?_⟩
  · intro ls h
    rw [reconcile_step_eq, if_pos (by simp [h])]
  · intro h1 ls h2
    rw [reconcile_step_eq, if_neg (by simp [h1]), h2]
  · intro h1 h2 h3
    rw [reconcile_step_eq, if_neg (by simp [h1]), h2, if_pos h3]
  · intro h1 h2 h3 h4
    rw [reconcile_step_eq, if_neg (by simp [h1]), h2, if_neg (by simp [h3, h4])]

/-- Witness for the C1 theorem: a traced edge `(10, 4)` on line 9 that is
not itself required but whose destination is the target of the required
edge `(OFF_RAISED, 4)` is recorded by the raise-rewrite case, attributing
the inferred line 3 rather than the observed line 9. -/
theorem reconcile_step_four_cases_witness :
    reconcile_step [((OFF_RAISED, 4), [3])] [] [] (10, 4, 9) =
      ([((OFF_RAISED, 4), [3])], false) := by
  have h := (reconcile_step_four_cases [((OFF_RAISED, 4), [3])] [] [] 10 4 9).2.1
    (by decide) [3] (by decide)
  rw [h]
  decide

/-! ## The coalesce merge as a set union (C9) -/

/-- The target domain contributed by one snapshot's `target_paths` list. -/
def snapTargetsOf (arg_targets : List String) :
    List (String × Option String) → Finset String
  | [] => ∅
  | tp :: rest =>
    if arg_targets ≠ [] ∧ tp.1 ∉ arg_targets then snapTargetsOf arg_targets rest
    else insert tp.1 (snapTargetsOf arg_targets rest)

/-- The `(target, path)` pairs contributed by one snapshot. -/
def snapPairsOf (arg_targets : List String) :
    List (String × Option String) → Finset (String × String)
  | [] => ∅
  | tp :: rest =>
    if arg_targets ≠ [] ∧ tp.1 ∉ arg_targets then snapPairsOf arg_targets rest
    else
      match tp.2 with
      | some path => insert (tp.1, path) (snapPairsOf arg_targets rest)
      | none => snapPairsOf arg_targets rest

/-- The `(path, code, edge)` triples contributed by one edge list. -/
def snapEdgesOf3 (path : String) (code : CodeUnit) :
    List (Int × Int × Int) → Finset (String × CodeUnit × (Int × Int × Int))
  | [] => ∅
  | e :: rest => insert (path, code, e) (snapEdgesOf3 path code rest)

/-- The `(path, code, edge)` triples contributed by one path's code map. -/
def snapEdgesOf2 (path : String) :
    List (CodeUnit × List (Int × Int × Int)) →
      Finset (String × CodeUnit × (Int × Int × Int))
  | [] => ∅
  | ce :: rest => snapEdgesOf3 path ce.1 ce.2 ∪ snapEdgesOf2 path rest

/-- The `(path, code, edge)` triples contributed by one snapshot. -/
def snapEdgesOf :
    List (String × List (CodeUnit × List (Int × Int × Int))) →
      Finset (String × CodeUnit × (Int × Int × Int))
  | [] => ∅
  | pce :: rest => snapEdgesOf2 pce.1 pce.2 ∪ snapEdgesOf rest

theorem coalesce_tp_fold (arg_targets : List String) :
    ∀ (l : List (String × Option String)) (st : CoalesceState),
      l.foldl (coalesce_tp_step arg_targets) st =
        { st with
          targets := st.targets ∪ snapTargetsOf arg_targets l,
          target_paths := st.target_paths ∪ snapPairsOf arg_targets l } := by
  intro l
  induction l with
  | nil => intro st; simp [snapTargetsOf, snapPairsOf]
  | cons tp rest ih =>
    intro st
    rw [List.foldl_cons, ih]
    by_cases hskip : arg_targets ≠ [] ∧ tp.1 ∉ arg_targets
    · simp only [coalesce_tp_step, if_pos hskip, snapTargetsOf, snapPairsOf]
    · rcases hp : tp.2 with _ | path
      · simp only [coalesce_tp_step, if_neg hskip, hp, snapTargetsOf, snapPairsOf]
        ext1 <;> simp [Finset.union_insert]
      · simp only [coalesce_tp_step, if_neg hskip, hp, snapTargetsOf, snapPairsOf]
        ext1 <;> simp [Finset.union_insert]

theorem coalesce_edge3_fold (path : String) (code : CodeUnit) :
    ∀ (es : List (Int × Int × Int)) (st : CoalesceState),
      es.foldl (coalesce_edge_insert path code) st =
        { st with path_code_edges := st.path_code_edges ∪ snapEdgesOf3 path code es } := by
  intro es
  induction es with
  | nil => intro st; simp [snapEdgesOf3]
  | cons e rest ih =>
    intro st
    rw [List.foldl_cons, ih]
    simp only [coalesce_edge_insert, snapEdgesOf3]
    ext1 <;> simp [Finset.union_insert]

theorem coalesce_edge2_fold (path : String) :
    ∀ (ces : List (CodeUnit × List (Int × Int × Int))) (st : CoalesceState),
      ces.foldl (fun st ce => ce.2.foldl (coalesce_edge_insert path ce.1) st) st =
        { st with path_code_edges := st.path_code_edges ∪ snapEdgesOf2 path ces } := by
  intro ces
  induction ces with
  | nil => intro st; simp [snapEdgesOf2]
  | cons ce rest ih =>
    intro st
    rw [List.foldl_cons, ih, coalesce_edge3_fold]
    simp only [snapEdgesOf2]
    ext1 <;> simp [Finset.union_assoc]

theorem coalesce_edge1_fold :
    ∀ (pces : List (String × List (CodeUnit × List (Int × Int × Int))))
      (st : CoalesceState),
      pces.foldl
        (fun st pce =>
          pce.2.foldl (fun st ce => ce.2.foldl (coalesce_edge_insert pce.1 ce.1) st) st)
        st =
        { st with path_code_edges := st.path_code_edges ∪ snapEdgesOf pces } := by
  intro pces
  induction pces with
  | nil => intro st; simp [snapEdgesOf]
  | cons pce rest ih =>
    intro st
    rw [List.foldl_cons, ih, coalesce_edge2_fold]
    simp only [snapEdgesOf]
    ext1 <;> simp [Finset.union_assoc]

/-- `coalesce_merge` is exactly a three-component set union with the
snapshot's contribution. -/
theorem coalesce_merge_eq (arg_targets : List String) (st : CoalesceState)
    (s : Snapshot) :
    coalesce_merge arg_targets st s =
      { targets := st.targets ∪ snapTargetsOf arg_targets s.target_paths,
        target_paths := st.target_paths ∪ snapPairsOf arg_targets s.target_paths,
        path_code_edges := st.path_code_edges ∪ snapEdgesOf s.path_code_edges } := by
  unfold coalesce_merge
  rw [coalesce_tp_fold, coalesce_edge1_fold]

theorem coalesce_merge_comm (arg_targets : List String) (st : CoalesceState)
    (s1 s2 : Snapshot) :
    coalesce_merge arg_targets (coalesce_merge arg_targets st s1) s2 =
      coalesce_merge arg_targets (coalesce_merge arg_targets st s2) s1 := by
  simp only [coalesce_merge_eq]
  ext1 <;> simp only [Finset.union_assoc] <;> congr 1 <;> exact Finset.union_comm _ _

theorem coalesce_merge_idem (arg_targets : List String) (st : CoalesceState)
    (s : Snapshot) :
    coalesce_merge arg_targets (coalesce_merge arg_targets st s) s =
      coalesce_merge arg_targets st s := by
  simp only [coalesce_merge_eq]
  ext1 <;> simp [Finset.union_assoc]

theorem coalesce_foldl_perm (arg_targets : List String) :
    ∀ {l l' : List Snapshot}, l.Perm l' → ∀ st : CoalesceState,
      l.foldl (coalesce_merge arg_targets) st = l'.foldl (coalesce_merge arg_targets) st := by
  intro l l' hp
  induction hp with
  | nil => intro st; rfl
  | cons x _ ih =>
    intro st
    simp only [List.foldl_cons]
    exact ih _
  | swap x y l =>
    intro st
    simp only [List.foldl_cons]
    rw [coalesce_merge_comm]
  | trans _ _ ih1 ih2 =>
    intro st
    rw [ih1, ih2]

/-- C9: the coalesce merge over snapshots is commutative and idempotent,
and folding a list of snapshots is invariant under permutation and under
regrouping: merging any collection of snapshots produces the same
accumulated target-path sets and path-code edge sets regardless of the
order or grouping of the merges, and merging the same snapshot twice is
the same as merging it once. -/
theorem coalesce_merge_algebra (arg_targets : List String) (st : CoalesceState)
    (s s1 s2 : Snapshot) (l l' l2 : List Snapshot) (hperm : l.Perm l') :
    (coalesce_merge arg_targets (coalesce_merge arg_targets st s1) s2 =
      coalesce_merge arg_targets (coalesce_merge arg_targets st s2) s1) ∧
    (coalesce_merge arg_targets (coalesce_merge arg_targets st s) s =
      coalesce_merge arg_targets st s) ∧
    (l.foldl (coalesce_merge arg_targets) st = l'.foldl (coalesce_merge arg_targets) st) ∧
    (coalesce arg_targets (l ++ l2) =
      l2.foldl (coalesce_merge arg_targets) (coalesce arg_targets l)) := by
  refine ⟨coalesce_merge_comm arg_targets st s1 s2,
          coalesce_merge_idem arg_targets st s,
          coalesce_foldl_perm arg_targets hperm st, ?_⟩
  simp [coalesce, List.foldl_append]

/-- A small concrete snapshot: one loaded target and one traced edge. -/
def snapLoaded : Snapshot :=
  { target_paths := [("t", some "p")],
    path_code_edges := [("p", [(unitConstReturn, [(-1, 0, 2)])])] }

/-- A small concrete snapshot: one never-loaded target. -/
def snapUnloaded : Snapshot :=
  { target_paths := [("u", none)], path_code_edges := [] }

/-- Witness for the C9 theorem: coalescing the two concrete snapshots in
either order produces the same accumulated state. -/
theorem coalesce_merge_algebra_witness :
    [snapLoaded, snapUnloaded].foldl (coalesce_merge []) (initCoalesceState []) =
      [snapUnloaded, snapLoaded].foldl (coalesce_merge []) (initCoalesceState []) := by
  exact (coalesce_merge_algebra [] (initCoalesceState []) snapLoaded snapLoaded
    snapUnloaded [snapLoaded, snapUnloaded] [snapUnloaded, snapLoaded] []
    (List.Perm.swap snapUnloaded snapLoaded [])).2.2.1

/-! ## Coverage-map lemmas (C2) -/

/-- The required set of a line of the coverage map (empty when absent). -/
def requiredAt (cov : Coverage) (line : Int) : List Edge3 :=
  ((alookup cov line).map (·.required)).getD []

/-- The matched set of a line of the coverage map (empty when absent). -/
def matchedAt (cov : Coverage) (line : Int) : List Edge3 :=
  ((alookup cov line).map (·.matched)).getD []

theorem alookup_covAdd (cov : Coverage) (line line' : Int) (idx : Nat) (e : Edge3) :
    alookup (covAdd cov line idx e) line' =
      if line' = line then
        some (if idx = COV_REQ
          then ⟨setAdd ((alookup cov line).getD ⟨[], []⟩).required e,
                ((alookup cov line).getD ⟨[], []⟩).matched⟩
          else ⟨((alookup cov line).getD ⟨[], []⟩).required,
                setAdd ((alookup cov line).getD ⟨[], []⟩).matched e⟩)
      else alookup cov line' := by
  induction cov with
  | nil =>
    by_cases h : line' = line
    · subst h
      simp [covAdd, alookup_cons, alookup_nil, setAdd]
    · have h2 : ¬ line = line' := fun hc => h hc.symm
      simp [covAdd, alookup_cons, alookup_nil, h, h2]
  | cons p rest ih =>
    obtain ⟨pl, pr⟩ := p
    by_cases hpl : pl = line
    · subst hpl
      by_cases h : line' = pl
      · subst h
        simp [covAdd, alookup_cons]
      · have h2 : ¬ pl = line' := fun hc => h hc.symm
        simp [covAdd, alookup_cons, h, h2]
    · by_cases h : line' = line
      · subst h
        have hpl' : ¬ pl = line' := hpl
        simp [covAdd, hpl, alookup_cons, hpl', ih]
      · by_cases hpl2 : pl = line'
        · subst hpl2
          simp [covAdd, hpl, alookup_cons, ih, h]
        · simp [covAdd, hpl, alookup_cons, hpl2, ih, h]

theorem requiredAt_covAdd_req (cov : Coverage) (line line' : Int) (e : Edge3) :
    requiredAt (covAdd cov line COV_REQ e) line' =
      if line' = line then setAdd (requiredAt cov line) e else requiredAt cov line' := by
  unfold requiredAt
  rw [alookup_covAdd]
  by_cases h : line' = line
  · subst h
    simp only [if_pos rfl, if_pos rfl, Option.map_some, Option.getD_some]
    rcases alookup cov line' with _ | pr <;> rfl
  · rw [if_neg h, if_neg h]

theorem matchedAt_covAdd_req (cov : Coverage) (line line' : Int) (e : Edge3) :
    matchedAt (covAdd cov line COV_REQ e) line' = matchedAt cov line' := by
  unfold matchedAt
  rw [alookup_covAdd]
  by_cases h : line' = line
  · subst h
    simp only [if_pos rfl, Option.map_some, Option.getD_some]
    rcases alookup cov line' with _ | pr <;> rfl
  · rw [if_neg h]

theorem requiredAt_covAdd_matched (cov : Coverage) (line line' : Int) (e : Edge3) :
    requiredAt (covAdd cov line COV_MATCHED e) line' = requiredAt cov line' := by
  unfold requiredAt
  rw [alookup_covAdd]
  by_cases h : line' = line
  · subst h
    rw [if_pos rfl, if_neg (by decide : ¬ (COV_MATCHED = COV_REQ))]
    rcases alookup cov line' with _ | pr <;> rfl
  · rw [if_neg h]

theorem matchedAt_covAdd_matched (cov : Coverage) (line line' : Int) (e : Edge3) :
    matchedAt (covAdd cov line COV_MATCHED e) line' =
      if line' = line then setAdd (matchedAt cov line) e else matchedAt cov line' := by
  unfold matchedAt
  rw [alookup_covAdd]
  by_cases h : line' = line
  · subst h
    rw [if_pos rfl, if_pos rfl, if_neg (by decide : ¬ (COV_MATCHED = COV_REQ))]
    rcases alookup cov line' with _ | pr <;> rfl
  · rw [if_neg h, if_neg h]

theorem add_lines_req (c : CodeUnit) (e : Int × Int) :
    ∀ (lines : List Int) (cov cov' : Coverage),
      lines.foldlM
        (fun cov line =>
          if line > 0 then pure (covAdd cov line COV_REQ (e.1, e.2, c))
          else Except.error PyErr.assertLine) cov = .ok cov' →
      (∀ l, matchedAt cov' l = matchedAt cov l) ∧
      (∀ l x, x ∈ requiredAt cov l → x ∈ requiredAt cov' l) ∧
      (∀ l ∈ lines, (e.1, e.2, c) ∈ requiredAt cov' l) := by
  intro lines
  induction lines with
  | nil =>
    intro cov cov' h
    simp only [List.foldlM_nil, pure, Except.pure] at h
    rw [← Except.ok.inj h]
    exact ⟨fun l => rfl, fun l x hx => hx, by simp⟩
  | cons line rest ih =>
    intro cov cov' h
    rw [List.foldlM_cons] at h
    by_cases hpos : line > 0
    · rw [if_pos hpos] at h
      simp only [pure, Except.pure, Bind.bind, Except.bind] at h
      obtain ⟨hm, hr, hin⟩ := ih (covAdd cov line COV_REQ (e.1, e.2, c)) cov' h
      refine ⟨?_, ?_, ?_⟩
      · intro l
        rw [hm l, matchedAt_covAdd_req]
      · intro l x hx
        refine hr l x ?_
        rw [requiredAt_covAdd_req]
        by_cases hl : l = line
        · rw [if_pos hl]
          subst hl
          exact mem_setAdd.mpr (Or.inl hx)
        · rwa [if_neg hl]
      · intro l hl
        rcases List.mem_cons.mp hl with h1 | h1
        · subst h1
          refine hr l _ ?_
          rw [requiredAt_covAdd_req, if_pos rfl]
          exact mem_setAdd.mpr (Or.inr rfl)
        · exact hin l h1
    · rw [if_neg hpos] at h
      simp only [Bind.bind, Except.bind] at h
      exact absurd h (by simp)

theorem add_lines_matched (c : CodeUnit) (e : Int × Int) :
    ∀ (lines : List Int) (cov cov' : Coverage),
      lines.foldlM
        (fun cov line =>
          if line > 0 then pure (covAdd cov line COV_MATCHED (e.1, e.2, c))
          else Except.error PyErr.assertLine) cov = .ok cov' →
      (∀ l, requiredAt cov' l = requiredAt cov l) ∧
      (∀ l x, x ∈ matchedAt cov' l →
        x ∈ matchedAt cov l ∨ (x = (e.1, e.2, c) ∧ l ∈ lines)) := by
  intro lines
  induction lines with
  | nil =>
    intro cov cov' h
    simp only [List.foldlM_nil, pure, Except.pure] at h
    rw [← Except.ok.inj h]
    exact ⟨fun l => rfl, fun l x hx => Or.inl hx⟩
  | cons line rest ih =>
    intro cov cov' h
    rw [List.foldlM_cons] at h
    by_cases hpos : line > 0
    · rw [if_pos hpos] at h
      simp only [pure, Except.pure, Bind.bind, Except.bind] at h
      obtain ⟨hreq, hmem⟩ := ih (covAdd cov line COV_MATCHED (e.1, e.2, c)) cov' h
      refine ⟨?_, ?_⟩
      · intro l
        rw [hreq l, requiredAt_covAdd_matched]
      · intro l x hx
        rcases hmem l x hx with h1 | ⟨h1, h2⟩
        · rw [matchedAt_covAdd_matched] at h1
          by_cases hl : l = line
          · rw [if_pos hl] at h1
            rcases mem_setAdd.mp h1 with h2 | h2
            · subst hl; exact Or.inl h2
            · exact Or.inr ⟨h2, by simp [hl]⟩
          · rw [if_neg hl] at h1
            exact Or.inl h1
        · exact Or.inr ⟨h1, by simp [h2]⟩
    · rw [if_neg hpos] at h
      simp only [Bind.bind, Except.bind] at h
      exact absurd h (by simp)

theorem add_edges_req (c : CodeUnit) :
    ∀ (m : EdgeMap) (cov cov' : Coverage),
      add_edges cov m c COV_REQ = .ok cov' →
      (∀ l, matchedAt cov' l = matchedAt cov l) ∧
      (∀ l x, x ∈ requiredAt cov l → x ∈ requiredAt cov' l) ∧
      (∀ p ∈ m, ∀ l ∈ p.2, (p.1.1, p.1.2, c) ∈ requiredAt cov' l) := by
  intro m
  induction m with
  | nil =>
    intro cov cov' h
    simp only [add_edges, List.foldlM_nil, pure, Except.pure] at h
    rw [← Except.ok.inj h]
    exact ⟨fun l => rfl, fun l x hx => hx, by simp⟩
  | cons p rest ih =>
    intro cov cov' h
    simp only [add_edges, List.foldlM_cons] at h
    rcases h1 : p.2.foldlM
        (fun cov line =>
          if line > 0 then pure (covAdd cov line COV_REQ (p.1.1, p.1.2, c))
          else Except.error PyErr.assertLine) cov with e1 | cov1
    · rw [h1] at h
      simp only [Bind.bind, Except.bind] at h
      exact absurd h (by simp)
    · rw [h1] at h
      simp only [Bind.bind, Except.bind] at h
      obtain ⟨hm1, hr1, hin1⟩ := add_lines_req c p.1 p.2 cov cov1 h1
      obtain ⟨hm2, hr2, hin2⟩ := ih cov1 cov' h
      refine ⟨?_, ?_, ?_⟩
      · intro l
        rw [hm2 l, hm1 l]
      · intro l x hx
        exact hr2 l x (hr1 l x hx)
      · intro q hq l hl
        rcases List.mem_cons.mp hq with h2 | h2
        · subst h2
          exact hr2 l _ (hin1 l hl)
        · exact hin2 q h2 l hl

theorem add_edges_matched (c : CodeUnit) :
    ∀ (m : EdgeMap) (cov cov' : Coverage),
      add_edges cov m c COV_MATCHED = .ok cov' →
      (∀ l, requiredAt cov' l = requiredAt cov l) ∧
      (∀ l x, x ∈ matchedAt cov' l →
        x ∈ matchedAt cov l ∨ ∃ p ∈ m, x = (p.1.1, p.1.2, c) ∧ l ∈ p.2) := by
  intro m
  induction m with
  | nil =>
    intro cov cov' h
    simp only [add_edges, List.foldlM_nil, pure, Except.pure] at h
    rw [← Except.ok.inj h]
    exact ⟨fun l => rfl, fun l x hx => Or.inl hx⟩
  | cons p rest ih =>
    intro cov cov' h
    simp only [add_edges, List.foldlM_cons] at h
    rcases h1 : p.2.foldlM
        (fun cov line =>
          if line > 0 then pure (covAdd cov line COV_MATCHED (p.1.1, p.1.2, c))
          else Except.error PyErr.assertLine) cov with e1 | cov1
    · rw [h1] at h
      simp only [Bind.bind, Except.bind] at h
      exact absurd h (by simp)
    · rw [h1] at h
      simp only [Bind.bind, Except.bind] at h
      obtain ⟨hreq1, hmem1⟩ := add_lines_matched c p.1 p.2 cov cov1 h1
      obtain ⟨hreq2, hmem2⟩ := ih cov1 cov' h
      refine ⟨?_, ?_⟩
      · intro l
        rw [hreq2 l, hreq1 l]
      · intro l x hx
        rcases hmem2 l x hx with h2 | ⟨q, hq, h3, h4⟩
        · rcases hmem1 l x h2 with h3 | ⟨h3, h4⟩
          · exact Or.inl h3
          · exact Or.inr ⟨p, by simp, h3, h4⟩
        · exact Or.inr ⟨q, List.mem_cons_of_mem _ hq, h3, h4⟩

theorem reconcile_fold_sub (req opt : EdgeMap) :
    ∀ (traced : List (Int × Int × Int)) (matched : EdgeMap),
      (∀ t ∈ traced, ∀ ls, alookup req (t.1, t.2.1) = some ls → t.2.2 ∈ ls) →
      (∀ e ls, alookup matched e = some ls →
        ∃ ls', alookup req e = some ls' ∧ ∀ l ∈ ls, l ∈ ls') →
      ∀ e ls,
        alookup (traced.foldl (fun m t => (reconcile_step req opt m t).1) matched) e =
          some ls →
        ∃ ls', alookup req e = some ls' ∧ ∀ l ∈ ls, l ∈ ls' := by
  intro traced
  induction traced with
  | nil =>
    intro matched _ hinv e ls h
    exact hinv e ls h
  | cons t rest ih =>
    intro matched htr hinv e ls h
    obtain ⟨s, d, line⟩ := t
    rw [List.foldl_cons] at h
    refine ih _ (fun t ht => htr t (List.mem_cons_of_mem _ ht)) ?_ e ls h
    rcases h1 : alookup req (s, d) with _ | ls1
    · rcases h2 : alookup req (OFF_RAISED, d) with _ | ls2
      · have hstep : (reconcile_step req opt matched (s, d, line)).1 = matched := by
          rw [reconcile_step_eq]
          rw [if_neg (by simp [h1]), h2]
          split
          all_goals first
            | (rename_i heq; exact Option.noConfusion heq)
            | (split <;> rfl)
        rw [hstep]
        exact hinv
      · have hstep : (reconcile_step req opt matched (s, d, line)).1 =
            mapSetUpdate matched (OFF_RAISED, d) ls2 := by
          rw [reconcile_step_eq, if_neg (by simp [h1]), h2]
        rw [hstep]
        intro e' ls' hl
        rw [alookup_mapSetUpdate] at hl
        by_cases he : e' = (OFF_RAISED, d)
        · rw [if_pos he] at hl
          refine ⟨ls2, he ▸ h2, ?_⟩
          rw [← Option.some.inj hl]
          refine setUpdate_subset ?_ (fun y hy => hy)
          rcases ho : alookup matched (OFF_RAISED, d) with _ | lso
          · simp [ho]
          · simp only [ho, Option.getD_some]
            obtain ⟨lsr, hr, hsub⟩ := hinv _ _ ho
            rw [h2] at hr
            exact fun y hy => (Option.some.inj hr) ▸ hsub y hy
        · rw [if_neg he] at hl
          exact hinv e' ls' hl
    · have hstep : (reconcile_step req opt matched (s, d, line)).1 =
          mapSetAdd matched (s, d) line := by
        rw [reconcile_step_eq, if_pos (by simp [h1])]
      rw [hstep]
      intro e' ls' hl
      rw [alookup_mapSetAdd] at hl
      by_cases he : e' = (s, d)
      · rw [if_pos he] at hl
        refine ⟨ls1, he ▸ h1, ?_⟩
        rw [← Option.some.inj hl]
        refine setAdd_subset ?_ (htr (s, d, line) (by simp) ls1 h1)
        rcases ho : alookup matched (s, d) with _ | lso
        · simp [ho]
        · simp only [ho, Option.getD_some]
          obtain ⟨lsr, hr, hsub⟩ := hinv _ _ ho
          rw [h1] at hr
          exact fun y hy => (Option.some.inj hr) ▸ hsub y hy
      · rw [if_neg he] at hl
        exact hinv e' ls' hl

/-- The matched map computed by `reconcile` attributes to each edge only
lines among the lines the inference attributed to that edge, provided each
traced edge that directly matches a required edge is observed on such a
line. -/
theorem reconcile_sub (req opt : EdgeMap) (traced : List (Int × Int × Int))
    (htr : ∀ t ∈ traced, ∀ ls, alookup req (t.1, t.2.1) = some ls → t.2.2 ∈ ls) :
    ∀ e ls, alookup (reconcile req opt traced) e = some ls →
      ∃ ls', alookup req e = some ls' ∧ ∀ l ∈ ls, l ∈ ls' := by
  exact reconcile_fold_sub req opt traced [] htr (by simp [alookup])

/-- The keys of an association list are duplicate-free. -/
def keysNodup {κ α : Type} (m : List (κ × α)) : Prop := (m.map (·.1)).Nodup

theorem mapSetAdd_keys {κ : Type} [DecidableEq κ] {α : Type} [DecidableEq α]
    (m : List (κ × List α)) (k : κ) (x : α) :
    (mapSetAdd m k x).map (·.1) =
      if k ∈ m.map (·.1) then m.map (·.1) else m.map (·.1) ++ [k] := by
  induction m with
  | nil => simp [mapSetAdd]
  | cons p rest ih =>
    by_cases hpk : p.1 = k
    · subst hpk
      simp [mapSetAdd]
    · have hkp : ¬ (k = p.1) := fun h => hpk h.symm
      simp only [mapSetAdd, if_neg hpk, List.map_cons, ih, List.mem_cons]
      by_cases hc : k ∈ rest.map (·.1)
      · rw [if_pos hc, if_pos (Or.inr hc)]
      · rw [if_neg hc, if_neg (by rintro (h | h); exact hkp h; exact hc h)]
        simp

theorem mapSetUpdate_keys {κ : Type} [DecidableEq κ] {α : Type} [DecidableEq α]
    (m : List (κ × List α)) (k : κ) (xs : List α) :
    (mapSetUpdate m k xs).map (·.1) =
      if k ∈ m.map (·.1) then m.map (·.1) else m.map (·.1) ++ [k] := by
  induction m with
  | nil => simp [mapSetUpdate]
  | cons p rest ih =>
    by_cases hpk : p.1 = k
    · subst hpk
      simp [mapSetUpdate]
    · have hkp : ¬ (k = p.1) := fun h => hpk h.symm
      simp only [mapSetUpdate, if_neg hpk, List.map_cons, ih, List.mem_cons]
      by_cases hc : k ∈ rest.map (·.1)
      · rw [if_pos hc, if_pos (Or.inr hc)]
      · rw [if_neg hc, if_neg (by rintro (h | h); exact hkp h; exact hc h)]
        simp

theorem keysNodup_mapSetAdd {κ : Type} [DecidableEq κ] {α : Type} [DecidableEq α]
    {m : List (κ × List α)} (h : keysNodup m) (k : κ) (x : α) :
    keysNodup (mapSetAdd m k x) := by
  unfold keysNodup at *
  rw [mapSetAdd_keys]
  by_cases hc : k ∈ m.map (·.1)
  · simpa [hc]
  · rw [if_neg hc]
    simp [List.nodup_append, h, hc]

theorem keysNodup_mapSetUpdate {κ : Type} [DecidableEq κ] {α : Type} [DecidableEq α]
    {m : List (κ × List α)} (h : keysNodup m) (k : κ) (xs : List α) :
    keysNodup (mapSetUpdate m k xs) := by
  unfold keysNodup at *
  rw [mapSetUpdate_keys]
  by_cases hc : k ∈ m.map (·.1)
  · simpa [hc]
  · rw [if_neg hc]
    simp [List.nodup_append, h, hc]

theorem alookup_of_mem_keysNodup {κ α : Type} [DecidableEq κ]
    {m : List (κ × α)} (h : keysNodup m) {p : κ × α} (hp : p ∈ m) :
    alookup m p.1 = some p.2 := by
  induction m with
  | nil => cases hp
  | cons q rest ih =>
    unfold keysNodup at h
    simp only [List.map_cons, List.nodup_cons] at h
    rcases List.mem_cons.mp hp with h1 | h1
    · subst h1
      rw [alookup_cons, if_pos rfl]
    · have hne : q.1 ≠ p.1 := by
        intro hc
        exact h.1 (hc ▸ List.mem_map.mpr ⟨p, h1, rfl⟩)
      rw [alookup_cons, if_neg hne]
      exact ih h.2 h1

theorem keysNodup_reconcile_step (req opt matched : EdgeMap) (t : Int × Int × Int)
    (h : keysNodup matched) : keysNodup (reconcile_step req opt matched t).1 := by
  obtain ⟨s, d, line⟩ := t
  rcases h1 : alookup req (s, d) with _ | ls1
  · rcases h2 : alookup req (OFF_RAISED, d) with _ | ls2
    · have hstep : (reconcile_step req opt matched (s, d, line)).1 = matched := by
        rw [reconcile_step_eq, if_neg (by simp [h1]), h2]
        split
        all_goals first
          | (rename_i heq; exact Option.noConfusion heq)
          | (split <;> rfl)
      rw [hstep]; exact h
    · have hstep : (reconcile_step req opt matched (s, d, line)).1 =
          mapSetUpdate matched (OFF_RAISED, d) ls2 := by
        rw [reconcile_step_eq, if_neg (by simp [h1]), h2]
      rw [hstep]
      exact keysNodup_mapSetUpdate h _ _
  · have hstep : (reconcile_step req opt matched (s, d, line)).1 =
        mapSetAdd matched (s, d) line := by
      rw [reconcile_step_eq, if_pos (by simp [h1])]
    rw [hstep]
    exact keysNodup_mapSetAdd h _ _

theorem keysNodup_reconcile (req opt : EdgeMap) (traced : List (Int × Int × Int)) :
    keysNodup (reconcile req opt traced) := by
  unfold reconcile
  have : ∀ (l : List (Int × Int × Int)) (m : EdgeMap), keysNodup m →
      keysNodup (l.foldl (fun m t => (reconcile_step req opt m t).1) m) := by
    intro l
    induction l with
    | nil => intro m hm; exact hm
    | cons t rest ih =>
      intro m hm
      rw [List.foldl_cons]
      exact ih _ (keysNodup_reconcile_step req opt m t hm)
  exact this traced [] (by simp [keysNodup])

/-- The coverage-map invariant: per line, the matched set is contained in
the required set. -/
def CovInv (cov : Coverage) : Prop :=
  ∀ l x, x ∈ matchedAt cov l → x ∈ requiredAt cov l

theorem cover_one_code_inv (cov cov' : Coverage) (code : CodeUnit)
    (traced : List (Int × Int × Int))
    (h : cover_one_code cov code traced = .ok cov')
    (htr : ∀ t ∈ traced, ∀ req opt, crawl_code_insts code.insts = .ok (req, opt) →
      ∀ ls, alookup req (t.1, t.2.1) = some ls → t.2.2 ∈ ls)
    (hinv : CovInv cov) : CovInv cov' := by
  unfold cover_one_code at h
  rcases hc : crawl_code_insts code.insts with e | ro
  · rw [hc] at h
    simp only [Bind.bind, Except.bind] at h
    exact absurd h (by simp)
  · obtain ⟨req, opt⟩ := ro
    rw [hc] at h
    simp only [Bind.bind, Except.bind] at h
    rcases h1 : add_edges cov req code COV_REQ with e1 | cov1
    · rw [h1] at h
      exact absurd h (by simp)
    · rw [h1] at h
      obtain ⟨hm1, hr1, hin1⟩ := add_edges_req code req cov cov1 h1
      obtain ⟨hreq2, hmem2⟩ :=
        add_edges_matched code (reconcile req opt traced) cov1 cov' h
      intro l x hx
      rw [hreq2 l]
      rcases hmem2 l x hx with h2 | ⟨p, hp, h3, h4⟩
      · rw [hm1 l] at h2
        exact hr1 l x (hinv l x h2)
      · -- x is an edge added from the matched map at one of its lines.
        have hpl : alookup (reconcile req opt traced) p.1 = some p.2 :=
          alookup_of_mem_keysNodup (keysNodup_reconcile req opt traced) hp
        obtain ⟨ls', hls', hsub⟩ :=
          reconcile_sub req opt traced
            (fun t ht ls hl => htr t ht req opt hc ls hl) p.1 p.2 hpl
        have hmem : (p.1, ls') ∈ req := alookup_mem hls'
        have := hin1 (p.1, ls') hmem l (hsub l h4)
        rw [h3]
        exact this

theorem cover_fold_inv (ce : List (CodeUnit × List (Int × Int × Int))) :
    ∀ (codes : List CodeUnit) (cov cov' : Coverage),
      codes.foldlM
        (fun cov code => cover_one_code cov code ((alookup ce code).getD [])) cov =
        .ok cov' →
      (∀ p ∈ ce, ∀ t ∈ p.2, ∀ req opt, crawl_code_insts p.1.insts = .ok (req, opt) →
        ∀ ls, alookup req (t.1, t.2.1) = some ls → t.2.2 ∈ ls) →
      CovInv cov → CovInv cov' := by
  intro codes
  induction codes with
  | nil =>
    intro cov cov' h _ hinv
    simp only [List.foldlM_nil, pure, Except.pure] at h
    rw [← Except.ok.inj h]
    exact hinv
  | cons code rest ih =>
    intro cov cov' h htr hinv
    rw [List.foldlM_cons] at h
    rcases h1 : cover_one_code cov code ((alookup ce code).getD []) with e1 | cov1
    · rw [h1] at h
      simp only [Bind.bind, Except.bind] at h
      exact absurd h (by simp)
    · rw [h1] at h
      simp only [Bind.bind, Except.bind] at h
      refine ih cov1 cov' h htr ?_
      refine cover_one_code_inv cov cov1 code _ h1 ?_ hinv
      intro t ht req opt hok ls hls
      rcases hl : alookup ce code with _ | tr
      · rw [hl] at ht
        cases ht
      · rw [hl] at ht
        simp only [Option.getD_some] at ht
        exact htr (code, tr) (alookup_mem hl) t ht req opt hok ls hls

theorem report_line_covered_iff (required matched : List Edge3)
    (ign exp : List Int) (line : Int) :
    (report_line required matched ign exp line = .covered ∨
     report_line required matched ign exp line = .ignoredButCovered) ↔
    ∀ e ∈ required, e ∈ matched := by
  unfold report_line
  by_cases h : required.all (fun e => decide (e ∈ matched))
  · rw [if_pos h]
    simp only [List.all_eq_true, decide_eq_true_eq] at h
    constructor
    · intro _
      exact h
    · intro _
      by_cases h2 : line ∈ exp
      · simp [h2]
      · simp [h2]
  · rw [if_neg h]
    simp only [List.all_eq_true, decide_eq_true_eq] at h
    constructor
    · intro hc
      by_cases h2 : line ∉ ign
      · rw [if_pos h2] at hc
        rcases hc with hc | hc <;> cases hc
      · rw [if_neg h2] at hc
        rcases hc with hc | hc <;> cases hc
    · intro hm
      exact absurd hm h

/-- C2 (amended): when every traced edge of every code unit is observed on
one of the lines the analyzer attributed to its required edge, the
coverage map produced by `calculate_coverage` satisfies the per-line
invariant `matched ⊆ required`, and a line receives a covered verdict
(`covered` or `ignoredButCovered`) from `report_line` exactly when
`required ⊆ matched` on that line.  Without the hypothesis on observed
lines the invariant fails: a traced required edge is recorded on its
*observed* line, which need not be an attributed line. -/
theorem calculate_coverage_matched_subset_and_covered_iff
    (ce : List (CodeUnit × List (Int × Int × Int))) (cov : Coverage)
    (hok : calculate_coverage ce = .ok cov)
    (htr : ∀ p ∈ ce, ∀ t ∈ p.2, ∀ req opt,
      crawl_code_insts p.1.insts = .ok (req, opt) →
      ∀ ls, alookup req (t.1, t.2.1) = some ls → t.2.2 ∈ ls) :
    (∀ l x, x ∈ matchedAt cov l → x ∈ requiredAt cov l) ∧
    (∀ l ign exp,
      ((report_line (requiredAt cov l) (matchedAt cov l) ign exp l = .covered ∨
        report_line (requiredAt cov l) (matchedAt cov l) ign exp l =
          .ignoredButCovered) ↔
       ∀ e ∈ requiredAt cov l, e ∈ matchedAt cov l)) := by
  constructor
  · unfold calculate_coverage at hok
    have hnull : (fun c : CodeUnit =>
        (Except.ok (sub_codes c) : Except PyErr (List CodeUnit))) =
        fun _ => .ok [] := by
      funext c
      rfl
    rw [hnull] at hok
    have hlen : ((ce.map (·.1)).dedup).length ≤ ce.length + 1 := by
      calc ((ce.map (·.1)).dedup).length ≤ (ce.map (·.1)).length :=
            (List.dedup_sublist _).length_le
        _ = ce.length := List.length_map _ _
        _ ≤ ce.length + 1 := Nat.le_succ _
    have hvn := visit_nodes_nullvisitor ((ce.map (·.1)).dedup) [] (ce.length + 1)
      (List.nodup_dedup _) (fun x _ hx => absurd hx (List.not_mem_nil x)) hlen
    rw [hvn] at hok
    simp only [Bind.bind, Except.bind, List.nil_append] at hok
    exact cover_fold_inv ce ((ce.map (·.1)).dedup) [] cov hok htr
      (fun l x hx => absurd hx (by simp [matchedAt, alookup]))
  · intro l ign exp
    exact report_line_covered_iff (requiredAt cov l) (matchedAt cov l) ign exp l

/-- Witness for the amended C2 theorem: the fully traced `unitConstReturn`
report, whose two traced edges are both observed on attributed line 2. -/
theorem calculate_coverage_matched_subset_and_covered_iff_witness :
    (0, 2, unitConstReturn) ∈ requiredAt covConstReturnFull 2 ∧
    ((report_line (requiredAt covConstReturnFull 2)
        (matchedAt covConstReturnFull 2) [] [] 2 = .covered ∨
      report_line (requiredAt covConstReturnFull 2)
        (matchedAt covConstReturnFull 2) [] [] 2 = .ignoredButCovered) ↔
     ∀ e ∈ requiredAt covConstReturnFull 2, e ∈ matchedAt covConstReturnFull 2) := by
  have hcrawl : crawl_code_insts unitConstReturn.insts =
      .ok ([(((-1 : Int), (0 : Int)), [(2 : Int)]), ((0, 2), [2])], []) := by decide
  have h := calculate_coverage_matched_subset_and_covered_iff
    [(unitConstReturn, [(-1, 0, 2), (0, 2, 2)])] covConstReturnFull (by decide) ?htr
  · exact ⟨h.1 2 (0, 2, unitConstReturn) (by decide), h.2 2 [] []⟩
  case htr =>
    intro p hp t ht req opt hcr ls hls
    have hp1 : p = (unitConstReturn, [((-1 : Int), (0 : Int), (2 : Int)), (0, 2, 2)]) :=
      List.mem_singleton.mp hp
    subst hp1
    have hco : (req, opt) =
        (([(((-1 : Int), (0 : Int)), [(2 : Int)]), ((0, 2), [2])] : EdgeMap),
         ([] : EdgeMap)) :=
      Except.ok.inj (hcr.symm.trans hcrawl)
    have hreq : req = [(((-1 : Int), (0 : Int)), [(2 : Int)]), ((0, 2), [2])] :=
      congrArg Prod.fst hco
    subst hreq
    simp only [List.mem_cons, List.not_mem_nil, or_false] at ht
    rcases ht with rfl | rfl
    · have hls2 : some ls = some [(2 : Int)] := hls.symm.trans (by decide)
      rw [Option.some.inj hls2]
      exact List.mem_singleton.mpr rfl
    · have hls2 : some ls = some [(2 : Int)] := hls.symm.trans (by decide)
      rw [Option.some.inj hls2]
      exact List.mem_singleton.mpr rfl

theorem alookup_append {κ α : Type} [DecidableEq κ] (l1 l2 : List (κ × α)) (k : κ) :
    alookup (l1 ++ l2) k =
      match alookup l1 k with
      | some v => some v
      | none => alookup l2 k := by
  induction l1 with
  | nil => simp [alookup]
  | cons p rest ih =>
    rw [List.cons_append, alookup_cons, alookup_cons]
    by_cases h : p.1 = k
    · rw [if_pos h, if_pos h]
    · rw [if_neg h, if_neg h, ih]

theorem alookup_eq_none_of_not_mem_keys {κ α : Type} [DecidableEq κ]
    (m : List (κ × α)) (k : κ) (h : k ∉ m.map (·.1)) : alookup m k = none := by
  induction m with
  | nil => rfl
  | cons p rest ih =>
    rw [alookup_cons]
    rw [List.map_cons, List.mem_cons] at h
    push_neg at h
    rw [if_neg (fun he => h.1 he.symm), ih h.2]

theorem foldlM_congr_except {α β : Type} (f g : β → α → Except PyErr β)
    (l : List α) (h : ∀ a ∈ l, ∀ b, f b a = g b a) :
    ∀ b, l.foldlM f b = l.foldlM g b := by
  induction l with
  | nil => intro b; rfl
  | cons a rest ih =>
    intro b
    rw [List.foldlM_cons, List.foldlM_cons, h a (List.mem_cons_self a rest) b]
    rcases g b a with e | b2
    · rfl
    · simp only [Bind.bind, Except.bind]
      exact ih (fun a ha b => h a (List.mem_cons_of_mem _ ha) b) b2

/-- Restating `calculate_coverage` as a plain fold when the report's code
units are distinct: the worklist pass is the identity. -/
theorem calculate_coverage_as_fold (ce : List (CodeUnit × List (Int × Int × Int)))
    (hk : keysNodup ce) :
    calculate_coverage ce =
      (ce.map (·.1)).foldlM
        (fun cov code => cover_one_code cov code ((alookup ce code).getD [])) [] := by
  unfold calculate_coverage
  have hnull : (fun c : CodeUnit =>
      (Except.ok (sub_codes c) : Except PyErr (List CodeUnit))) =
      fun _ => .ok [] := by
    funext c
    rfl
  rw [hnull]
  have hd : (ce.map (·.1)).dedup = ce.map (·.1) := List.dedup_eq_self.mpr hk
  have hlen : ((ce.map (·.1)).dedup).length ≤ ce.length + 1 := by
    calc ((ce.map (·.1)).dedup).length ≤ (ce.map (·.1)).length :=
          (List.dedup_sublist _).length_le
      _ = ce.length := List.length_map _ _
      _ ≤ ce.length + 1 := Nat.le_succ _
  rw [visit_nodes_nullvisitor ((ce.map (·.1)).dedup) [] (ce.length + 1)
    (List.nodup_dedup _) (fun x _ hx => absurd hx (List.not_mem_nil x)) hlen]
  simp only [Bind.bind, Except.bind, List.nil_append, hd]

/-- C7 (amended): the code does not recover from per-unit analysis errors.
If the report lists distinct code units, the prefix before a failing unit
analyzes cleanly, and `cover_one_code` raises on that unit, then the whole
`calculate_coverage` call returns that error: the healthy units' coverage
is lost, not isolated. -/
theorem calculate_coverage_error_propagates
    (pre post : List (CodeUnit × List (Int × Int × Int))) (bad : CodeUnit)
    (tr : List (Int × Int × Int)) (cov0 : Coverage) (e : PyErr)
    (hk : keysNodup (pre ++ (bad, tr) :: post))
    (hpre : calculate_coverage pre = .ok cov0)
    (hbad : cover_one_code cov0 bad tr = .error e) :
    calculate_coverage (pre ++ (bad, tr) :: post) = .error e := by
  have hkpre : keysNodup pre := by
    unfold keysNodup at hk ⊢
    rw [List.map_append, List.nodup_append] at hk
    exact hk.1
  have hbadnot : bad ∉ pre.map (·.1) := by
    unfold keysNodup at hk
    rw [List.map_append, List.nodup_append] at hk
    intro hmem
    exact hk.2.2 hmem (by simp)
  rw [calculate_coverage_as_fold _ hk, List.map_append, List.foldlM_append]
  have hfirst : (pre.map (·.1)).foldlM
      (fun cov code =>
        cover_one_code cov code ((alookup (pre ++ (bad, tr) :: post) code).getD []))
      [] = .ok cov0 := by
    rw [foldlM_congr_except _
      (fun cov code => cover_one_code cov code ((alookup pre code).getD [])) _ ?hc []]
    · rw [calculate_coverage_as_fold pre hkpre] at hpre
      exact hpre
    case hc =>
      intro code hcode b
      obtain ⟨p, hp, hp1⟩ := List.mem_map.mp hcode
      have hlp : alookup pre code = some p.2 := by
        rw [← hp1]
        exact alookup_of_mem_keysNodup hkpre hp
      rw [alookup_append, hlp]
      simp only [hlp]
  rw [hfirst]
  simp only [Bind.bind, Except.bind, List.map_cons, List.foldlM_cons]
  have hlbad : alookup (pre ++ (bad, tr) :: post) bad = some tr := by
    rw [alookup_append, alookup_eq_none_of_not_mem_keys pre bad hbadnot, alookup_cons,
      if_pos rfl]
  rw [hlbad]
  simp only [Option.getD_some, hbad]

/-- Witness for the amended C7 theorem: the healthy `unitConstReturn`
followed by the erroring `unitBreakNoLoop` loses the whole report. -/
theorem calculate_coverage_error_propagates_witness :
    calculate_coverage
      [(unitConstReturn, [(-1, 0, 2), (0, 2, 2)]), (unitBreakNoLoop, [])] =
      .error .keyError :=
  calculate_coverage_error_propagates
    [(unitConstReturn, [(-1, 0, 2), (0, 2, 2)])] [] unitBreakNoLoop []
    covConstReturnFull .keyError (by unfold keysNodup; decide) (by decide) (by decide)

/-! ## The END_FINALLY fall-through downgrade of `emit_edges` (C4) -/

/-- The `(prev, inst)` pairs of the steps of an arc walk entered at
`prev`: the pairs of `zip((src,) + arc, arc)`. -/
def stepPairs : Inst → List Inst → List (Inst × Inst)
  | _, [] => []
  | prev, inst :: rest => (prev, inst) :: stepPairs inst rest

/-- A step is an END_FINALLY fall-through: its source opcode is
`END_FINALLY` and its destination is the textual next instruction. -/
def ef_fall (nexts : List (Int × Int)) (p : Inst × Inst) : Bool :=
  decide (p.1.opcode = END_FINALLY) &&
    (match assocGet nexts p.1.off with
     | some nxt => decide (nxt = p.2.off)
     | none => false)

/-- The optional flags `emit_steps` attaches to the steps of an arc (when
the entering triple is not optional): the flag turns true at an
END_FINALLY fall-through and stays true for the rest of the arc. -/
def ef_flags (nexts : List (Int × Int)) : Inst → Bool → List Inst → List Bool
  | _, _, [] => []
  | prev, acc, inst :: rest =>
    (acc || ef_fall nexts (prev, inst)) ::
      ef_flags nexts inst (acc || ef_fall nexts (prev, inst)) rest

theorem ef_flags_length (nexts : List (Int × Int)) :
    ∀ (arc : List Inst) (prev : Inst) (acc : Bool),
      (ef_flags nexts prev acc arc).length = arc.length := by
  intro arc
  induction arc with
  | nil => intro prev acc; rfl
  | cons inst rest ih =>
    intro prev acc
    show (ef_flags nexts inst _ rest).length + 1 = rest.length + 1
    rw [ih]

theorem stepPairs_length :
    ∀ (arc : List Inst) (prev : Inst), (stepPairs prev arc).length = arc.length := by
  intro arc
  induction arc with
  | nil => intro prev; rfl
  | cons inst rest ih =>
    intro prev
    show (stepPairs inst rest).length + 1 = rest.length + 1
    rw [ih]

theorem ef_flags_get (nexts : List (Int × Int)) :
    ∀ (arc : List Inst) (prev : Inst) (acc : Bool) (i : Nat)
      (hi : i < (ef_flags nexts prev acc arc).length),
      ((ef_flags nexts prev acc arc).get ⟨i, hi⟩ = true ↔
        (acc = true ∨ ∃ j, j ≤ i ∧ ∃ hj : j < (stepPairs prev arc).length,
          ef_fall nexts ((stepPairs prev arc).get ⟨j, hj⟩) = true)) := by
  intro arc
  induction arc with
  | nil =>
    intro prev acc i hi
    exact absurd hi (by simp [ef_flags])
  | cons inst rest ih =>
    intro prev acc i hi
    match i with
    | 0 =>
      show (acc || ef_fall nexts (prev, inst)) = true ↔ _
      rw [Bool.or_eq_true]
      constructor
      · rintro (h | h)
        · exact Or.inl h
        · exact Or.inr ⟨0, Nat.le_refl 0, Nat.succ_pos _, h⟩
      · rintro (h | ⟨j, hj0, hjlt, hef⟩)
        · exact Or.inl h
        · match j with
          | 0 => exact Or.inr hef
    | i + 1 =>
      show (ef_flags nexts inst (acc || ef_fall nexts (prev, inst)) rest).get ⟨i, _⟩ =
        true ↔ _
      rw [ih inst (acc || ef_fall nexts (prev, inst)) i _]
      rw [Bool.or_eq_true]
      constructor
      · rintro ((h | h) | ⟨j, hle, hjlt, hef⟩)
        · exact Or.inl h
        · exact Or.inr ⟨0, Nat.zero_le _, Nat.succ_pos _, h⟩
        · exact Or.inr ⟨j + 1, Nat.succ_le_succ hle, Nat.succ_lt_succ hjlt, hef⟩
      · rintro (h | ⟨j, hle, hjlt, hef⟩)
        · exact Or.inl (Or.inl h)
        · match j with
          | 0 => exact Or.inl (Or.inr hef)
          | j + 1 =>
            exact Or.inr ⟨j, Nat.le_of_succ_le_succ hle,
              Nat.lt_of_succ_lt_succ hjlt, hef⟩

theorem emit_steps_flags_eq (nexts : List (Int × Int)) (srcInst : Inst) :
    ∀ (arc : List Inst) (prev : Inst) (prevLine : Int) (isOpt : Bool)
      (records : List ((Int × Int) × Int × Bool)) (yld : Int × Int × Bool),
      emit_steps nexts srcInst prev prevLine isOpt false arc = .ok (records, yld) →
      records.map (·.2.2) = ef_flags nexts prev isOpt arc := by
  intro arc
  induction arc with
  | nil =>
    intro prev prevLine isOpt records yld h
    simp only [emit_steps] at h
    injection h with h1
    rw [Prod.mk.injEq] at h1
    rw [← h1.1]
    rfl
  | cons inst rest ih =>
    intro prev prevLine isOpt records yld h
    simp only [emit_steps] at h
    by_cases hline : next_line prev inst prevLine ≤ 0
    · rw [if_pos hline] at h
      exact absurd h (by simp)
    · rw [if_neg hline] at h
      cases isOpt with
      | true =>
        rw [if_pos rfl] at h
        simp only [Bind.bind, Except.bind, pure, Except.pure] at h
        rcases ht : emit_steps nexts srcInst inst (next_line prev inst prevLine)
            true false rest with e | tail
        · rw [ht] at h
          exact absurd h (by simp)
        · rw [ht] at h
          injection h with h1
          rw [Prod.mk.injEq] at h1
          rw [← h1.1]
          simp only [List.map_cons]
          rw [ih inst (next_line prev inst prevLine) true tail.1 tail.2 ht]
          show (true || (false && decide (srcInst = prev))) :: _ =
            (true || ef_fall nexts (prev, inst)) ::
              ef_flags nexts inst (true || ef_fall nexts (prev, inst)) rest
          simp only [Bool.true_or, Bool.false_and, Bool.or_false]
      | false =>
        rw [if_neg Bool.false_ne_true] at h
        by_cases hef : prev.opcode = END_FINALLY
        · rw [if_pos hef] at h
          rcases hN : assocIndex nexts prev.off with eN | nxtOff
          · rw [hN] at h
            simp only [Bind.bind, Except.bind, pure, Except.pure] at h
            exact absurd h (by simp)
          · rw [hN] at h
            simp only [Bind.bind, Except.bind, pure, Except.pure] at h
            rcases ht : emit_steps nexts srcInst inst (next_line prev inst prevLine)
                (decide (nxtOff = inst.off)) false rest with e | tail
            · rw [ht] at h
              exact absurd h (by simp)
            · rw [ht] at h
              injection h with h1
              rw [Prod.mk.injEq] at h1
              rw [← h1.1]
              simp only [List.map_cons]
              rw [ih inst (next_line prev inst prevLine) (decide (nxtOff = inst.off))
                tail.1 tail.2 ht]
              have hG : assocGet nexts prev.off = some nxtOff := by
                unfold assocIndex at hN
                rcases hG2 : assocGet nexts prev.off with _ | v
                · rw [hG2] at hN
                  exact absurd hN (by simp)
                · rw [hG2] at hN
                  rw [Except.ok.inj hN]
              have hf : ef_fall nexts (prev, inst) = decide (nxtOff = inst.off) := by
                simp [ef_fall, hef, hG]
              show (decide (nxtOff = inst.off) || (false && decide (srcInst = prev))) ::
                  _ =
                (false || ef_fall nexts (prev, inst)) ::
                  ef_flags nexts inst (false || ef_fall nexts (prev, inst)) rest
              rw [hf]
              simp only [Bool.false_and, Bool.or_false, Bool.false_or]
        · rw [if_neg hef] at h
          simp only [Bind.bind, Except.bind, pure, Except.pure] at h
          rcases ht : emit_steps nexts srcInst inst (next_line prev inst prevLine)
              false false rest with e | tail
          · rw [ht] at h
            exact absurd h (by simp)
          · rw [ht] at h
            injection h with h1
            rw [Prod.mk.injEq] at h1
            rw [← h1.1]
            simp only [List.map_cons]
            rw [ih inst (next_line prev inst prevLine) false tail.1 tail.2 ht]
            have hf : ef_fall nexts (prev, inst) = false := by
              simp [ef_fall, hef]
            show (false || (false && decide (srcInst = prev))) :: _ =
              (false || ef_fall nexts (prev, inst)) ::
                ef_flags nexts inst (false || ef_fall nexts (prev, inst)) rest
            rw [hf]
            simp only [Bool.false_and, Bool.or_false, Bool.false_or]

/-- C4 (amended): for an arc whose entering triple is not optional and
whose entry classification is not optional, an interior step is emitted
optional iff some step at the same or an earlier position of the arc walk
is an END_FINALLY fall-through (`END_FINALLY` source stepping to the
textual next instruction).  The downgrade therefore persists past the
END_FINALLY step itself, contrary to the iff claimed of the single step. -/
theorem emit_steps_opt_iff_end_finally_reached
    (nexts : List (Int × Int)) (srcInst prev : Inst) (prevLine : Int)
    (arc : List Inst) (records : List ((Int × Int) × Int × Bool))
    (yld : Int × Int × Bool)
    (h : emit_steps nexts srcInst prev prevLine false false arc = .ok (records, yld)) :
    records.length = arc.length ∧
    ∀ i (hi : i < records.length),
      ((records.get ⟨i, hi⟩).2.2 = true ↔
        ∃ j, j ≤ i ∧ ∃ hj : j < (stepPairs prev arc).length,
          ef_fall nexts ((stepPairs prev arc).get ⟨j, hj⟩) = true) := by
  have hm := emit_steps_flags_eq nexts srcInst arc prev prevLine false records yld h
  have hlen : records.length = arc.length := by
    have h2 := congrArg List.length hm
    rw [List.length_map] at h2
    rw [h2, ef_flags_length]
  refine ⟨hlen, ?_⟩
  intro i hi
  have hi2 : i < (ef_flags nexts prev false arc).length := by
    rw [ef_flags_length]
    rw [hlen] at hi
    exact hi
  have hget : (ef_flags nexts prev false arc).get ⟨i, hi2⟩ =
      (records.get ⟨i, hi⟩).2.2 := by
    have h3 := List.get?_eq_get hi
    have h4 := List.get?_eq_get hi2
    have hm2 : (ef_flags nexts prev false arc).get? i =
        (records.get? i).map (·.2.2) := by
      rw [← hm]
      exact List.get?_map _ _ _
    rw [h3, h4] at hm2
    simp only [Option.map_some'] at hm2
    exact Option.some.inj hm2
  rw [← hget, ef_flags_get nexts arc prev false i hi2]
  constructor
  · rintro (h0 | h0)
    · exact absurd h0 (by simp)
    · exact h0
  · exact Or.inr

/-- An `END_FINALLY` instruction at offset 0, line 1, for exercising the
fall-through downgrade. -/
def efEF : Inst :=
  { opcode := END_FINALLY, argval := .vnone, argrepr := "", off := 0, line := 1,
    is_line_start := true, stack := [], is_SF_exc_opt := false,
    is_call_exit := false, is_exc_match := false, is_exc_match_jmp_src := false,
    is_exc_match_jmp_dst := false }

/-- A `POP_TOP` at offset 2, line 1. -/
def efNext1 : Inst :=
  { opcode := POP_TOP, argval := .vnone, argrepr := "", off := 2, line := 1,
    is_line_start := true, stack := [], is_SF_exc_opt := false,
    is_call_exit := false, is_exc_match := false, is_exc_match_jmp_src := false,
    is_exc_match_jmp_dst := false }

/-- A `POP_TOP` at offset 4, line 1. -/
def efNext2 : Inst :=
  { opcode := POP_TOP, argval := .vnone, argrepr := "", off := 4, line := 1,
    is_line_start := true, stack := [], is_SF_exc_opt := false,
    is_call_exit := false, is_exc_match := false, is_exc_match_jmp_src := false,
    is_exc_match_jmp_dst := false }

/-- The arc walked from `efEF`. -/
def efArc : List Inst := [efNext1, efNext2]

/-- The textual-next map of the three-instruction program. -/
def efNexts : List (Int × Int) := [(0, 2), (2, 4)]

/-- Witness for the amended C4 theorem: walking the arc from the
`END_FINALLY` emits both steps, and the first step's optional flag is
explained by the fall-through at position 0. -/
theorem emit_steps_opt_iff_end_finally_reached_witness :
    ([((0, 2), (1 : Int), true), ((2, 4), (1 : Int), true)] :
      List ((Int × Int) × Int × Bool)).length = efArc.length ∧
    (([((0, 2), (1 : Int), true), ((2, 4), (1 : Int), true)] :
      List ((Int × Int) × Int × Bool)).get ⟨1, by decide⟩).2.2 = true := by
  have h := emit_steps_opt_iff_end_finally_reached efNexts efEF efEF 1 efArc
    [((0, 2), 1, true), ((2, 4), 1, true)] (4, 1, true) (by decide)
  refine ⟨h.1, ?_⟩
  rw [h.2 1 (by decide)]
  exact ⟨0, Nat.zero_le 1, by decide, by decide⟩

/-! ## Positivity of emitted lines (C8) -/

/-- Every line set of an edge map holds only positive lines. -/
def AllPos (m : EdgeMap) : Prop := ∀ p ∈ m, ∀ l ∈ p.2, 0 < l

theorem mapSetAdd_allP {κ : Type} [DecidableEq κ] {α : Type} [DecidableEq α]
    (P : α → Prop) :
    ∀ (m : List (κ × List α)) (k : κ) (x : α),
      (∀ p ∈ m, ∀ l ∈ p.2, P l) → P x →
      ∀ p ∈ mapSetAdd m k x, ∀ l ∈ p.2, P l := by
  intro m
  induction m with
  | nil =>
    intro k x _ hx p hp l hl
    rw [List.mem_singleton.mp hp] at hl
    rw [List.mem_singleton.mp hl]
    exact hx
  | cons q rest ih =>
    intro k x hm hx p hp l hl
    rw [mapSetAdd] at hp
    by_cases hk : q.1 = k
    · rw [if_pos hk] at hp
      rcases List.mem_cons.mp hp with rfl | hp2
      · rcases mem_setAdd.mp hl with h2 | h2
        · exact hm q (List.mem_cons_self q rest) l h2
        · rw [h2]
          exact hx
      · exact hm p (List.mem_cons_of_mem q hp2) l hl
    · rw [if_neg hk] at hp
      rcases List.mem_cons.mp hp with rfl | hp2
      · exact hm q (List.mem_cons_self q rest) l hl
      · exact ih k x (fun p2 h2 => hm p2 (List.mem_cons_of_mem q h2)) hx p hp2 l hl

theorem mapSetUpdate_allP {κ : Type} [DecidableEq κ] {α : Type} [DecidableEq α]
    (P : α → Prop) :
    ∀ (m : List (κ × List α)) (k : κ) (xs : List α),
      (∀ p ∈ m, ∀ l ∈ p.2, P l) → (∀ l ∈ xs, P l) →
      ∀ p ∈ mapSetUpdate m k xs, ∀ l ∈ p.2, P l := by
  intro m
  induction m with
  | nil =>
    intro k xs _ hxs p hp l hl
    rw [List.mem_singleton.mp hp] at hl
    rcases mem_setUpdate.mp hl with h2 | h2
    · exact absurd h2 (List.not_mem_nil l)
    · exact hxs l h2
  | cons q rest ih =>
    intro k xs hm hxs p hp l hl
    rw [mapSetUpdate] at hp
    by_cases hk : q.1 = k
    · rw [if_pos hk] at hp
      rcases List.mem_cons.mp hp with rfl | hp2
      · rcases mem_setUpdate.mp hl with h2 | h2
        · exact hm q (List.mem_cons_self q rest) l h2
        · exact hxs l h2
      · exact hm p (List.mem_cons_of_mem q hp2) l hl
    · rw [if_neg hk] at hp
      rcases List.mem_cons.mp hp with rfl | hp2
      · exact hm q (List.mem_cons_self q rest) l hl
      · exact ih k xs (fun p2 h2 => hm p2 (List.mem_cons_of_mem q h2)) hxs p hp2 l hl

theorem emit_steps_lines_pos (nexts : List (Int × Int)) (srcInst : Inst) :
    ∀ (arc : List Inst) (prev : Inst) (prevLine : Int) (isOpt isSrcOpt : Bool)
      (records : List ((Int × Int) × Int × Bool)) (yld : Int × Int × Bool),
      emit_steps nexts srcInst prev prevLine isOpt isSrcOpt arc = .ok (records, yld) →
      ∀ r ∈ records, 0 < r.2.1 := by
  intro arc
  induction arc with
  | nil =>
    intro prev prevLine isOpt isSrcOpt records yld h
    simp only [emit_steps] at h
    injection h with h1
    rw [Prod.mk.injEq] at h1
    rw [← h1.1]
    intro r hr
    exact absurd hr (List.not_mem_nil r)
  | cons inst rest ih =>
    intro prev prevLine isOpt isSrcOpt records yld h
    simp only [emit_steps] at h
    by_cases hline : next_line prev inst prevLine ≤ 0
    · rw [if_pos hline] at h
      exact absurd h (by simp)
    · rw [if_neg hline] at h
      cases isOpt with
      | true =>
        rw [if_pos rfl] at h
        simp only [Bind.bind, Except.bind, pure, Except.pure] at h
        rcases ht : emit_steps nexts srcInst inst (next_line prev inst prevLine)
            true isSrcOpt rest with e | tail
        · rw [ht] at h
          exact absurd h (by simp)
        · rw [ht] at h
          injection h with h1
          rw [Prod.mk.injEq] at h1
          rw [← h1.1]
          intro r hr
          rcases List.mem_cons.mp hr with rfl | hr2
          · exact not_le.mp hline
          · exact ih inst (next_line prev inst prevLine) true isSrcOpt
              tail.1 tail.2 ht r hr2
      | false =>
        rw [if_neg Bool.false_ne_true] at h
        by_cases hef : prev.opcode = END_FINALLY
        · rw [if_pos hef] at h
          rcases hN : assocIndex nexts prev.off with eN | nxtOff
          · rw [hN] at h
            simp only [Bind.bind, Except.bind, pure, Except.pure] at h
            exact absurd h (by simp)
          · rw [hN] at h
            simp only [Bind.bind, Except.bind, pure, Except.pure] at h
            rcases ht : emit_steps nexts srcInst inst (next_line prev inst prevLine)
                (decide (nxtOff = inst.off)) isSrcOpt rest with e | tail
            · rw [ht] at h
              exact absurd h (by simp)
            · rw [ht] at h
              injection h with h1
              rw [Prod.mk.injEq] at h1
              rw [← h1.1]
              intro r hr
              rcases List.mem_cons.mp hr with rfl | hr2
              · exact not_le.mp hline
              · exact ih inst (next_line prev inst prevLine)
                  (decide (nxtOff = inst.off)) isSrcOpt tail.1 tail.2 ht r hr2
        · rw [if_neg hef] at h
          simp only [Bind.bind, Except.bind, pure, Except.pure] at h
          rcases ht : emit_steps nexts srcInst inst (next_line prev inst prevLine)
              false isSrcOpt rest with e | tail
          · rw [ht] at h
            exact absurd h (by simp)
          · rw [ht] at h
            injection h with h1
            rw [Prod.mk.injEq] at h1
            rw [← h1.1]
            intro r hr
            rcases List.mem_cons.mp hr with rfl | hr2
            · exact not_le.mp hline
            · exact ih inst (next_line prev inst prevLine) false isSrcOpt
                tail.1 tail.2 ht r hr2

theorem foldlM_fst_pres {α β γ : Type} (P : γ → Prop)
    (f : (List γ × β) → α → Except PyErr (List γ × β))
    (hf : ∀ acc a res, f acc a = .ok res → (∀ r ∈ acc.1, P r) → ∀ r ∈ res.1, P r) :
    ∀ (l : List α) (acc res : List γ × β), l.foldlM f acc = .ok res →
      (∀ r ∈ acc.1, P r) → ∀ r ∈ res.1, P r := by
  intro l
  induction l with
  | nil =>
    intro acc res h hacc
    simp only [List.foldlM_nil, pure, Except.pure] at h
    rw [← Except.ok.inj h]
    exact hacc
  | cons a rest ih =>
    intro acc res h hacc
    rw [List.foldlM_cons] at h
    rcases hfa : f acc a with e | acc2
    · rw [hfa] at h
      simp only [Bind.bind, Except.bind] at h
      exact absurd h (by simp)
    · rw [hfa] at h
      simp only [Bind.bind, Except.bind] at h
      exact ih acc2 res h (hf acc a acc2 hfa hacc)

theorem foldlM_list_pres {α γ : Type} (P : γ → Prop)
    (f : List γ → α → Except PyErr (List γ))
    (hf : ∀ acc a res, f acc a = .ok res → (∀ r ∈ acc, P r) → ∀ r ∈ res, P r) :
    ∀ (l : List α) (acc res : List γ), l.foldlM f acc = .ok res →
      (∀ r ∈ acc, P r) → ∀ r ∈ res, P r := by
  intro l
  induction l with
  | nil =>
    intro acc res h hacc
    simp only [List.foldlM_nil, pure, Except.pure] at h
    rw [← Except.ok.inj h]
    exact hacc
  | cons a rest ih =>
    intro acc res h hacc
    rw [List.foldlM_cons] at h
    rcases hfa : f acc a with e | acc2
    · rw [hfa] at h
      simp only [Bind.bind, Except.bind] at h
      exact absurd h (by simp)
    · rw [hfa] at h
      simp only [Bind.bind, Except.bind] at h
      exact ih acc2 res h (hf acc a acc2 hfa hacc)

theorem emit_from_triple_lines_pos (insts : List (Int × Inst))
    (nexts : List (Int × Int)) (dsts srcs arcs : List (Int × List Int))
    (t : Int × Int × Bool)
    (recs : List ((Int × Int) × Int × Bool)) (ylds : List (Int × Int × Bool))
    (h : emit_from_triple insts nexts dsts srcs arcs t = .ok (recs, ylds)) :
    ∀ r ∈ recs, 0 < r.2.1 := by
  obtain ⟨srcOff, srcLine, isSrcOpt⟩ := t
  unfold emit_from_triple at h
  simp only [Bind.bind, Except.bind] at h
  split at h
  · exact absurd h (by simp)
  · rename_i srcInst hsi
    refine foldlM_fst_pres (fun r => 0 < r.2.1) _ ?hf _ ([], []) (recs, ylds) h ?ha
    case ha =>
      intro r hr
      exact absurd hr (List.not_mem_nil r)
    case hf =>
      intro acc start res hfr hacc
      split at hfr
      · exact absurd hfr (by simp)
      · rename_i arcOffs hao
        split at hfr
        · exact absurd hfr (by simp)
        · rename_i arc ham
          split at hfr
          · exact absurd hfr (by simp)
          · rename_i ey hes
            simp only [pure, Except.pure] at hfr
            rw [← Except.ok.inj hfr]
            intro r hr
            rcases List.mem_append.mp hr with h2 | h2
            · exact hacc r h2
            · exact emit_steps_lines_pos nexts srcInst arc srcInst srcLine
                (is_arc_opt srcInst arc srcs) isSrcOpt ey.1 ey.2 hes r h2

theorem routeEdges_fold_allPos :
    ∀ (records : List ((Int × Int) × Int × Bool)) (m : ReqOpt),
      AllPos m.1 → AllPos m.2 → (∀ r ∈ records, 0 < r.2.1) →
      AllPos ((records.foldl
        (fun m e =>
          if e.2.2 then (m.1, mapSetAdd m.2 e.1 e.2.1)
          else (mapSetAdd m.1 e.1 e.2.1, m.2)) m)).1 ∧
      AllPos ((records.foldl
        (fun m e =>
          if e.2.2 then (m.1, mapSetAdd m.2 e.1 e.2.1)
          else (mapSetAdd m.1 e.1 e.2.1, m.2)) m)).2 := by
  intro records
  induction records with
  | nil =>
    intro m h1 h2 _
    exact ⟨h1, h2⟩
  | cons r rest ih =>
    intro m h1 h2 hrec
    rw [List.foldl_cons]
    by_cases hflag : r.2.2
    · rw [if_pos hflag]
      exact ih (m.1, mapSetAdd m.2 r.1 r.2.1) h1
        (mapSetAdd_allP _ m.2 r.1 r.2.1 h2 (hrec r (List.mem_cons_self r rest)))
        (fun x hx => hrec x (List.mem_cons_of_mem r hx))
    · rw [if_neg hflag]
      exact ih (mapSetAdd m.1 r.1 r.2.1, m.2)
        (mapSetAdd_allP _ m.1 r.1 r.2.1 h1 (hrec r (List.mem_cons_self r rest)))
        h2 (fun x hx => hrec x (List.mem_cons_of_mem r hx))

/-- Whenever `crawl_code_insts` succeeds, every line either returned map
attributes is positive: the per-step assertion of `emit_edges` guards
every emitted record. -/
theorem crawl_ok_allPos (raws : List RawInst) (req opt : EdgeMap)
    (hok : crawl_code_insts raws = .ok (req, opt)) : AllPos req ∧ AllPos opt := by
  unfold crawl_code_insts at hok
  simp only [Bind.bind, Except.bind] at hok
  split at hok
  · exact absurd hok (by simp)
  · rename_i scan hscan
    split at hok
    · exact absurd hok (by simp)
    · rename_i st2 hst2
      split at hok
      · exact absurd hok (by simp)
      · rename_i arcs harcs
        split at hok
        · exact absurd hok (by simp)
        · rename_i visited hvis
          split at hok
          · exact absurd hok (by simp)
          · rename_i records hrec
            simp only [pure, Except.pure] at hok
            have hro := Except.ok.inj hok
            have hrpos : ∀ r ∈ records, 0 < r.2.1 := by
              refine foldlM_list_pres (fun r => 0 < r.2.1) _ ?hf visited []
                records hrec ?ha
              case ha =>
                intro r hr
                exact absurd hr (List.not_mem_nil r)
              case hf =>
                intro acc t res hfr hacc
                rcases het : emit_from_triple st2.insts scan.nexts st2.dsts
                    (buildSrcs st2.dsts) arcs t with e | pr
                · rw [het] at hfr
                  simp only [Except.map] at hfr
                  exact absurd hfr (by simp)
                · rw [het] at hfr
                  simp only [Except.map] at hfr
                  rw [← Except.ok.inj hfr]
                  intro r hr
                  rcases List.mem_append.mp hr with h2 | h2
                  · exact hacc r h2
                  · exact emit_from_triple_lines_pos st2.insts scan.nexts st2.dsts
                      (buildSrcs st2.dsts) arcs t pr.1 pr.2 het r h2
            have h1 := routeEdges_fold_allPos records ([], [])
              (fun p hp => absurd hp (List.not_mem_nil p))
              (fun p hp => absurd hp (List.not_mem_nil p)) hrpos
            have hreq : (routeEdges records).1 = req := congrArg Prod.fst hro
            have hopt : (routeEdges records).2 = opt := congrArg Prod.snd hro
            rw [← hreq, ← hopt]
            unfold routeEdges
            exact h1

theorem add_lines_ok (e : Int × Int) (code : CodeUnit) (idx : Nat) :
    ∀ (ls : List Int) (cov : Coverage), (∀ l ∈ ls, 0 < l) →
      ∃ cov2, ls.foldlM
        (fun cov line =>
          if line > 0 then pure (covAdd cov line idx (e.1, e.2, code))
          else (Except.error PyErr.assertLine : Except PyErr Coverage)) cov =
        .ok cov2 := by
  intro ls
  induction ls with
  | nil =>
    intro cov _
    exact ⟨cov, rfl⟩
  | cons l rest ih =>
    intro cov hls
    rw [List.foldlM_cons, if_pos (hls l (List.mem_cons_self l rest))]
    obtain ⟨cov2, h2⟩ := ih (covAdd cov l idx (e.1, e.2, code))
      (fun x hx => hls x (List.mem_cons_of_mem l hx))
    refine ⟨cov2, ?_⟩
    simp only [Bind.bind, Except.bind, pure, Except.pure]
    exact h2

theorem add_edges_ok (code : CodeUnit) (idx : Nat) :
    ∀ (m : EdgeMap), AllPos m →
      ∀ cov, ∃ cov2, add_edges cov m code idx = .ok cov2 := by
  intro m
  induction m with
  | nil =>
    intro _ cov
    exact ⟨cov, rfl⟩
  | cons p rest ih =>
    intro hm cov
    unfold add_edges
    rw [List.foldlM_cons]
    obtain ⟨cov1, h1⟩ := add_lines_ok p.1 code idx p.2 cov
      (hm p (List.mem_cons_self p rest))
    rw [h1]
    simp only [Bind.bind, Except.bind]
    exact ih (fun q hq => hm q (List.mem_cons_of_mem p hq)) cov1

theorem reconcile_step_allPos (req opt matched : EdgeMap) (t : Int × Int × Int)
    (hreq : AllPos req) (hm : AllPos matched) (ht : 0 < t.2.2) :
    AllPos (reconcile_step req opt matched t).1 := by
  unfold reconcile_step
  by_cases h1 : (alookup req (t.1, t.2.1)).isSome
  · rw [if_pos h1]
    exact mapSetAdd_allP _ matched (t.1, t.2.1) t.2.2 hm ht
  · rw [if_neg h1]
    rw [alookup_raise_reqs]
    rcases hl : alookup req (OFF_RAISED, t.2.1) with _ | ls
    · simp only [Option.map_none']
      split
      · exact hm
      · exact hm
    · simp only [Option.map_some']
      exact mapSetUpdate_allP _ matched (OFF_RAISED, t.2.1) ls hm
        (hreq ((OFF_RAISED, t.2.1), ls) (alookup_mem hl))

theorem reconcile_allPos (req opt : EdgeMap) (traced : List (Int × Int × Int))
    (hreq : AllPos req) (htr : ∀ t ∈ traced, 0 < t.2.2) :
    AllPos (reconcile req opt traced) := by
  unfold reconcile
  have h : ∀ (ts : List (Int × Int × Int)) (matched : EdgeMap),
      AllPos matched → (∀ t ∈ ts, 0 < t.2.2) →
      AllPos (ts.foldl (fun m t => (reconcile_step req opt m t).1) matched) := by
    intro ts
    induction ts with
    | nil =>
      intro matched hm _
      exact hm
    | cons t rest ih =>
      intro matched hm hts
      rw [List.foldl_cons]
      exact ih (reconcile_step req opt matched t).1
        (reconcile_step_allPos req opt matched t hreq hm
          (hts t (List.mem_cons_self t rest)))
        (fun x hx => hts x (List.mem_cons_of_mem t hx))
  exact h traced [] (fun p hp => absurd hp (List.not_mem_nil p)) htr

/-! ## Well-formed raw instruction streams and the emit-side assertion -/

/-- A well-formed raw instruction as produced by `dis.get_instructions`:
non-negative offset, non-negative integer argvals, positive starts-lines. -/
def rawOK (r : RawInst) : Prop :=
  0 ≤ r.offset ∧ (∀ n, r.argval = .vint n → 0 ≤ n) ∧
  (∀ n, r.starts_line = some n → 0 < n)

/-- The value-side well-formedness of an enhanced instruction: non-negative
integer argvals, non-negative block handler offsets, and a non-negative
offset unless the instruction is one of the two pseudo-instructions. -/
def InstOK (i : Inst) : Prop :=
  (∀ n, i.argval = .vint n → 0 ≤ n) ∧ (∀ b ∈ i.stack, 0 ≤ b.2) ∧
  (i.opcode ≠ OP_BEGIN → i.opcode ≠ OP_RAISED → 0 ≤ i.off)

/-- Well-formedness of one entry of the instruction map: the offset is the
key, the line is positive at non-negative keys, and the value conditions. -/
def InstWF (k : Int) (i : Inst) : Prop :=
  i.off = k ∧ (0 ≤ k → 0 < i.line) ∧ InstOK i

/-- Every entry of the instruction map is well-formed. -/
def InstsWF (insts : List (Int × Inst)) : Prop := ∀ p ∈ insts, InstWF p.1 p.2

/-- Every destination offset of a `dsts`/`arcs`-style map is non-negative. -/
def NNVals (m : List (Int × List Int)) : Prop := ∀ p ∈ m, ∀ d ∈ p.2, 0 ≤ d

/-- The invariant of the step-1 scan state: a well-formed instruction map,
non-negative successor offsets and block handler offsets, and a line carry
that is ready — the previous recorded line is positive, or a pending
`EXTENDED_ARG` carries a positive starts-line. -/
structure ScanWF (st : ScanState) : Prop where
  instsWF : InstsWF st.insts
  nextsWF : ∀ p ∈ st.nexts, 0 ≤ p.2
  blocksWF : ∀ b ∈ st.blocks, 0 ≤ b.2
  prevReady : 0 < st.prev.line ∨
    ∃ e n, st.ext = some e ∧ e.starts_line = some n ∧ 0 < n
  extWF : ∀ e, st.ext = some e →
    0 ≤ e.offset ∧ ∀ n, e.starts_line = some n → 0 < n

theorem assocGet_mem {β : Type} {m : List (Int × β)} {k : Int} {v : β}
    (h : assocGet m k = some v) : (k, v) ∈ m := by
  induction m with
  | nil => cases h
  | cons p rest ih =>
    unfold assocGet at h
    rw [List.find?_cons] at h
    by_cases hk : p.1 = k
    · rw [decide_eq_true hk] at h
      simp only [Option.map_some'] at h
      rw [← hk, ← Option.some.inj h]
      exact List.mem_cons_self p rest
    · rw [decide_eq_false hk] at h
      exact List.mem_cons_of_mem p (ih h)

theorem assocIndex_ok_mem {β : Type} {m : List (Int × β)} {k : Int} {v : β}
    (h : assocIndex m k = .ok v) : (k, v) ∈ m := by
  unfold assocIndex at h
  rcases hg : assocGet m k with _ | w
  · rw [hg] at h
    exact absurd h (by simp)
  · rw [hg] at h
    rw [← Except.ok.inj h]
    exact assocGet_mem hg

theorem assocIndex_err {β : Type} {m : List (Int × β)} {k : Int} {e : PyErr}
    (h : assocIndex m k = .error e) : e = .keyError := by
  unfold assocIndex at h
  rcases hg : assocGet m k with _ | w
  · rw [hg] at h
    exact (Except.error.inj h).symm
  · rw [hg] at h
    exact absurd h (by simp)

theorem instsIndexArgval_ok_mem {insts : List (Int × Inst)} {a : ArgVal} {v : Inst}
    (h : instsIndexArgval insts a = .ok v) : ∃ n, a = .vint n ∧ (n, v) ∈ insts := by
  unfold instsIndexArgval at h
  rcases a with _ | n | s
  · exact absurd h (by simp)
  · exact ⟨n, rfl, assocIndex_ok_mem h⟩
  · exact absurd h (by simp)

theorem instsIndexArgval_err {insts : List (Int × Inst)} {a : ArgVal} {e : PyErr}
    (h : instsIndexArgval insts a = .error e) : e = .keyError := by
  unfold instsIndexArgval at h
  rcases a with _ | n | s
  · exact (Except.error.inj h).symm
  · exact assocIndex_err h
  · exact (Except.error.inj h).symm

theorem ddGet_mem {m : List (Int × List Int)} {k x : Int}
    (h : x ∈ ddGet m k) : ∃ p ∈ m, x ∈ p.2 := by
  unfold ddGet mapGet at h
  rcases hf : m.find? (fun p => p.1 = k) with _ | q
  · rw [hf] at h
    simp only [Option.map_none', Option.getD_none] at h
    exact absurd h (List.not_mem_nil x)
  · rw [hf] at h
    simp only [Option.map_some', Option.getD_some] at h
    exact ⟨q, List.mem_of_find?_eq_some hf, h⟩

theorem asInt_err {a : ArgVal} {e : PyErr} (h : a.asInt = .error e) :
    e = .typeError := by
  rcases a with _ | n | s
  · exact (Except.error.inj h).symm
  · exact absurd h (by simp [ArgVal.asInt])
  · exact (Except.error.inj h).symm

theorem assocSet_pres {β : Type} (R : Int × β → Prop) :
    ∀ (m : List (Int × β)) (k : Int) (v : β),
      (∀ p ∈ m, R p) → R (k, v) → ∀ p ∈ assocSet m k v, R p := by
  intro m
  induction m with
  | nil =>
    intro k v _ hkv p hp
    rw [List.mem_singleton.mp hp]
    exact hkv
  | cons q rest ih =>
    intro k v hm hkv p hp
    rw [assocSet] at hp
    by_cases hk : q.1 = k
    · rw [if_pos hk] at hp
      rcases List.mem_cons.mp hp with rfl | hp2
      · exact hkv
      · exact hm p (List.mem_cons_of_mem q hp2)
    · rw [if_neg hk] at hp
      rcases List.mem_cons.mp hp with rfl | hp2
      · exact hm q (List.mem_cons_self q rest)
      · exact ih k v (fun x hx => hm x (List.mem_cons_of_mem q hx)) hkv p hp2

theorem find_block_dst_off_mem {inst : Inst} {ops : List Int} {d : Int}
    (h : find_block_dst_off inst ops = some d) : ∃ b ∈ inst.stack, b.2 = d := by
  unfold find_block_dst_off at h
  rcases hf : (inst.stack.reverse).find? (fun b => decide (b.1 ∈ ops)) with _ | q
  · rw [hf] at h
    exact absurd h (by simp)
  · rw [hf] at h
    simp only [Option.map_some'] at h
    exact ⟨q, List.mem_reverse.mp (List.mem_of_find?_eq_some hf), Option.some.inj h⟩

theorem popBlocksRev_subset (off : Int) :
    ∀ (rev : List (Int × Int)), ∀ b ∈ popBlocksRev rev off, b ∈ rev := by
  intro rev
  induction rev with
  | nil =>
    intro b hb
    exact hb
  | cons q rest ih =>
    intro b hb
    rw [popBlocksRev] at hb
    by_cases hq : q.2 = off
    · rw [if_pos hq] at hb
      exact List.mem_cons_of_mem q (ih b hb)
    · rw [if_neg hq] at hb
      exact hb

theorem popBlocks_subset {blocks : List (Int × Int)} {off : Int} :
    ∀ b ∈ popBlocks blocks off, b ∈ blocks := by
  intro b hb
  unfold popBlocks at hb
  exact List.mem_reverse.mp (popBlocksRev_subset off blocks.reverse b
    (List.mem_reverse.mp hb))

theorem foldlM_pres_err {α σ : Type} (Inv : σ → Prop) (Q : α → Prop)
    (f : σ → α → Except PyErr σ)
    (hok : ∀ s a s2, Q a → Inv s → f s a = .ok s2 → Inv s2)
    (herr : ∀ s a e, Q a → Inv s → f s a = .error e → e ≠ .assertLine) :
    ∀ (l : List α) (s : σ), (∀ a ∈ l, Q a) → Inv s →
      (∀ e, l.foldlM f s = .error e → e ≠ .assertLine) ∧
      (∀ s2, l.foldlM f s = .ok s2 → Inv s2) := by
  intro l
  induction l with
  | nil =>
    intro s _ hs
    constructor
    · intro e h
      simp only [List.foldlM_nil, pure, Except.pure] at h
      exact absurd h (by simp)
    · intro s2 h
      simp only [List.foldlM_nil, pure, Except.pure] at h
      rw [← Except.ok.inj h]
      exact hs
  | cons a rest ih =>
    intro s hQ hs
    rcases hfa : f s a with e1 | s1
    · constructor
      · intro e h
        rw [List.foldlM_cons, hfa] at h
        simp only [Bind.bind, Except.bind] at h
        rw [← Except.error.inj h]
        exact herr s a e1 (hQ a (List.mem_cons_self a rest)) hs hfa
      · intro s2 h
        rw [List.foldlM_cons, hfa] at h
        simp only [Bind.bind, Except.bind] at h
        exact absurd h (by simp)
    · have h2 := ih s1 (fun x hx => hQ x (List.mem_cons_of_mem a hx))
        (hok s a s1 (hQ a (List.mem_cons_self a rest)) hs hfa)
      constructor
      · intro e h
        rw [List.foldlM_cons, hfa] at h
        simp only [Bind.bind, Except.bind] at h
        exact h2.1 e h
      · intro s2 h
        rw [List.foldlM_cons, hfa] at h
        simp only [Bind.bind, Except.bind] at h
        exact h2.2 s2 h

theorem visit_nodes_pres_err {α : Type} [DecidableEq α] (P : α → Prop)
    (visitor : α → Except PyErr (List α))
    (hok : ∀ x, P x → ∀ ys, visitor x = .ok ys → ∀ y ∈ ys, P y)
    (herr : ∀ x, P x → ∀ e, visitor x = .error e → e ≠ .assertLine) :
    ∀ (fuel : Nat) (l visited : List α), (∀ x ∈ l, P x) →
      ∀ e, visit_nodes visitor fuel l visited = .error e → e ≠ .assertLine := by
  intro fuel
  induction fuel with
  | zero =>
    intro l visited _ e h
    simp only [visit_nodes] at h
    split at h
    · exact absurd h (by simp)
    · rw [← Except.error.inj h]
      decide
  | succ fuel ih =>
    intro l visited hl e h
    match l with
    | [] =>
      simp only [visit_nodes] at h
      exact absurd h (by simp)
    | node :: rest =>
      simp only [visit_nodes] at h
      by_cases hv : node ∈ visited
      · rw [if_pos hv] at h
        rw [← Except.error.inj h]
        decide
      · rw [if_neg hv] at h
        rcases hvn : visitor node with e2 | disc
        · rw [hvn] at h
          rw [← Except.error.inj h]
          exact herr node (hl node (List.mem_cons_self node rest)) e2 hvn
        · rw [hvn] at h
          refine ih _ _ ?_ e h
          intro x hx
          rcases mem_updateRemaining.mp hx with h2 | ⟨h2, _⟩
          · exact hl x (List.mem_cons_of_mem node h2)
          · exact hok node (hl node (List.mem_cons_self node rest)) disc hvn x h2

theorem mapM_assocIndex_mem {β : Type} (insts : List (Int × β)) :
    ∀ (offs : List Int) (out : List β),
      offs.mapM (assocIndex insts) = .ok out →
      ∀ i ∈ out, ∃ o ∈ offs, assocIndex insts o = .ok i := by
  intro offs
  induction offs with
  | nil =>
    intro out h i hi
    simp only [List.mapM_nil, pure, Except.pure] at h
    rw [← Except.ok.inj h] at hi
    exact absurd hi (List.not_mem_nil i)
  | cons o rest ih =>
    intro out h i hi
    rw [List.mapM_cons] at h
    rcases ha : assocIndex insts o with e | v
    · rw [ha] at h
      simp only [Bind.bind, Except.bind] at h
      exact absurd h (by simp)
    · rw [ha] at h
      simp only [Bind.bind, Except.bind] at h
      rcases hr : rest.mapM (assocIndex insts) with e | vs
      · rw [hr] at h
        exact absurd h (by simp)
      · rw [hr] at h
        simp only [pure, Except.pure] at h
        rw [← Except.ok.inj h] at hi
        rcases List.mem_cons.mp hi with rfl | h2
        · exact ⟨o, List.mem_cons_self o rest, ha⟩
        · obtain ⟨o2, ho2, hio⟩ := ih vs hr i h2
          exact ⟨o2, List.mem_cons_of_mem o ho2, hio⟩

theorem mapM_assocIndex_err {β : Type} (insts : List (Int × β)) :
    ∀ (offs : List Int) (e : PyErr),
      offs.mapM (assocIndex insts) = .error e → e = .keyError := by
  intro offs
  induction offs with
  | nil =>
    intro e h
    simp only [List.mapM_nil, pure, Except.pure] at h
    exact absurd h (by simp)
  | cons o rest ih =>
    intro e h
    rw [List.mapM_cons] at h
    rcases ha : assocIndex insts o with e1 | v
    · rw [ha] at h
      simp only [Bind.bind, Except.bind] at h
      rw [← Except.error.inj h]
      exact assocIndex_err ha
    · rw [ha] at h
      simp only [Bind.bind, Except.bind] at h
      rcases hr : rest.mapM (assocIndex insts) with e2 | vs
      · rw [hr] at h
        rw [← Except.error.inj h]
        exact ih e2 hr
      · rw [hr] at h
        simp only [pure, Except.pure] at h
        exact absurd h (by simp)

theorem arcWalk_guard (dsts srcs : List (Int × List Int)) (hd : NNVals dsts) :
    ∀ (fuel : Nat) (cur : Int) (acc : List Int), (∀ o ∈ acc, 0 ≤ o) →
      (∀ e, arcWalk dsts srcs fuel cur acc = .error e → e = .fuel) ∧
      (∀ arc nxt, arcWalk dsts srcs fuel cur acc = .ok (arc, nxt) →
        (∀ o ∈ arc, 0 ≤ o) ∧ ∀ o ∈ nxt, 0 ≤ o) := by
  intro fuel
  induction fuel with
  | zero =>
    intro cur acc _
    constructor
    · intro e h
      exact (Except.error.inj h).symm
    · intro arc nxt h
      exact absurd h (by simp [arcWalk])
  | succ fuel ih =>
    intro cur acc hacc
    have hdd : ∀ o ∈ ddGet dsts cur, 0 ≤ o := by
      intro o ho
      obtain ⟨p, hp, hop⟩ := ddGet_mem ho
      exact hd p hp o hop
    constructor
    · intro e h
      simp only [arcWalk] at h
      rcases hg : ddGet dsts cur with _ | ⟨d, _ | ⟨d2, r2⟩⟩
      · simp only [hg] at h
        exact absurd h (by simp)
      · simp only [hg] at h
        by_cases hl : (ddGet srcs d).length ≠ 1
        · rw [if_pos hl] at h
          exact absurd h (by simp)
        · rw [if_neg hl] at h
          refine (ih d (acc ++ [d]) ?_).1 e h
          intro o ho
          rcases List.mem_append.mp ho with h2 | h2
          · exact hacc o h2
          · rw [List.mem_singleton.mp h2]
            exact hdd d (by rw [hg]; exact List.mem_singleton.mpr rfl)
      · simp only [hg] at h
        exact absurd h (by simp)
    · intro arc nxt h
      simp only [arcWalk] at h
      rcases hg : ddGet dsts cur with _ | ⟨d, _ | ⟨d2, r2⟩⟩
      · simp only [hg] at h
        have h2 := Except.ok.inj h
        rw [Prod.mk.injEq] at h2
        rw [← h2.1, ← h2.2]
        exact ⟨hacc, fun o ho => absurd ho (List.not_mem_nil o)⟩
      · simp only [hg] at h
        have hdp : 0 ≤ d := hdd d (by rw [hg]; exact List.mem_singleton.mpr rfl)
        by_cases hl : (ddGet srcs d).length ≠ 1
        · rw [if_pos hl] at h
          have h2 := Except.ok.inj h
          rw [Prod.mk.injEq] at h2
          rw [← h2.1, ← h2.2]
          refine ⟨hacc, ?_⟩
          intro o ho
          rw [List.mem_singleton.mp ho]
          exact hdp
        · rw [if_neg hl] at h
          refine (ih d (acc ++ [d]) ?_).2 arc nxt h
          intro o ho
          rcases List.mem_append.mp ho with h2 | h2
          · exact hacc o h2
          · rw [List.mem_singleton.mp h2]
            exact hdp
      · simp only [hg] at h
        have h2 := Except.ok.inj h
        rw [Prod.mk.injEq] at h2
        rw [← h2.1, ← h2.2]
        refine ⟨hacc, ?_⟩
        intro o ho
        exact hdd o (by rw [hg]; exact ho)

theorem buildArcs_guard (dsts srcs : List (Int × List Int)) (fuel : Nat)
    (hd : NNVals dsts) :
    (∀ e, buildArcs dsts srcs fuel = .error e → e ≠ .assertLine) ∧
    (∀ arcs, buildArcs dsts srcs fuel = .ok arcs → NNVals arcs) := by
  have hstarts : ∀ o ∈ setUpdate (ddGet dsts OFF_BEGIN) (ddGet dsts OFF_RAISED), 0 ≤ o := by
    intro o ho
    rcases mem_setUpdate.mp ho with h2 | h2
    · obtain ⟨p, hp, hop⟩ := ddGet_mem h2
      exact hd p hp o hop
    · obtain ⟨p, hp, hop⟩ := ddGet_mem h2
      exact hd p hp o hop
  have hvis_ok : ∀ x : Int, 0 ≤ x → ∀ ys,
      (find_arcs dsts srcs fuel x).map (·.2) = .ok ys → ∀ y ∈ ys, 0 ≤ y := by
    intro x hx ys hys y hy
    rcases hfa : find_arcs dsts srcs fuel x with e | pr
    · rw [hfa] at hys
      simp only [Except.map] at hys
      exact absurd hys (by simp)
    · rw [hfa] at hys
      simp only [Except.map] at hys
      rw [← Except.ok.inj hys] at hy
      exact ((arcWalk_guard dsts srcs hd fuel x [x]
        (fun o ho => (List.mem_singleton.mp ho) ▸ hx)).2 pr.1 pr.2 hfa).2 y hy
  have hvis_err : ∀ x : Int, 0 ≤ x → ∀ e,
      (find_arcs dsts srcs fuel x).map (·.2) = .error e → e ≠ .assertLine := by
    intro x hx e he
    rcases hfa : find_arcs dsts srcs fuel x with e2 | pr
    · rw [hfa] at he
      simp only [Except.map] at he
      rw [← Except.error.inj he]
      rw [(arcWalk_guard dsts srcs hd fuel x [x]
        (fun o ho => (List.mem_singleton.mp ho) ▸ hx)).1 e2 hfa]
      decide
    · rw [hfa] at he
      simp only [Except.map] at he
      exact absurd he (by simp)
  constructor
  · intro e h
    unfold buildArcs at h
    simp only [Bind.bind, Except.bind] at h
    split at h
    · rw [← Except.error.inj h]
      rename_i e2 hv
      exact visit_nodes_pres_err (fun x => 0 ≤ x) _ hvis_ok hvis_err fuel _ [] hstarts e2 hv
    · rename_i visited hv
      have hvP : ∀ x ∈ visited, 0 ≤ x :=
        visit_nodes_inv hvis_ok fuel _ [] hstarts
          (fun x hx => absurd hx (List.not_mem_nil x)) visited hv
      refine (foldlM_pres_err NNVals (fun x => 0 ≤ x) _ ?_ ?_ visited [] hvP
        (fun p hp => absurd hp (List.not_mem_nil p))).1 e h
      · intro s a s2 hQ hs hf
        rcases hfa : find_arcs dsts srcs fuel a with e2 | pr
        · rw [hfa] at hf
          simp only [Except.map] at hf
          exact absurd hf (by simp)
        · rw [hfa] at hf
          simp only [Except.map] at hf
          rw [← Except.ok.inj hf]
          refine assocSet_pres _ s a pr.1 hs ?_
          intro d hd2
          exact ((arcWalk_guard dsts srcs hd fuel a [a]
            (fun o ho => (List.mem_singleton.mp ho) ▸ hQ)).2 pr.1 pr.2 hfa).1 d hd2
      · intro s a e2 hQ hs hf
        rcases hfa : find_arcs dsts srcs fuel a with e3 | pr
        · rw [hfa] at hf
          simp only [Except.map] at hf
          rw [← Except.error.inj hf]
          rw [(arcWalk_guard dsts srcs hd fuel a [a]
            (fun o ho => (List.mem_singleton.mp ho) ▸ hQ)).1 e3 hfa]
          decide
        · rw [hfa] at hf
          simp only [Except.map] at hf
          exact absurd hf (by simp)
  · intro arcs h
    unfold buildArcs at h
    simp only [Bind.bind, Except.bind] at h
    split at h
    · exact absurd h (by simp)
    · rename_i visited hv
      have hvP : ∀ x ∈ visited, 0 ≤ x :=
        visit_nodes_inv hvis_ok fuel _ [] hstarts
          (fun x hx => absurd hx (List.not_mem_nil x)) visited hv
      refine (foldlM_pres_err NNVals (fun x => 0 ≤ x) _ ?_ ?_ visited [] hvP
        (fun p hp => absurd hp (List.not_mem_nil p))).2 arcs h
      · intro s a s2 hQ hs hf
        rcases hfa : find_arcs dsts srcs fuel a with e2 | pr
        · rw [hfa] at hf
          simp only [Except.map] at hf
          exact absurd hf (by simp)
        · rw [hfa] at hf
          simp only [Except.map] at hf
          rw [← Except.ok.inj hf]
          refine assocSet_pres _ s a pr.1 hs ?_
          intro d hd2
          exact ((arcWalk_guard dsts srcs hd fuel a [a]
            (fun o ho => (List.mem_singleton.mp ho) ▸ hQ)).2 pr.1 pr.2 hfa).1 d hd2
      · intro s a e2 hQ hs hf
        rcases hfa : find_arcs dsts srcs fuel a with e3 | pr
        · rw [hfa] at hf
          simp only [Except.map] at hf
          rw [← Except.error.inj hf]
          rw [(arcWalk_guard dsts srcs hd fuel a [a]
            (fun o ho => (List.mem_singleton.mp ho) ▸ hQ)).1 e3 hfa]
          decide
        · rw [hfa] at hf
          simp only [Except.map] at hf
          exact absurd hf (by simp)

theorem emit_steps_guard (nexts : List (Int × Int)) (srcInst : Inst) :
    ∀ (arc : List Inst) (prev : Inst) (prevLine : Int) (isOpt isSrcOpt : Bool),
      (∀ i ∈ arc, 0 < i.line) → (0 < prevLine ∨ prevLine < 0) →
      (∀ e, emit_steps nexts srcInst prev prevLine isOpt isSrcOpt arc = .error e →
        e = .keyError) ∧
      (∀ records yld,
        emit_steps nexts srcInst prev prevLine isOpt isSrcOpt arc =
          .ok (records, yld) → 0 < yld.2.1 ∨ yld.2.1 < 0) := by
  intro arc
  induction arc with
  | nil =>
    intro prev prevLine isOpt isSrcOpt _ hprev
    constructor
    · intro e h
      simp only [emit_steps] at h
      exact absurd h (by simp)
    · intro records yld h
      simp only [emit_steps] at h
      have h2 := Except.ok.inj h
      rw [Prod.mk.injEq] at h2
      rw [← h2.2]
      exact hprev
  | cons inst rest ih =>
    intro prev prevLine isOpt isSrcOpt harc hprev
    have hpos : 0 < next_line prev inst prevLine := by
      unfold next_line
      by_cases hc : inst.is_line_start = true ∨ inst.off < prev.off ∨ prevLine < 0
      · rw [if_pos hc]
        exact harc inst (List.mem_cons_self inst rest)
      · rw [if_neg hc]
        push_neg at hc
        rcases hprev with h2 | h2
        · exact h2
        · exact absurd h2 (not_lt.mpr hc.2.2)
    have harc2 : ∀ i ∈ rest, 0 < i.line :=
      fun i hi => harc i (List.mem_cons_of_mem inst hi)
    have hline2 : 0 < next_line prev inst prevLine ∨ next_line prev inst prevLine < 0 :=
      Or.inl hpos
    constructor
    · intro e h
      simp only [emit_steps] at h
      rw [if_neg (not_le.mpr hpos)] at h
      cases isOpt with
      | true =>
        rw [if_pos rfl] at h
        simp only [Bind.bind, Except.bind, pure, Except.pure] at h
        rcases ht : emit_steps nexts srcInst inst (next_line prev inst prevLine)
            true isSrcOpt rest with e2 | tail
        · simp only [ht] at h
          rw [← Except.error.inj h]
          exact (ih inst (next_line prev inst prevLine) true isSrcOpt harc2 hline2).1
            e2 ht
        · simp only [ht] at h
          exact absurd h (by simp)
      | false =>
        rw [if_neg Bool.false_ne_true] at h
        by_cases hef : prev.opcode = END_FINALLY
        · rw [if_pos hef] at h
          rcases hN : assocIndex nexts prev.off with e3 | nxtOff
          · simp only [hN, Bind.bind, Except.bind, pure, Except.pure] at h
            rw [← Except.error.inj h]
            exact assocIndex_err hN
          · simp only [hN, Bind.bind, Except.bind, pure, Except.pure] at h
            rcases ht : emit_steps nexts srcInst inst (next_line prev inst prevLine)
                (decide (nxtOff = inst.off)) isSrcOpt rest with e2 | tail
            · simp only [ht] at h
              rw [← Except.error.inj h]
              exact (ih inst (next_line prev inst prevLine)
                (decide (nxtOff = inst.off)) isSrcOpt harc2 hline2).1 e2 ht
            · simp only [ht] at h
              exact absurd h (by simp)
        · rw [if_neg hef] at h
          simp only [Bind.bind, Except.bind, pure, Except.pure] at h
          rcases ht : emit_steps nexts srcInst inst (next_line prev inst prevLine)
              false isSrcOpt rest with e2 | tail
          · simp only [ht] at h
            rw [← Except.error.inj h]
            exact (ih inst (next_line prev inst prevLine) false isSrcOpt
              harc2 hline2).1 e2 ht
          · simp only [ht] at h
            exact absurd h (by simp)
    · intro records yld h
      simp only [emit_steps] at h
      rw [if_neg (not_le.mpr hpos)] at h
      cases isOpt with
      | true =>
        rw [if_pos rfl] at h
        simp only [Bind.bind, Except.bind, pure, Except.pure] at h
        rcases ht : emit_steps nexts srcInst inst (next_line prev inst prevLine)
            true isSrcOpt rest with e2 | tail
        · simp only [ht] at h
          exact absurd h (by simp)
        · simp only [ht] at h
          have h2 := Except.ok.inj h
          rw [Prod.mk.injEq] at h2
          rw [← h2.2]
          exact (ih inst (next_line prev inst prevLine) true isSrcOpt harc2 hline2).2
            tail.1 tail.2 ht
      | false =>
        rw [if_neg Bool.false_ne_true] at h
        by_cases hef : prev.opcode = END_FINALLY
        · rw [if_pos hef] at h
          rcases hN : assocIndex nexts prev.off with e3 | nxtOff
          · simp only [hN, Bind.bind, Except.bind, pure, Except.pure] at h
            exact absurd h (by simp)
          · simp only [hN, Bind.bind, Except.bind, pure, Except.pure] at h
            rcases ht : emit_steps nexts srcInst inst (next_line prev inst prevLine)
                (decide (nxtOff = inst.off)) isSrcOpt rest with e2 | tail
            · simp only [ht] at h
              exact absurd h (by simp)
            · simp only [ht] at h
              have h2 := Except.ok.inj h
              rw [Prod.mk.injEq] at h2
              rw [← h2.2]
              exact (ih inst (next_line prev inst prevLine)
                (decide (nxtOff = inst.off)) isSrcOpt harc2 hline2).2 tail.1 tail.2 ht
        · rw [if_neg hef] at h
          simp only [Bind.bind, Except.bind, pure, Except.pure] at h
          rcases ht : emit_steps nexts srcInst inst (next_line prev inst prevLine)
              false isSrcOpt rest with e2 | tail
          · simp only [ht] at h
            exact absurd h (by simp)
          · simp only [ht] at h
            have h2 := Except.ok.inj h
            rw [Prod.mk.injEq] at h2
            rw [← h2.2]
            exact (ih inst (next_line prev inst prevLine) false isSrcOpt
              harc2 hline2).2 tail.1 tail.2 ht

theorem emit_from_triple_guard (insts : List (Int × Inst)) (nexts : List (Int × Int))
    (dsts srcs arcs : List (Int × List Int))
    (hins : InstsWF insts) (harcs : NNVals arcs) (t : Int × Int × Bool)
    (ht : 0 < t.2.1 ∨ t.2.1 < 0) :
    (∀ e, emit_from_triple insts nexts dsts srcs arcs t = .error e →
      e ≠ .assertLine) ∧
    (∀ recs ylds, emit_from_triple insts nexts dsts srcs arcs t = .ok (recs, ylds) →
      ∀ y ∈ ylds, 0 < y.2.1 ∨ y.2.1 < 0) := by
  obtain ⟨srcOff, srcLine, isSrcOpt⟩ := t
  constructor
  · intro e h
    unfold emit_from_triple at h
    simp only [Bind.bind, Except.bind] at h
    split at h
    · rename_i e2 hsi
      rw [← Except.error.inj h]
      rw [assocIndex_err hsi]
      decide
    · rename_i srcInst hsi
      refine (foldlM_pres_err
        (fun acc : List ((Int × Int) × Int × Bool) × List (Int × Int × Bool) =>
          ∀ y ∈ acc.2, 0 < y.2.1 ∨ y.2.1 < 0)
        (fun _ => True) _ ?_ ?_ _ ([], []) (fun _ _ => trivial)
        (fun y hy => absurd hy (List.not_mem_nil y))).1 e h
      · intro s a s2 _ hs hf
        split at hf
        · exact absurd hf (by simp)
        · rename_i arcOffs hao
          split at hf
          · exact absurd hf (by simp)
          · rename_i arc ham
            split at hf
            · exact absurd hf (by simp)
            · rename_i ey hes
              simp only [pure, Except.pure] at hf
              rw [← Except.ok.inj hf]
              intro y hy
              rcases List.mem_append.mp hy with h2 | h2
              · exact hs y h2
              · rw [List.mem_singleton.mp h2]
                have hoffs : ∀ o ∈ arcOffs, 0 ≤ o :=
                  fun o ho => harcs (a, arcOffs) (assocIndex_ok_mem hao) o ho
                have harcpos : ∀ i ∈ arc, 0 < i.line := by
                  intro i hi
                  obtain ⟨o, ho, hio⟩ := mapM_assocIndex_mem insts arcOffs arc ham i hi
                  exact (hins (o, i) (assocIndex_ok_mem hio)).2.1 (hoffs o ho)
                exact (emit_steps_guard nexts srcInst arc srcInst srcLine
                  (is_arc_opt srcInst arc srcs) isSrcOpt harcpos ht).2 ey.1 ey.2 hes
      · intro s a e2 _ hs hf
        split at hf
        · rename_i e3 hao
          rw [← Except.error.inj hf]
          rw [assocIndex_err hao]
          decide
        · rename_i arcOffs hao
          split at hf
          · rename_i e3 ham
            rw [← Except.error.inj hf]
            rw [mapM_assocIndex_err insts arcOffs e3 ham]
            decide
          · rename_i arc ham
            split at hf
            · rename_i e3 hes
              rw [← Except.error.inj hf]
              have hoffs : ∀ o ∈ arcOffs, 0 ≤ o :=
                fun o ho => harcs (a, arcOffs) (assocIndex_ok_mem hao) o ho
              have harcpos : ∀ i ∈ arc, 0 < i.line := by
                intro i hi
                obtain ⟨o, ho, hio⟩ := mapM_assocIndex_mem insts arcOffs arc ham i hi
                exact (hins (o, i) (assocIndex_ok_mem hio)).2.1 (hoffs o ho)
              rw [(emit_steps_guard nexts srcInst arc srcInst srcLine
                (is_arc_opt srcInst arc srcs) isSrcOpt harcpos ht).1 e3 hes]
              decide
            · rename_i ey hes
              simp only [pure, Except.pure] at hf
              exact absurd hf (by simp)
  · intro recs ylds h
    unfold emit_from_triple at h
    simp only [Bind.bind, Except.bind] at h
    split at h
    · exact absurd h (by simp)
    · rename_i srcInst hsi
      refine (foldlM_pres_err
        (fun acc : List ((Int × Int) × Int × Bool) × List (Int × Int × Bool) =>
          ∀ y ∈ acc.2, 0 < y.2.1 ∨ y.2.1 < 0)
        (fun _ => True) _ ?_ ?_ _ ([], []) (fun _ _ => trivial)
        (fun y hy => absurd hy (List.not_mem_nil y))).2 (recs, ylds) h
      · intro s a s2 _ hs hf
        split at hf
        · exact absurd hf (by simp)
        · rename_i arcOffs hao
          split at hf
          · exact absurd hf (by simp)
          · rename_i arc ham
            split at hf
            · exact absurd hf (by simp)
            · rename_i ey hes
              simp only [pure, Except.pure] at hf
              rw [← Except.ok.inj hf]
              intro y hy
              rcases List.mem_append.mp hy with h2 | h2
              · exact hs y h2
              · rw [List.mem_singleton.mp h2]
                have hoffs : ∀ o ∈ arcOffs, 0 ≤ o :=
                  fun o ho => harcs (a, arcOffs) (assocIndex_ok_mem hao) o ho
                have harcpos : ∀ i ∈ arc, 0 < i.line := by
                  intro i hi
                  obtain ⟨o, ho, hio⟩ := mapM_assocIndex_mem insts arcOffs arc ham i hi
                  exact (hins (o, i) (assocIndex_ok_mem hio)).2.1 (hoffs o ho)
                exact (emit_steps_guard nexts srcInst arc srcInst srcLine
                  (is_arc_opt srcInst arc srcs) isSrcOpt harcpos ht).2 ey.1 ey.2 hes
      · intro s a e2 _ hs hf
        split at hf
        · rename_i e3 hao
          rw [← Except.error.inj hf]
          rw [assocIndex_err hao]
          decide
        · rename_i arcOffs hao
          split at hf
          · rename_i e3 ham
            rw [← Except.error.inj hf]
            rw [mapM_assocIndex_err insts arcOffs e3 ham]
            decide
          · rename_i arc ham
            split at hf
            · rename_i e3 hes
              rw [← Except.error.inj hf]
              have hoffs : ∀ o ∈ arcOffs, 0 ≤ o :=
                fun o ho => harcs (a, arcOffs) (assocIndex_ok_mem hao) o ho
              have harcpos : ∀ i ∈ arc, 0 < i.line := by
                intro i hi
                obtain ⟨o, ho, hio⟩ := mapM_assocIndex_mem insts arcOffs arc ham i hi
                exact (hins (o, i) (assocIndex_ok_mem hio)).2.1 (hoffs o ho)
              rw [(emit_steps_guard nexts srcInst arc srcInst srcLine
                (is_arc_opt srcInst arc srcs) isSrcOpt harcpos ht).1 e3 hes]
              decide
            · rename_i ey hes
              simp only [pure, Except.pure] at hf
              exact absurd hf (by simp)

theorem asInt_ok {a : ArgVal} {n : Int} (h : a.asInt = .ok n) : a = .vint n := by
  rcases a with _ | m | s
  · exact absurd h (by simp [ArgVal.asInt])
  · rw [Except.ok.inj h]
  · exact absurd h (by simp [ArgVal.asInt])

theorem scanSetup_err {op : Int} {a : ArgVal} {blocks : List (Int × Int)}
    {sd : Option Int} {e : PyErr} (h : scanSetup op a blocks sd = .error e) :
    e ≠ .assertLine := by
  unfold scanSetup at h
  by_cases hin : op ∈ setup_opcodes
  · rw [if_pos hin] at h
    simp only [Bind.bind, Except.bind, pure, Except.pure] at h
    rcases hai : a.asInt with e1 | dst
    · simp only [hai] at h
      rw [← Except.error.inj h]
      rw [asInt_err hai]
      decide
    · simp only [hai] at h
      split at h
      · exact absurd h (by simp)
      · rw [← Except.error.inj h]
        decide
  · rw [if_neg hin] at h
    simp only [pure, Except.pure] at h
    exact absurd h (by simp)

theorem scanSetup_ok_mem {op : Int} {a : ArgVal} {blocks : List (Int × Int)}
    {sd : Option Int} {res : List (Int × Int) × Option Int}
    (h : scanSetup op a blocks sd = .ok res) :
    ∀ b ∈ res.1, b ∈ blocks ∨ ∃ n, a = ArgVal.vint n ∧ b = (op, n) := by
  unfold scanSetup at h
  by_cases hin : op ∈ setup_opcodes
  · rw [if_pos hin] at h
    simp only [Bind.bind, Except.bind, pure, Except.pure] at h
    rcases hai : a.asInt with e1 | dst
    · simp only [hai] at h
      exact absurd h (by simp)
    · simp only [hai] at h
      split at h
      · intro b hb
        rw [← Except.ok.inj h] at hb
        rcases List.mem_append.mp hb with h2 | h2
        · exact Or.inl h2
        · exact Or.inr ⟨dst, asInt_ok hai, List.mem_singleton.mp h2⟩
      · exact absurd h (by simp)
  · rw [if_neg hin] at h
    simp only [pure, Except.pure] at h
    intro b hb
    rw [← Except.ok.inj h] at hb
    exact Or.inl hb

theorem scanCallExit_err {st : ScanState} {op : Int} {e : PyErr}
    (h : scanCallExit st op = .error e) : e = .keyError := by
  unfold scanCallExit at h
  by_cases hc : op = CALL_FUNCTION
  · rw [if_pos hc] at h
    simp only [Bind.bind, Except.bind, pure, Except.pure] at h
    by_cases hl : st.prev.opcode = LOAD_CONST
    · rw [if_pos hl] at h
      rcases hp : assocIndex st.prevs st.prev.off with e1 | poff
      · simp only [hp] at h
        rw [← Except.error.inj h]
        exact assocIndex_err hp
      · simp only [hp] at h
        rcases hq : assocIndex st.insts poff with e2 | p2
        · simp only [hq] at h
          rw [← Except.error.inj h]
          exact assocIndex_err hq
        · simp only [hq] at h
          exact absurd h (by simp)
    · rw [if_neg hl] at h
      exact absurd h (by simp)
  · rw [if_neg hc] at h
    exact Except.noConfusion h

theorem scanJmp_err {st : ScanState} {op : Int} {r : RawInst} {e : PyErr}
    (h : scanJmp st op r = .error e) : e ≠ .assertLine := by
  unfold scanJmp at h
  by_cases hm : st.prev.is_exc_match = true
  · rw [if_pos hm] at h
    by_cases hp : op = POP_JUMP_IF_FALSE
    · rw [if_pos hp] at h
      simp only [Bind.bind, Except.bind, pure, Except.pure] at h
      rcases hai : r.argval.asInt with e1 | dstv
      · simp only [hai] at h
        rw [← Except.error.inj h]
        rw [asInt_err hai]
        decide
      · simp only [hai] at h
        exact absurd h (by simp)
    · rw [if_neg hp] at h
      rw [← Except.error.inj h]
      decide
  · rw [if_neg hm] at h
    simp only [pure, Except.pure] at h
    exact absurd h (by simp)

theorem scanStep_err (st : ScanState) (r : RawInst) :
    ∀ e, scanStep st r = .error e → e ≠ .assertLine := by
  intro e h
  unfold scanStep at h
  simp only [Bind.bind, Except.bind, pure, Except.pure] at h
  split at h
  · rename_i e1 hS
    rw [← Except.error.inj h]
    exact scanSetup_err hS
  · rename_i bs hS
    split at h
    · exact absurd h (by simp)
    · split at h
      · rename_i e1 hC
        rw [← Except.error.inj h]
        rw [scanCallExit_err hC]
        decide
      · rename_i ice hC
        split at h
        · rename_i e1 hJ
          rw [← Except.error.inj h]
          exact scanJmp_err hJ
        · exact absurd h (by simp)

theorem scanExt_ok {st : ScanState} {r : RawInst}
    (hext : ∀ e, st.ext = some e →
      0 ≤ e.offset ∧ ∀ n, e.starts_line = some n → 0 < n)
    (hr : rawOK r) :
    ∀ e, scanExt st r = some e →
      0 ≤ e.offset ∧ ∀ n, e.starts_line = some n → 0 < n := by
  intro e he
  unfold scanExt at he
  by_cases hc : r.opcode = EXTENDED_ARG ∧ st.ext = none
  · rw [if_pos hc] at he
    rw [← Option.some.inj he]
    exact ⟨hr.1, hr.2.2⟩
  · rw [if_neg hc] at he
    exact hext e he

theorem scanOff_nonneg {st : ScanState} {r : RawInst}
    (hext : ∀ e, st.ext = some e →
      0 ≤ e.offset ∧ ∀ n, e.starts_line = some n → 0 < n)
    (hr : rawOK r) : 0 ≤ scanOff st r := by
  unfold scanOff
  rcases he : scanExt st r with _ | e
  · exact hr.1
  · exact (scanExt_ok hext hr e he).1

theorem pyOr_pos {a : Option Int} {b : Int}
    (ha : ∀ n, a = some n → 0 < n) (hb : 0 < b) : 0 < pyOr a b := by
  rcases a with _ | n
  · exact hb
  · show 0 < if n = 0 then b else n
    by_cases hn : n = 0
    · rw [if_pos hn]
      exact hb
    · rw [if_neg hn]
      exact ha n rfl

theorem scanLine_pos_of_ready {st : ScanState} {r : RawInst}
    (hext : ∀ e, st.ext = some e →
      0 ≤ e.offset ∧ ∀ n, e.starts_line = some n → 0 < n)
    (hr : rawOK r)
    (hready : 0 < st.prev.line ∨
      ∃ e n, st.ext = some e ∧ e.starts_line = some n ∧ 0 < n) :
    0 < scanLine st r := by
  unfold scanLine
  have hsl : ∀ n, scanSL st r = some n → 0 < n := by
    intro n hn
    unfold scanSL at hn
    rcases he : scanExt st r with _ | e
    · rw [he] at hn
      exact hr.2.2 n hn
    · rw [he] at hn
      exact (scanExt_ok hext hr e he).2 n hn
  rcases hready with h2 | ⟨e, n, he, hslE, hnpos⟩
  · exact pyOr_pos hsl h2
  · have hcond : ¬(r.opcode = EXTENDED_ARG ∧ st.ext = none) := by
      intro hc
      rw [he] at hc
      exact Option.noConfusion hc.2
    have hE : scanExt st r = some e := by
      unfold scanExt
      rw [if_neg hcond]
      exact he
    have hS : scanSL st r = some n := by
      unfold scanSL
      rw [hE]
      exact hslE
    rw [hS]
    show 0 < if n = 0 then st.prev.line else n
    rw [if_neg (by intro h0; rw [h0] at hnpos; exact lt_irrefl 0 hnpos)]
    exact hnpos

theorem scanLine_pos_of_head {st : ScanState} {r : RawInst}
    (hr : rawOK r) (hz : st.ext = none)
    (hhead : pyTruthy r.starts_line = true) : 0 < scanLine st r := by
  obtain ⟨n, hn⟩ : ∃ n, r.starts_line = some n := by
    rcases hh : r.starts_line with _ | m
    · rw [hh] at hhead
      exact absurd hhead (by decide)
    · exact ⟨m, rfl⟩
  have hnpos : 0 < n := hr.2.2 n hn
  have hS : scanSL st r = some n := by
    unfold scanSL scanExt
    by_cases hc : r.opcode = EXTENDED_ARG ∧ st.ext = none
    · rw [if_pos hc]
      exact hn
    · rw [if_neg hc, hz]
      exact hn
  unfold scanLine
  rw [hS]
  show 0 < if n = 0 then st.prev.line else n
  rw [if_neg (by intro h0; rw [h0] at hnpos; exact lt_irrefl 0 hnpos)]
  exact hnpos

theorem scanStep_wf_aux (st : ScanState) (r : RawInst)
    (hi : InstsWF st.insts) (hn : ∀ p ∈ st.nexts, 0 ≤ p.2)
    (hb : ∀ b ∈ st.blocks, 0 ≤ b.2)
    (hextOK : ∀ e, st.ext = some e →
      0 ≤ e.offset ∧ ∀ n, e.starts_line = some n → 0 < n)
    (hr : rawOK r)
    (hready2 : r.opcode = EXTENDED_ARG →
      0 < st.prev.line ∨
        ∃ e n, scanExt st r = some e ∧ e.starts_line = some n ∧ 0 < n)
    (hline : 0 < scanLine st r) :
    ∀ st2, scanStep st r = .ok st2 → ScanWF st2 := by
  intro st2 h
  unfold scanStep at h
  simp only [Bind.bind, Except.bind, pure, Except.pure] at h
  split at h
  · exact absurd h (by simp)
  · rename_i bs hS
    have hbl2 : ∀ b ∈ bs.1, 0 ≤ b.2 := by
      intro b hbmem
      rcases scanSetup_ok_mem hS b hbmem with h2 | ⟨n, han, hbn⟩
      · exact hb b (popBlocks_subset b h2)
      · rw [hbn]
        exact hr.2.1 n han
    have hoffn : 0 ≤ scanOff st r := scanOff_nonneg hextOK hr
    split at h
    · rename_i hop
      rw [← Except.ok.inj h]
      exact ⟨hi, hn, hbl2, hready2 hop, scanExt_ok hextOK hr⟩
    · rename_i hop
      split at h
      · exact absurd h (by simp)
      · rename_i ice hC
        split at h
        · exact absurd h (by simp)
        · rename_i jmp hJ
          rw [← Except.ok.inj h]
          refine ⟨?_, ?_, hbl2, Or.inl hline, ?_⟩
          · refine assocSet_pres (fun p => InstWF p.1 p.2) st.insts (scanOff st r)
              _ hi ?_
            exact ⟨rfl, fun _ => hline,
              fun n han => hr.2.1 n han, hbl2, fun _ _ => hoffn⟩
          · refine assocSet_pres (fun p => 0 ≤ p.2) st.nexts st.prev.off
              (scanOff st r) hn ?_
            exact hoffn
          · intro e he
            exact Option.noConfusion he

theorem scanStep_wf (st : ScanState) (r : RawInst) (hst : ScanWF st)
    (hr : rawOK r) : ∀ st2, scanStep st r = .ok st2 → ScanWF st2 := by
  refine scanStep_wf_aux st r hst.instsWF hst.nextsWF hst.blocksWF hst.extWF hr
    ?_ ?_
  · intro _
    rcases hst.prevReady with h2 | ⟨e, n, he, hsl, hnpos⟩
    · exact Or.inl h2
    · refine Or.inr ⟨e, n, ?_, hsl, hnpos⟩
      unfold scanExt
      rw [if_neg (fun hc => Option.noConfusion (he ▸ hc.2))]
      exact he
  · exact scanLine_pos_of_ready hst.extWF hr hst.prevReady

theorem scanStep_start (st : ScanState) (r : RawInst)
    (hi : InstsWF st.insts) (hn : ∀ p ∈ st.nexts, 0 ≤ p.2)
    (hb : ∀ b ∈ st.blocks, 0 ≤ b.2) (hz : st.ext = none)
    (hr : rawOK r) (hhead : pyTruthy r.starts_line = true) :
    ∀ st2, scanStep st r = .ok st2 → ScanWF st2 := by
  refine scanStep_wf_aux st r hi hn hb
    (fun e he => absurd (hz ▸ he) (by simp)) hr ?_ ?_
  · intro hop
    obtain ⟨n, hsl⟩ : ∃ n, r.starts_line = some n := by
      rcases hh : r.starts_line with _ | m
      · rw [hh] at hhead
        exact absurd hhead (by decide)
      · exact ⟨m, rfl⟩
    refine Or.inr ⟨r, n, ?_, hsl, hr.2.2 n hsl⟩
    unfold scanExt
    rw [if_pos ⟨hop, hz⟩]
  · exact scanLine_pos_of_head hr hz hhead

theorem initScanState_instsWF : InstsWF initScanState.insts := by
  intro p hp
  rcases List.mem_cons.mp hp with rfl | hp2
  · exact ⟨rfl, fun h2 => absurd h2 (by decide),
      fun n h2 => ArgVal.noConfusion h2,
      fun b hb => absurd hb (List.not_mem_nil b),
      fun h1 _ => absurd rfl h1⟩
  · rw [List.mem_singleton.mp hp2]
    exact ⟨rfl, fun h2 => absurd h2 (by decide),
      fun n h2 => ArgVal.noConfusion h2,
      fun b hb => absurd hb (List.not_mem_nil b),
      fun _ h2 => absurd rfl h2⟩

theorem scanInsts_guard (r0 : RawInst) (rest : List RawInst)
    (hr : ∀ r ∈ r0 :: rest, rawOK r) (hhead : pyTruthy r0.starts_line = true) :
    (∀ e, scanInsts (r0 :: rest) = .error e → e ≠ .assertLine) ∧
    (∀ scan, scanInsts (r0 :: rest) = .ok scan → ScanWF scan) := by
  unfold scanInsts
  rcases h0 : scanStep initScanState r0 with e0 | st1
  · constructor
    · intro e h
      rw [List.foldlM_cons, h0] at h
      simp only [Bind.bind, Except.bind] at h
      rw [← Except.error.inj h]
      exact scanStep_err initScanState r0 e0 h0
    · intro scan h
      rw [List.foldlM_cons, h0] at h
      simp only [Bind.bind, Except.bind] at h
      exact absurd h (by simp)
  · have hwf1 : ScanWF st1 :=
      scanStep_start initScanState r0 initScanState_instsWF
        (fun p hp => absurd hp (List.not_mem_nil p))
        (fun b hb => absurd hb (List.not_mem_nil b)) rfl
        (hr r0 (List.mem_cons_self r0 rest)) hhead st1 h0
    have h2 := foldlM_pres_err ScanWF rawOK scanStep
      (fun s a s2 hQ hs hf => scanStep_wf s a hs hQ s2 hf)
      (fun s a e hQ _ hf => scanStep_err s a e hf)
      rest st1 (fun a ha => hr a (List.mem_cons_of_mem r0 ha)) hwf1
    constructor
    · intro e h
      rw [List.foldlM_cons, h0] at h
      simp only [Bind.bind, Except.bind] at h
      exact h2.1 e h
    · intro scan h
      rw [List.foldlM_cons, h0] at h
      simp only [Bind.bind, Except.bind] at h
      exact h2.2 scan h

theorem break_loop_dst_err {inst : Inst} {sd : Option Int}
    {insts : List (Int × Inst)} {e : PyErr}
    (h : break_loop_dst inst sd insts = .error e) : e ≠ .assertLine := by
  rcases sd with _ | v
  · unfold break_loop_dst at h
    simp only [] at h
    rw [← Except.error.inj h]
    decide
  · unfold break_loop_dst at h
    simp only [] at h
    by_cases hv : v = 0
    · rw [if_pos hv] at h
      rw [← Except.error.inj h]
      decide
    · rw [if_neg hv] at h
      rcases hf : find_block_dst_off inst [SETUP_LOOP] with _ | d
      · simp only [hf] at h
        rw [← Except.error.inj h]
        decide
      · simp only [hf, Bind.bind, Except.bind, pure, Except.pure] at h
        rcases ha : assocIndex insts d with e1 | t
        · simp only [ha] at h
          rw [← Except.error.inj h]
          rw [assocIndex_err ha]
          decide
        · simp only [ha] at h
          exact absurd h (by simp)

theorem break_loop_dst_ok {inst : Inst} {sd : Option Int}
    {insts : List (Int × Inst)} {d : Int}
    (h : break_loop_dst inst sd insts = .ok d) : ∃ b ∈ inst.stack, b.2 = d := by
  rcases sd with _ | v
  · unfold break_loop_dst at h
    simp only [] at h
    exact absurd h (by simp)
  · unfold break_loop_dst at h
    simp only [] at h
    by_cases hv : v = 0
    · rw [if_pos hv] at h
      exact absurd h (by simp)
    · rw [if_neg hv] at h
      rcases hf : find_block_dst_off inst [SETUP_LOOP] with _ | d2
      · simp only [hf] at h
        exact absurd h (by simp)
      · simp only [hf, Bind.bind, Except.bind, pure, Except.pure] at h
        rcases ha : assocIndex insts d2 with e1 | t
        · simp only [ha] at h
          exact absurd h (by simp)
        · simp only [ha] at h
          rw [← Except.ok.inj h]
          exact find_block_dst_off_mem hf

theorem is_SF_exc_opt_err {nxt : Inst} {insts : List (Int × Inst)} {e : PyErr}
    (h : is_SF_exc_opt nxt insts = .error e) : e = .keyError := by
  unfold is_SF_exc_opt at h
  by_cases hc : nxt.opcode = SETUP_EXCEPT
  · rw [if_pos hc] at h
    simp only [Bind.bind, Except.bind, pure, Except.pure] at h
    rcases hi : instsIndexArgval insts nxt.argval with e1 | t
    · simp only [hi] at h
      rw [← Except.error.inj h]
      exact instsIndexArgval_err hi
    · simp only [hi] at h
      split at h
      · exact absurd h (by simp)
      · split at h
        · exact absurd h (by simp)
        · exact absurd h (by simp)
  · rw [if_neg hc] at h
    exact Except.noConfusion h

theorem step2Pre_guard (nexts : List (Int × Int)) (st : Step2State) (inst : Inst)
    (hd : NNVals st.dsts) (hnx : ∀ p ∈ nexts, 0 ≤ p.2)
    (hins : InstsWF st.insts) (hok : InstOK inst) :
    (∀ e, step2Pre nexts st inst = .error e → e ≠ .assertLine) ∧
    (∀ dsts2, step2Pre nexts st inst = .ok dsts2 → NNVals dsts2) := by
  have hd1 : NNVals (if inst.off = 0 then mapSetAdd st.dsts OFF_BEGIN inst.off
      else st.dsts) := by
    by_cases hz : inst.off = 0
    · rw [if_pos hz]
      exact mapSetAdd_allP _ st.dsts OFF_BEGIN inst.off hd hz.ge
    · rw [if_neg hz]
      exact hd
  have htOff : ∀ t : Inst, instsIndexArgval st.insts inst.argval = .ok t →
      0 ≤ t.off := by
    intro t hi
    obtain ⟨n, hvint, hmem⟩ := instsIndexArgval_ok_mem hi
    have hwf := hins (n, t) hmem
    rw [hwf.1]
    exact hok.1 n hvint
  constructor
  · intro e h
    unfold step2Pre at h
    simp only [Bind.bind, Except.bind, pure, Except.pure] at h
    split at h
    · rcases ha : assocIndex nexts inst.off with e2 | nxt
      · simp only [ha] at h
        rw [← Except.error.inj h]
        rw [assocIndex_err ha]
        decide
      · simp only [ha] at h
        split at h
        · rcases hi : instsIndexArgval st.insts inst.argval with e1 | t
          · simp only [hi] at h
            rw [← Except.error.inj h]
            rw [instsIndexArgval_err hi]
            decide
          · simp only [hi] at h
            exact absurd h (by simp)
        · split at h
          · rcases hi : instsIndexArgval st.insts inst.argval with e1 | t
            · simp only [hi] at h
              rw [← Except.error.inj h]
              rw [instsIndexArgval_err hi]
              decide
            · simp only [hi] at h
              exact absurd h (by simp)
          · exact absurd h (by simp)
    · split at h
      · rcases hi : instsIndexArgval st.insts inst.argval with e1 | t
        · simp only [hi] at h
          rw [← Except.error.inj h]
          rw [instsIndexArgval_err hi]
          decide
        · simp only [hi] at h
          exact absurd h (by simp)
      · split at h
        · rcases hi : instsIndexArgval st.insts inst.argval with e1 | t
          · simp only [hi] at h
            rw [← Except.error.inj h]
            rw [instsIndexArgval_err hi]
            decide
          · simp only [hi] at h
            exact absurd h (by simp)
        · exact absurd h (by simp)
  · intro dsts2 h
    unfold step2Pre at h
    simp only [Bind.bind, Except.bind, pure, Except.pure] at h
    split at h
    · rcases ha : assocIndex nexts inst.off with e2 | nxt
      · simp only [ha] at h
        exact absurd h (by simp)
      · simp only [ha] at h
        have hdN : NNVals (mapSetAdd
            (if inst.off = 0 then mapSetAdd st.dsts OFF_BEGIN inst.off else st.dsts)
            inst.off nxt) :=
          mapSetAdd_allP _ _ inst.off nxt hd1
            (hnx (inst.off, nxt) (assocIndex_ok_mem ha))
        split at h
        · rcases hi : instsIndexArgval st.insts inst.argval with e1 | t
          · simp only [hi] at h
            exact absurd h (by simp)
          · simp only [hi] at h
            rw [← Except.ok.inj h]
            exact mapSetAdd_allP _ _ inst.off t.off hdN (htOff t hi)
        · split at h
          · rcases hi : instsIndexArgval st.insts inst.argval with e1 | t
            · simp only [hi] at h
              exact absurd h (by simp)
            · simp only [hi] at h
              rw [← Except.ok.inj h]
              exact mapSetAdd_allP _ _ OFF_RAISED t.off hdN (htOff t hi)
          · rw [← Except.ok.inj h]
            exact hdN
    · split at h
      · rcases hi : instsIndexArgval st.insts inst.argval with e1 | t
        · simp only [hi] at h
          exact absurd h (by simp)
        · simp only [hi] at h
          rw [← Except.ok.inj h]
          exact mapSetAdd_allP _ _ inst.off t.off hd1 (htOff t hi)
      · split at h
        · rcases hi : instsIndexArgval st.insts inst.argval with e1 | t
          · simp only [hi] at h
            exact absurd h (by simp)
          · simp only [hi] at h
            rw [← Except.ok.inj h]
            exact mapSetAdd_allP _ _ OFF_RAISED t.off hd1 (htOff t hi)
        · rw [← Except.ok.inj h]
          exact hd1

theorem step2Dispatch_guard (nexts : List (Int × Int)) (staleDst : Option Int)
    (st : Step2State) (inst : Inst) (dsts : List (Int × List Int))
    (hd : NNVals dsts) (hnx : ∀ p ∈ nexts, 0 ≤ p.2)
    (hins : InstsWF st.insts) (hok : InstOK inst) :
    (∀ e, step2Dispatch nexts staleDst st inst dsts = .error e →
      e ≠ .assertLine) ∧
    (∀ st2, step2Dispatch nexts staleDst st inst dsts = .ok st2 →
      InstsWF st2.insts ∧ NNVals st2.dsts) := by
  have htD : ∀ (d : Int) (t : Inst), 0 ≤ d → assocIndex st.insts d = .ok t →
      0 ≤ t.off := by
    intro d t hdp ha
    rw [(hins (d, t) (assocIndex_ok_mem ha)).1]
    exact hdp
  constructor
  · intro e h
    unfold step2Dispatch at h
    simp only [Bind.bind, Except.bind, pure, Except.pure] at h
    split at h
    · rcases hb : break_loop_dst inst staleDst st.insts with e1 | d
      · simp only [hb] at h
        rw [← Except.error.inj h]
        exact break_loop_dst_err hb
      · simp only [hb] at h
        exact absurd h (by simp)
    · split at h
      · rcases hf : find_block_dst_off inst
            [SETUP_ASYNC_WITH, SETUP_FINALLY, SETUP_WITH] with _ | d
        · simp only [hf] at h
          exact absurd h (by simp)
        · simp only [hf] at h
          split at h
          · rcases ha : assocIndex st.insts d with e1 | t
            · simp only [ha] at h
              rw [← Except.error.inj h]
              rw [assocIndex_err ha]
              decide
            · simp only [ha] at h
              exact absurd h (by simp)
          · exact absurd h (by simp)
      · split at h
        · rcases hf : find_block_dst_off inst [SETUP_EXCEPT, SETUP_FINALLY]
              with _ | d
          · simp only [hf] at h
            exact absurd h (by simp)
          · simp only [hf] at h
            split at h
            · rcases ha : assocIndex st.insts d with e1 | t
              · simp only [ha] at h
                rw [← Except.error.inj h]
                rw [assocIndex_err ha]
                decide
              · simp only [ha] at h
                exact absurd h (by simp)
            · exact absurd h (by simp)
        · split at h
          · rcases hf : find_block_dst_off inst
                [SETUP_ASYNC_WITH, SETUP_FINALLY, SETUP_WITH] with _ | d
            · simp only [hf] at h
              exact absurd h (by simp)
            · simp only [hf] at h
              split at h
              · rcases ha : assocIndex st.insts d with e1 | t
                · simp only [ha] at h
                  rw [← Except.error.inj h]
                  rw [assocIndex_err ha]
                  decide
                · simp only [ha] at h
                  exact absurd h (by simp)
              · exact absurd h (by simp)
          · split at h
            · rcases ha : assocIndex nexts inst.off with e1 | nxtOff
              · simp only [ha] at h
                rw [← Except.error.inj h]
                rw [assocIndex_err ha]
                decide
              · simp only [ha] at h
                rcases ha2 : assocIndex st.insts nxtOff with e2 | nxt
                · simp only [ha2] at h
                  rw [← Except.error.inj h]
                  rw [assocIndex_err ha2]
                  decide
                · simp only [ha2] at h
                  rcases hsf : is_SF_exc_opt nxt st.insts with e3 | rs
                  · simp only [hsf] at h
                    rw [← Except.error.inj h]
                    rw [is_SF_exc_opt_err hsf]
                    decide
                  · simp only [hsf] at h
                    split at h
                    · rcases hi : instsIndexArgval st.insts inst.argval
                          with e4 | handler
                      · simp only [hi] at h
                        rw [← Except.error.inj h]
                        rw [instsIndexArgval_err hi]
                        decide
                      · simp only [hi] at h
                        exact absurd h (by simp)
                    · exact absurd h (by simp)
            · split at h
              · rcases ha : assocIndex nexts inst.off with e1 | nxt
                · simp only [ha] at h
                  rw [← Except.error.inj h]
                  rw [assocIndex_err ha]
                  decide
                · simp only [ha] at h
                  exact absurd h (by simp)
              · split at h
                · rcases ha : assocIndex nexts inst.off with e1 | nxt
                  · simp only [ha] at h
                    rw [← Except.error.inj h]
                    rw [assocIndex_err ha]
                    decide
                  · simp only [ha] at h
                    exact absurd h (by simp)
                · exact absurd h (by simp)
  · intro st2 h
    unfold step2Dispatch at h
    simp only [Bind.bind, Except.bind, pure, Except.pure] at h
    split at h
    · rename_i hop
      have hoffI : 0 ≤ inst.off := hok.2.2 (by rw [hop]; decide) (by rw [hop]; decide)
      rcases hb : break_loop_dst inst staleDst st.insts with e1 | d
      · simp only [hb] at h
        exact absurd h (by simp)
      · simp only [hb] at h
        rw [← Except.ok.inj h]
        refine ⟨hins, ?_⟩
        obtain ⟨b, hbmem, hbd⟩ := break_loop_dst_ok hb
        refine mapSetAdd_allP _ dsts inst.off d hd ?_
        rw [← hbd]
        exact hok.2.1 b hbmem
    · rename_i hop1
      split at h
      · rename_i hop
        have hoffI : 0 ≤ inst.off :=
          hok.2.2 (by rw [hop]; decide) (by rw [hop]; decide)
        rcases hf : find_block_dst_off inst
            [SETUP_ASYNC_WITH, SETUP_FINALLY, SETUP_WITH] with _ | d
        · simp only [hf] at h
          rw [← Except.ok.inj h]
          exact ⟨hins, hd⟩
        · simp only [hf] at h
          split at h
          · rcases ha : assocIndex st.insts d with e1 | t
            · simp only [ha] at h
              exact absurd h (by simp)
            · simp only [ha] at h
              rw [← Except.ok.inj h]
              refine ⟨hins, mapSetAdd_allP _ dsts inst.off t.off hd ?_⟩
              obtain ⟨b, hbmem, hbd⟩ := find_block_dst_off_mem hf
              exact htD d t (hbd ▸ hok.2.1 b hbmem) ha
          · rw [← Except.ok.inj h]
            exact ⟨hins, hd⟩
      · rename_i hop2
        split at h
        · rcases hf : find_block_dst_off inst [SETUP_EXCEPT, SETUP_FINALLY]
              with _ | d
          · simp only [hf] at h
            rw [← Except.ok.inj h]
            exact ⟨hins, hd⟩
          · simp only [hf] at h
            split at h
            · rcases ha : assocIndex st.insts d with e1 | t
              · simp only [ha] at h
                exact absurd h (by simp)
              · simp only [ha] at h
                rw [← Except.ok.inj h]
                refine ⟨hins, mapSetAdd_allP _ dsts OFF_RAISED t.off hd ?_⟩
                obtain ⟨b, hbmem, hbd⟩ := find_block_dst_off_mem hf
                exact htD d t (hbd ▸ hok.2.1 b hbmem) ha
            · rw [← Except.ok.inj h]
              exact ⟨hins, hd⟩
        · rename_i hop3
          split at h
          · rename_i hop
            have hoffI : 0 ≤ inst.off :=
              hok.2.2 (by rw [hop]; decide) (by rw [hop]; decide)
            rcases hf : find_block_dst_off inst
                [SETUP_ASYNC_WITH, SETUP_FINALLY, SETUP_WITH] with _ | d
            · simp only [hf] at h
              rw [← Except.ok.inj h]
              exact ⟨hins, hd⟩
            · simp only [hf] at h
              split at h
              · rcases ha : assocIndex st.insts d with e1 | t
                · simp only [ha] at h
                  exact absurd h (by simp)
                · simp only [ha] at h
                  rw [← Except.ok.inj h]
                  refine ⟨hins, mapSetAdd_allP _ dsts inst.off t.off hd ?_⟩
                  obtain ⟨b, hbmem, hbd⟩ := find_block_dst_off_mem hf
                  exact htD d t (hbd ▸ hok.2.1 b hbmem) ha
              · rw [← Except.ok.inj h]
                exact ⟨hins, hd⟩
          · split at h
            · rcases ha : assocIndex nexts inst.off with e1 | nxtOff
              · simp only [ha] at h
                exact absurd h (by simp)
              · simp only [ha] at h
                rcases ha2 : assocIndex st.insts nxtOff with e2 | nxt
                · simp only [ha2] at h
                  exact absurd h (by simp)
                · simp only [ha2] at h
                  rcases hsf : is_SF_exc_opt nxt st.insts with e3 | rs
                  · simp only [hsf] at h
                    exact absurd h (by simp)
                  · simp only [hsf] at h
                    split at h
                    · rcases hi : instsIndexArgval st.insts inst.argval
                          with e4 | handler
                      · simp only [hi] at h
                        exact absurd h (by simp)
                      · simp only [hi] at h
                        rw [← Except.ok.inj h]
                        obtain ⟨n, hvint, hmem⟩ := instsIndexArgval_ok_mem hi
                        have hwf := hins (n, handler) hmem
                        refine ⟨?_, hd⟩
                        refine assocSet_pres (fun p => InstWF p.1 p.2) st.insts
                          handler.off _ hins ?_
                        refine ⟨rfl, ?_, hwf.2.2.1, hwf.2.2.2.1, hwf.2.2.2.2⟩
                        intro hh
                        rw [hwf.1] at hh
                        exact hwf.2.1 hh
                    · rw [← Except.ok.inj h]
                      exact ⟨hins, hd⟩
            · split at h
              · rcases ha : assocIndex nexts inst.off with e1 | nxt
                · simp only [ha] at h
                  exact absurd h (by simp)
                · simp only [ha] at h
                  rw [← Except.ok.inj h]
                  refine ⟨hins, mapSetAdd_allP _ dsts OFF_BEGIN nxt hd ?_⟩
                  exact hnx (inst.off, nxt) (assocIndex_ok_mem ha)
              · split at h
                · rename_i hop
                  have hoffI : 0 ≤ inst.off :=
                    hok.2.2 (by rw [hop]; decide) (by rw [hop]; decide)
                  rcases ha : assocIndex nexts inst.off with e1 | nxt
                  · simp only [ha] at h
                    exact absurd h (by simp)
                  · simp only [ha] at h
                    rw [← Except.ok.inj h]
                    refine ⟨hins, ?_⟩
                    refine mapSetAdd_allP _ _ OFF_RAISED nxt ?_ ?_
                    · exact mapSetAdd_allP _ dsts OFF_BEGIN inst.off hd hoffI
                    · exact hnx (inst.off, nxt) (assocIndex_ok_mem ha)
                · rw [← Except.ok.inj h]
                  exact ⟨hins, hd⟩

theorem step2Inst_guard (nexts : List (Int × Int)) (staleDst : Option Int)
    (st : Step2State) (inst : Inst)
    (hnx : ∀ p ∈ nexts, 0 ≤ p.2) (hok : InstOK inst)
    (hinv : InstsWF st.insts ∧ NNVals st.dsts) :
    (∀ e, step2Inst nexts staleDst st inst = .error e → e ≠ .assertLine) ∧
    (∀ st2, step2Inst nexts staleDst st inst = .ok st2 →
      InstsWF st2.insts ∧ NNVals st2.dsts) := by
  constructor
  · intro e h
    unfold step2Inst at h
    simp only [Bind.bind, Except.bind, pure, Except.pure] at h
    split at h
    · exact absurd h (by simp)
    · rcases hp : step2Pre nexts st inst with e1 | dsts2
      · simp only [hp] at h
        rw [← Except.error.inj h]
        exact (step2Pre_guard nexts st inst hinv.2 hnx hinv.1 hok).1 e1 hp
      · simp only [hp] at h
        exact (step2Dispatch_guard nexts staleDst st inst dsts2
          ((step2Pre_guard nexts st inst hinv.2 hnx hinv.1 hok).2 dsts2 hp)
          hnx hinv.1 hok).1 e h
  · intro st2 h
    unfold step2Inst at h
    simp only [Bind.bind, Except.bind, pure, Except.pure] at h
    split at h
    · rw [← Except.ok.inj h]
      exact hinv
    · rcases hp : step2Pre nexts st inst with e1 | dsts2
      · simp only [hp] at h
        exact absurd h (by simp)
      · simp only [hp] at h
        exact (step2Dispatch_guard nexts staleDst st inst dsts2
          ((step2Pre_guard nexts st inst hinv.2 hnx hinv.1 hok).2 dsts2 hp)
          hnx hinv.1 hok).2 st2 h

theorem buildDsts_guard (scan : ScanState) (hs : ScanWF scan) :
    (∀ e, buildDsts scan = .error e → e ≠ .assertLine) ∧
    (∀ st2, buildDsts scan = .ok st2 →
      InstsWF st2.insts ∧ NNVals st2.dsts) := by
  have hQ : ∀ a ∈ scan.insts.map (·.2), InstOK a := by
    intro a ha
    obtain ⟨p, hp, hpa⟩ := List.mem_map.mp ha
    rw [← hpa]
    exact (hs.instsWF p hp).2.2
  have h2 := foldlM_pres_err
    (fun st2 : Step2State => InstsWF st2.insts ∧ NNVals st2.dsts) InstOK
    (step2Inst scan.nexts scan.staleDst)
    (fun s a s2 hQa hInv hf =>
      (step2Inst_guard scan.nexts scan.staleDst s a hs.nextsWF hQa hInv).2 s2 hf)
    (fun s a e hQa hInv hf =>
      (step2Inst_guard scan.nexts scan.staleDst s a hs.nextsWF hQa hInv).1 e hf)
    (scan.insts.map (·.2)) { dsts := [], insts := scan.insts } hQ
    ⟨hs.instsWF, fun p hp => absurd hp (List.not_mem_nil p)⟩
  exact ⟨h2.1, h2.2⟩

theorem crawl_no_assertLine (r0 : RawInst) (rest : List RawInst)
    (hr : ∀ r ∈ r0 :: rest, rawOK r) (hhead : pyTruthy r0.starts_line = true) :
    ∀ e, crawl_code_insts (r0 :: rest) = .error e → e ≠ .assertLine := by
  intro e h
  unfold crawl_code_insts at h
  simp only [Bind.bind, Except.bind, pure, Except.pure] at h
  split at h
  · rename_i e1 hscan
    rw [← Except.error.inj h]
    exact (scanInsts_guard r0 rest hr hhead).1 e1 hscan
  · rename_i scan hscan
    have hswf : ScanWF scan := (scanInsts_guard r0 rest hr hhead).2 scan hscan
    split at h
    · rename_i e1 hb
      rw [← Except.error.inj h]
      exact (buildDsts_guard scan hswf).1 e1 hb
    · rename_i st2 hb
      have hinv := (buildDsts_guard scan hswf).2 st2 hb
      split at h
      · rename_i e1 ha
        rw [← Except.error.inj h]
        exact (buildArcs_guard st2.dsts (buildSrcs st2.dsts)
          ((r0 :: rest).length + 3) hinv.2).1 e1 ha
      · rename_i arcs ha
        have harcs : NNVals arcs := (buildArcs_guard st2.dsts (buildSrcs st2.dsts)
          ((r0 :: rest).length + 3) hinv.2).2 arcs ha
        have hvis_ok : ∀ t : Int × Int × Bool, (0 < t.2.1 ∨ t.2.1 < 0) →
            ∀ ys, (emit_from_triple st2.insts scan.nexts st2.dsts
                (buildSrcs st2.dsts) arcs t).map (·.2) = .ok ys →
              ∀ y ∈ ys, 0 < y.2.1 ∨ y.2.1 < 0 := by
          intro t htr ys hys y hy
          rcases het : emit_from_triple st2.insts scan.nexts st2.dsts
              (buildSrcs st2.dsts) arcs t with e2 | pr
          · simp only [het, Except.map] at hys
            exact absurd hys (by simp)
          · simp only [het, Except.map] at hys
            rw [← Except.ok.inj hys] at hy
            exact (emit_from_triple_guard st2.insts scan.nexts st2.dsts
              (buildSrcs st2.dsts) arcs hinv.1 harcs t htr).2 pr.1 pr.2 het y hy
        have hvis_err : ∀ t : Int × Int × Bool, (0 < t.2.1 ∨ t.2.1 < 0) →
            ∀ e2, (emit_from_triple st2.insts scan.nexts st2.dsts
                (buildSrcs st2.dsts) arcs t).map (·.2) = .error e2 →
              e2 ≠ .assertLine := by
          intro t htr e2 he2
          rcases het : emit_from_triple st2.insts scan.nexts st2.dsts
              (buildSrcs st2.dsts) arcs t with e3 | pr
          · simp only [het, Except.map] at he2
            rw [← Except.error.inj he2]
            exact (emit_from_triple_guard st2.insts scan.nexts st2.dsts
              (buildSrcs st2.dsts) arcs hinv.1 harcs t htr).1 e3 het
          · simp only [het, Except.map] at he2
            exact absurd he2 (by simp)
        have hstarts : ∀ t ∈ [((OFF_BEGIN : Int), (LINE_BEGIN : Int), false),
            (OFF_RAISED, LINE_RAISED, false)], 0 < t.2.1 ∨ t.2.1 < 0 := by
          intro t ht
          rcases List.mem_cons.mp ht with rfl | ht2
          · exact Or.inr (by decide)
          · rw [List.mem_singleton.mp ht2]
            exact Or.inr (by decide)
        split at h
        · rename_i e1 hv
          rw [← Except.error.inj h]
          exact visit_nodes_pres_err _ _ hvis_ok hvis_err _ _ [] hstarts e1 hv
        · rename_i visited hv
          have hvP : ∀ t ∈ visited, 0 < t.2.1 ∨ t.2.1 < 0 :=
            visit_nodes_inv hvis_ok _ _ [] hstarts
              (fun x hx => absurd hx (List.not_mem_nil x)) visited hv
          split at h
          · rename_i e1 hrec
            rw [← Except.error.inj h]
            refine (foldlM_pres_err (fun _ => True)
              (fun t : Int × Int × Bool => 0 < t.2.1 ∨ t.2.1 < 0) _
              (fun s a s2 _ _ _ => trivial) ?_ visited [] hvP trivial).1 e1 hrec
            intro s a e2 hQa _ hf
            rcases het : emit_from_triple st2.insts scan.nexts st2.dsts
                (buildSrcs st2.dsts) arcs a with e3 | pr
            · simp only [het, Except.map] at hf
              rw [← Except.error.inj hf]
              exact (emit_from_triple_guard st2.insts scan.nexts st2.dsts
                (buildSrcs st2.dsts) arcs hinv.1 harcs a hQa).1 e3 het
            · simp only [het, Except.map] at hf
              exact absurd hf (by simp)
          · exact absurd h (by simp)

/-- The decidable check of `rawOK` for a concrete raw instruction. -/
def rawOKb (r : RawInst) : Bool :=
  decide (0 ≤ r.offset) &&
  (match r.argval with | .vint n => decide (0 ≤ n) | _ => true) &&
  (match r.starts_line with | some n => decide (0 < n) | none => true)

theorem rawOK_of_b {r : RawInst} (h : rawOKb r = true) : rawOK r := by
  unfold rawOKb at h
  simp only [Bool.and_eq_true, decide_eq_true_eq] at h
  refine ⟨h.1.1, ?_, ?_⟩
  · intro n hn
    have h2 := h.1.2
    rw [hn] at h2
    simp only [decide_eq_true_eq] at h2
    exact h2
  · intro n hn
    have h2 := h.2
    rw [hn] at h2
    simp only [decide_eq_true_eq] at h2
    exact h2

/-- C8 (amended): for a code unit whose raw instruction stream is
well-formed `dis` output (non-negative offsets and integer argvals,
positive starts-lines) and whose first instruction carries a starts-line,
the `assert line > 0` of `emit_edges` never fails: `crawl_code_insts`
cannot return the assertLine error.  On success every line either
returned map attributes is positive, and the per-unit coverage pass —
including the `add_edges` assertion — succeeds outright whenever every
traced edge's *observed* line is positive as well.  The observed line is
the one input the starts-line condition does not guard: the
counterexample traces a required edge on line 0 and fails `add_edges`. -/
theorem crawl_assert_guarded (r0 : RawInst) (rest : List RawInst)
    (hwf : ∀ r ∈ r0 :: rest, rawOK r)
    (hhead : pyTruthy r0.starts_line = true) :
    crawl_code_insts (r0 :: rest) ≠ .error .assertLine ∧
    ∀ req opt, crawl_code_insts (r0 :: rest) = .ok (req, opt) →
      (∀ p ∈ req, ∀ l ∈ p.2, 0 < l) ∧
      (∀ p ∈ opt, ∀ l ∈ p.2, 0 < l) ∧
      (∀ (code : CodeUnit) (traced : List (Int × Int × Int)) (cov : Coverage),
        code.insts = r0 :: rest → (∀ t ∈ traced, 0 < t.2.2) →
        ∃ cov2, cover_one_code cov code traced = .ok cov2) := by
  constructor
  · intro hcontra
    exact crawl_no_assertLine r0 rest hwf hhead .assertLine hcontra rfl
  · intro req opt hok
    obtain ⟨hreq, hopt⟩ := crawl_ok_allPos (r0 :: rest) req opt hok
    refine ⟨hreq, hopt, ?_⟩
    intro code traced cov hcode htr
    unfold cover_one_code
    rw [hcode, hok]
    simp only [Bind.bind, Except.bind]
    obtain ⟨cov1, h1⟩ := add_edges_ok code COV_REQ req hreq cov
    rw [h1]
    exact add_edges_ok code COV_MATCHED (reconcile req opt traced)
      (reconcile_allPos req opt traced hreq htr) cov1

/-- Witness for the amended C8 theorem: `progConstReturn` is well-formed
with a starts-line on its first instruction, so its analysis cannot die
of the line assertion, and tracing `(-1, 0)` on its attributed line 2
covers it. -/
theorem crawl_assert_guarded_witness :
    crawl_code_insts progConstReturn ≠ .error .assertLine ∧
    ∃ cov2, cover_one_code [] unitConstReturn [(-1, 0, 2)] = .ok cov2 := by
  have hwf : ∀ r ∈ progConstReturn, rawOK r := by
    intro r hr
    rcases List.mem_cons.mp hr with rfl | hr2
    · exact rawOK_of_b (by decide)
    · rw [List.mem_singleton.mp hr2]
      exact rawOK_of_b (by decide)
  have h := crawl_assert_guarded
    { opcode := LOAD_CONST, argval := .vint 1, argrepr := "",
      offset := 0, starts_line := some 2 }
    [ { opcode := RETURN_VALUE, argval := .vnone, argrepr := "",
        offset := 2, starts_line := none } ] hwf (by decide)
  refine ⟨h.1, ?_⟩
  refine (h.2 [(((-1 : Int), (0 : Int)), [(2 : Int)]), ((0, 2), [2])] []
    (by decide)).2.2 unitConstReturn [(-1, 0, 2)] [] rfl ?_
  intro t ht
  rw [List.mem_singleton.mp ht]
  decide
